import Mathlib

/-! ROOT-Sim: state saving and restore of LP memory (`src/mm/checkpoints.c`)

A shallow embedding of the checkpointing engine of ROOT-Sim and the
properties of it that are stated in the specification.

Modelling conventions.

* A C pointer to a buffer is an unbounded array: `Nat → Bool` for the bits of
  a bitmap, `Nat → Nat` for the bytes of a chunk area, `Nat → malloc_area` for
  the `areas` array.  Bit `i` of a bitmap of `n` bytes exists for `i < 8 * n`.
* `struct malloc_area` is split in the scalar fields that `memcpy` of the
  struct transports (`malloc_area_hdr`) and the three buffers the pointer
  fields name.  A slot keeps its buffers for its whole life, so copying a
  logged header over a live slot leaves the slot's buffers in place; the field
  `has_bitmap` stands for `use_bitmap != NULL`.
* A checkpoint is the copied `malloc_state` header followed by the list of the
  records that the successive `memcpy` calls wrote (`Item`).  The byte cursor
  `ptr` is kept as an offset from the start of the checkpoint and advances by
  the very amounts the C code adds.  A reader that does not find at its cursor
  a record of the kind and length it reads stops with `Fatal.bad_read`.
* `rootsim_error(true, ...)` does not return: it is an `Except.error`.
* C `int`/`size_t` values are natural numbers (no wrap-around is modelled);
  `simtime_t` values are integers.
* Timers and `statistics_post_data` have no effect on the memory image and are
  left out; `malloc` of a checkpoint is taken to succeed.
-/

namespace RootSim

/-- Constants of the platform that `mm/dymelor.h` and `datatypes/bitmap.h`
define: `sizeof(malloc_state)`, `sizeof(malloc_area)` (a struct has at least
one byte), the macro `bitmap_required_size` and the macro
`UNTAGGED_CHUNK_SIZE` as a function of the `chunk_size` field. -/
structure Platform where
  sizeof_malloc_state : Nat
  sizeof_malloc_area : Nat
  bitmap_required_size : Nat → Nat
  untagged_chunk_size : Nat → Nat
  sizeof_malloc_area_pos : 0 < sizeof_malloc_area

/-- Scalar fields of `struct malloc_area`.  `log_mode` and `area_lock` are the
two flag bits (`CHECK_LOG_MODE_BIT`, `RESET_LOG_MODE_BIT`,
`RESET_AREA_LOCK_BIT`); `has_bitmap` is `use_bitmap != NULL`. -/
structure malloc_area_hdr where
  idx : Nat
  prev : Nat
  next : Nat
  num_chunks : Nat
  alloc_chunks : Nat
  next_chunk : Nat
  chunk_size : Nat
  state_changed : Nat
  dirty_chunks : Nat
  last_access : Int
  log_mode : Bool
  area_lock : Bool
  has_bitmap : Bool
deriving DecidableEq, Repr

/-- One slot of the `areas` array: the header and the buffers it points to. -/
structure malloc_area extends malloc_area_hdr where
  use_bitmap : Nat → Bool
  dirty_bitmap : Nat → Bool
  area : Nat → Nat

/-- Fields of `struct malloc_state` other than the `areas` pointer. -/
structure malloc_state_hdr where
  is_incremental : Bool
  total_log_size : Nat
  total_inc_size : Nat
  num_areas : Nat
  max_num_areas : Nat
  timestamp : Int
deriving DecidableEq, Repr

/-- The memory map of one LP (`struct malloc_state`). -/
structure malloc_state extends malloc_state_hdr where
  areas : Nat → malloc_area

/-- The part of `struct lp_struct` the engine uses: `lp->mm->m_state`, the
force-full flag and the value of `lvt(lp)`. -/
structure lp_struct where
  m_state : malloc_state
  state_log_full_forced : Bool
  lvt : Int

/-- One record written into a checkpoint by one `memcpy`. -/
inductive Item where
  | hdr (a : malloc_area_hdr)
  | bitmap (b : List Bool)
  | bytes (l : List Nat)
deriving DecidableEq, Repr

/-- A checkpoint: the `malloc_state` header at offset 0 and what follows. -/
structure Ckpt where
  state : malloc_state_hdr
  items : List Item
deriving DecidableEq, Repr

/-- Ways in which the engine stops the simulation. -/
inductive Fatal where
  | corrupt_layout
  | invariant_violation
  | corrupt_chain
  | bad_read
  | out_of_bounds
deriving DecidableEq, Repr

/-- Values of `rootsim_config.snapshot`. -/
inductive Snapshot where
  | SNAPSHOT_FULL
  | SNAPSHOT_INCREMENTAL
deriving DecidableEq, Repr

/-- Bytes a record occupies in the checkpoint. -/
def Item.size (P : Platform) : Item → Nat
  | Item.hdr _ => P.sizeof_malloc_area
  | Item.bitmap b => b.length / 8
  | Item.bytes l => l.length

/-- Bytes occupied by a list of records. -/
def items_size (P : Platform) (l : List Item) : Nat :=
  (l.map (Item.size P)).sum

/-- Bytes occupied by a checkpoint: its header and its records. -/
def Ckpt.bytes_written (P : Platform) (c : Ckpt) : Nat :=
  P.sizeof_malloc_state + items_size P c.items

/-- The copy out of a bitmap made by `memcpy(ptr, bitmap, bitmap_size)`. -/
def read_bitmap (b : Nat → Bool) (bitmap_size : Nat) : List Bool :=
  (List.range (8 * bitmap_size)).map b

/-- The copy into a bitmap made by `memcpy(bitmap, ptr, bitmap_size)`. -/
def write_bitmap (b : Nat → Bool) (bits : List Bool) : Nat → Bool :=
  fun i => if i < bits.length then bits.getD i false else b i

/-- The effect of `memset(bitmap, 0, bitmap_size)`. -/
def bitmap_memset0 (b : Nat → Bool) (bitmap_size : Nat) : Nat → Bool :=
  fun i => if i < 8 * bitmap_size then false else b i

/-- The macro `bitmap_check`. -/
def bitmap_check (b : Nat → Bool) (x : Nat) : Bool := b x

/-- The macro `bitmap_reset`. -/
def bitmap_reset (b : Nat → Bool) (x : Nat) : Nat → Bool :=
  fun i => if i = x then false else b i

/-- Modelled from the spec: the macro `bitmap_foreach_set` of
`datatypes/bitmap.h` visits every set bit of the `bitmap_size` bytes in
ascending order; this is the list of the visited indices. -/
def bitmap_set_bits (b : Nat → Bool) (bitmap_size : Nat) : List Nat :=
  (List.range (8 * bitmap_size)).filter (fun i => b i)

/-- Number of set bits of a bitmap of `bitmap_size` bytes. -/
def popcount (b : Nat → Bool) (bitmap_size : Nat) : Nat :=
  (bitmap_set_bits b bitmap_size).length

/-- The bytes read by `memcpy(ptr, area + off, n)`. -/
def read_bytes (m : Nat → Nat) (off n : Nat) : List Nat :=
  (List.range n).map (fun j => m (off + j))

/-- The effect of `memcpy(area + off, ptr, n)` where `l` are the `n` bytes
at `ptr`. -/
def write_bytes (m : Nat → Nat) (off : Nat) (l : List Nat) : Nat → Nat :=
  fun a => if off ≤ a ∧ a < off + l.length then l.getD (a - off) 0 else m a

/-- Assignment to `m_state->areas[i]`. -/
def set_area (m : malloc_state) (i : Nat) (a : malloc_area) : malloc_state :=
  { m with areas := Function.update m.areas i a }

/-- Bytes of one area in a full log, as the spec describes the precomputed
size: nothing for an area without allocated chunks, otherwise the area
header, the use bitmap and the payload. -/
def area_full_size (P : Platform) (a : malloc_area_hdr) : Nat :=
  if a.alloc_chunks = 0 then 0
  else P.sizeof_malloc_area + P.bitmap_required_size a.num_chunks +
    (if a.log_mode then a.num_chunks * P.untagged_chunk_size a.chunk_size
     else a.alloc_chunks * P.untagged_chunk_size a.chunk_size)

/-- Modelled from the spec: `get_log_size` (mm/dymelor.c) is not part of the
sources at hand.  For a full log the spec gives the precomputed size as the
header plus, for each area with `alloc_chunks > 0`, the area header, the use
bitmap and the payload (`num_chunks * chunk_size` for a LOG_MODE area,
`alloc_chunks * chunk_size` otherwise). -/
def get_log_size (P : Platform) (m_state : malloc_state) : Nat :=
  P.sizeof_malloc_state +
    ((List.range m_state.num_areas).map
      (fun i => area_full_size P (m_state.areas i).tomalloc_area_hdr)).sum

/-- State of a function that writes a checkpoint: the live memory map, the
cursor `ptr` and the records written so far. -/
structure LogCursor where
  m_state : malloc_state
  ptr : Nat
  log : List Item

/-- The macro `copy_from_area(x)` of `log_full` and `log_incremental`. -/
def copy_from_area (m_area : malloc_area) (chunk_size : Nat)
    (c : Nat × List Item) (x : Nat) : Nat × List Item :=
  (c.1 + chunk_size, c.2 ++ [Item.bytes (read_bytes m_area.area (x * chunk_size) chunk_size)])

/-- Body of the loop over the areas in `log_full`. -/
def log_full_area (P : Platform) (c : LogCursor) (i : Nat) : LogCursor :=
  let m_area := c.m_state.areas i
  let bitmap_size := P.bitmap_required_size m_area.num_chunks
  let m_area : malloc_area := { m_area with state_changed := 0, dirty_chunks := 0 }
  let m_area : malloc_area :=
    if m_area.has_bitmap then
      { m_area with dirty_bitmap := bitmap_memset0 m_area.dirty_bitmap bitmap_size }
    else m_area
  let m_state := set_area c.m_state i m_area
  if m_area.alloc_chunks = 0 then
    { m_state := m_state, ptr := c.ptr, log := c.log }
  else
    let ptr := c.ptr + P.sizeof_malloc_area
    let log := c.log ++ [Item.hdr m_area.tomalloc_area_hdr]
    let ptr := ptr + bitmap_size
    let log := log ++ [Item.bitmap (read_bitmap m_area.use_bitmap bitmap_size)]
    let chunk_size := P.untagged_chunk_size m_area.chunk_size
    if m_area.log_mode then
      { m_state := m_state,
        ptr := ptr + m_area.num_chunks * chunk_size,
        log := log ++ [Item.bytes (read_bytes m_area.area 0 (m_area.num_chunks * chunk_size))] }
    else
      let r := (bitmap_set_bits m_area.use_bitmap bitmap_size).foldl
        (copy_from_area m_area chunk_size) (ptr, log)
      { m_state := m_state, ptr := r.1, log := r.2 }

/-- The function `log_full`: on success the LP after the call and the
checkpoint returned. -/
def log_full (P : Platform) (lp : lp_struct) : Except Fatal (lp_struct × Ckpt) :=
  let m_state : malloc_state := { lp.m_state with is_incremental := false }
  let size := get_log_size P m_state
  let ckpt_state : malloc_state_hdr := { m_state.tomalloc_state_hdr with timestamp := lp.lvt }
  let c := (List.range m_state.num_areas).foldl (log_full_area P)
    { m_state := m_state, ptr := P.sizeof_malloc_state, log := [] }
  if size ≠ c.ptr then
    Except.error Fatal.corrupt_layout
  else
    let m_state : malloc_state := { c.m_state with total_inc_size := P.sizeof_malloc_state }
    Except.ok ({ lp with m_state := m_state }, { state := ckpt_state, items := c.log })

/-- Body of the loop over the areas in `log_incremental`. -/
def log_incremental_area (P : Platform) (c : LogCursor) (i : Nat) : Except Fatal LogCursor :=
  let m_area := c.m_state.areas i
  let bitmap_size := P.bitmap_required_size m_area.num_chunks
  if m_area.state_changed = 0 then
    if m_area.dirty_chunks ≠ 0 then Except.error Fatal.invariant_violation
    else Except.ok c
  else
    let ptr := c.ptr + P.sizeof_malloc_area
    let log := c.log ++ [Item.hdr m_area.tomalloc_area_hdr]
    let ptr := ptr + bitmap_size
    let log := log ++ [Item.bitmap (read_bitmap m_area.use_bitmap bitmap_size)]
    if m_area.dirty_chunks = 0 then
      let m_area : malloc_area := { m_area with state_changed := 0 }
      Except.ok { m_state := set_area c.m_state i m_area, ptr := ptr, log := log }
    else
      let ptr := ptr + bitmap_size
      let log := log ++ [Item.bitmap (read_bitmap m_area.dirty_bitmap bitmap_size)]
      let chunk_size := P.untagged_chunk_size m_area.chunk_size
      let r := (bitmap_set_bits m_area.dirty_bitmap bitmap_size).foldl
        (copy_from_area m_area chunk_size) (ptr, log)
      let m_area : malloc_area :=
        { m_area with state_changed := 0, dirty_chunks := 0,
                      dirty_bitmap := bitmap_memset0 m_area.dirty_bitmap bitmap_size }
      Except.ok { m_state := set_area c.m_state i m_area, ptr := r.1, log := r.2 }

/-- The loop over the areas `i, i+1, ..., i+n-1` in `log_incremental`. -/
def log_incremental_loop (P : Platform) : Nat → Nat → LogCursor → Except Fatal LogCursor
  | 0, _, c => Except.ok c
  | n + 1, i, c =>
    match log_incremental_area P c i with
    | Except.error e => Except.error e
    | Except.ok c1 => log_incremental_loop P n (i + 1) c1

/-- The function `log_incremental`. -/
def log_incremental (P : Platform) (lp : lp_struct) : Except Fatal (lp_struct × Ckpt) :=
  let m_state := lp.m_state
  let size := m_state.total_inc_size
  let ckpt_state : malloc_state_hdr :=
    { m_state.tomalloc_state_hdr with timestamp := lp.lvt, is_incremental := true }
  match log_incremental_loop P m_state.num_areas 0
      { m_state := m_state, ptr := P.sizeof_malloc_state, log := [] } with
  | Except.error e => Except.error e
  | Except.ok c =>
    if c.ptr ≠ size then
      Except.error Fatal.corrupt_layout
    else
      let m_state : malloc_state := { c.m_state with total_inc_size := P.sizeof_malloc_state }
      Except.ok ({ lp with m_state := m_state }, { state := ckpt_state, items := c.log })

/-- The function `set_force_full`. -/
def set_force_full (lp : lp_struct) : lp_struct :=
  { lp with state_log_full_forced := true }

/-- The function `log_state`, for a given value of `rootsim_config.snapshot`. -/
def log_state (P : Platform) (snapshot : Snapshot) (lp : lp_struct) :
    Except Fatal (lp_struct × Ckpt) :=
  if snapshot ≠ Snapshot.SNAPSHOT_FULL ∧ ¬ lp.state_log_full_forced then
    log_incremental P lp
  else
    log_full P { lp with state_log_full_forced := false }

/-- State of a function that reads a checkpoint: the live memory map, the
cursor `ptr` and the records from the cursor on. -/
structure RestoreCursor where
  m_state : malloc_state
  ptr : Nat
  rest : List Item

/-- The treatment in `restore_full` of an area that is not in the log. -/
def reset_unlogged (m_area : malloc_area) (bitmap_size : Nat) (timestamp : Int) : malloc_area :=
  let m_area : malloc_area :=
    { m_area with alloc_chunks := 0, next_chunk := 0, log_mode := false, area_lock := false }
  let m_area : malloc_area :=
    if m_area.has_bitmap then
      { m_area with use_bitmap := bitmap_memset0 m_area.use_bitmap bitmap_size }
    else m_area
  { m_area with last_access := timestamp }

/-- The macro `copy_to_area(x)` of `restore_full`, run over the set bits
`xs`: each chunk is taken from the cursor, which then moves on. -/
def copy_to_area (chunk_size : Nat) :
    List Nat → (Nat → Nat) → Nat → List Item → Except Fatal ((Nat → Nat) × Nat × List Item)
  | [], area, ptr, rest => Except.ok (area, ptr, rest)
  | x :: xs, area, ptr, rest =>
    match rest with
    | Item.bytes l :: rest1 =>
      if l.length ≠ chunk_size then Except.error Fatal.bad_read
      else copy_to_area chunk_size xs (write_bytes area (x * chunk_size) l)
        (ptr + chunk_size) rest1
    | _ => Except.error Fatal.bad_read

/-- Body of the loop over the areas in `restore_full`; `target_ptr` is the
offset `total_log_size` of the end of the log. -/
def restore_full_area (P : Platform) (target_ptr : Nat) (c : RestoreCursor) (i : Nat) :
    Except Fatal RestoreCursor :=
  let m_area := c.m_state.areas i
  let bitmap_size := P.bitmap_required_size m_area.num_chunks
  let m_area : malloc_area := { m_area with state_changed := 0, dirty_chunks := 0 }
  let m_area : malloc_area :=
    if m_area.has_bitmap then
      { m_area with dirty_bitmap := bitmap_memset0 m_area.dirty_bitmap bitmap_size }
    else m_area
  let unlogged : RestoreCursor :=
    { c with m_state :=
        set_area c.m_state i (reset_unlogged m_area bitmap_size c.m_state.timestamp) }
  if c.ptr ≥ target_ptr then Except.ok unlogged
  else
    match c.rest with
    | Item.hdr logged :: rest1 =>
      if m_area.idx ≠ logged.idx then Except.ok unlogged
      else
        let m_area : malloc_area := { m_area with tomalloc_area_hdr := logged }
        let ptr := c.ptr + P.sizeof_malloc_area
        match rest1 with
        | Item.bitmap bits :: rest2 =>
          if bits.length ≠ 8 * bitmap_size then Except.error Fatal.bad_read
          else
            let m_area : malloc_area :=
              { m_area with use_bitmap := write_bitmap m_area.use_bitmap bits }
            let ptr := ptr + bitmap_size
            let chunk_size := P.untagged_chunk_size m_area.chunk_size
            if m_area.log_mode then
              match rest2 with
              | Item.bytes l :: rest3 =>
                if l.length ≠ m_area.num_chunks * chunk_size then Except.error Fatal.bad_read
                else
                  let m_area : malloc_area := { m_area with area := write_bytes m_area.area 0 l }
                  Except.ok { m_state := set_area c.m_state i m_area,
                              ptr := ptr + m_area.num_chunks * chunk_size, rest := rest3 }
              | _ => Except.error Fatal.bad_read
            else
              match copy_to_area chunk_size (bitmap_set_bits m_area.use_bitmap bitmap_size)
                  m_area.area ptr rest2 with
              | Except.error e => Except.error e
              | Except.ok r =>
                let m_area : malloc_area := { m_area with area := r.1 }
                Except.ok { m_state := set_area c.m_state i m_area, ptr := r.2.1, rest := r.2.2 }
        | _ => Except.error Fatal.bad_read
    | _ => Except.error Fatal.bad_read

/-- The loop over the areas `i, i+1, ..., i+n-1` in `restore_full`. -/
def restore_full_loop (P : Platform) (target_ptr : Nat) :
    Nat → Nat → RestoreCursor → Except Fatal RestoreCursor
  | 0, _, c => Except.ok c
  | n + 1, i, c =>
    match restore_full_area P target_ptr c i with
    | Except.error e => Except.error e
    | Except.ok c1 => restore_full_loop P target_ptr n (i + 1) c1

/-- Body of the loop over the areas that the live map has beyond those of the
log (`restore_full` and `restore_incremental`). -/
def reset_trailing_area (P : Platform) (m_state : malloc_state) (i : Nat) : malloc_state :=
  let m_area := m_state.areas i
  let m_area : malloc_area :=
    { m_area with alloc_chunks := 0, state_changed := 0, dirty_chunks := 0, next_chunk := 0,
                  last_access := m_state.timestamp }
  let m_state := set_area m_state i m_area
  let m_state := set_area m_state m_area.prev { m_state.areas m_area.prev with next := m_area.idx }
  let m_area := m_state.areas i
  let m_area : malloc_area := { m_area with log_mode := false, area_lock := false }
  let m_area : malloc_area :=
    if m_area.has_bitmap then
      let bitmap_size := P.bitmap_required_size m_area.num_chunks
      { m_area with use_bitmap := bitmap_memset0 m_area.use_bitmap bitmap_size,
                    dirty_bitmap := bitmap_memset0 m_area.dirty_bitmap bitmap_size }
    else m_area
  set_area m_state i m_area

/-- The check for areas that are not present in the log and the loop over
them, at the end of `restore_full` and of `restore_incremental`. -/
def reset_trailing (P : Platform) (original_num_areas : Nat) (m_state : malloc_state) :
    malloc_state :=
  if original_num_areas > m_state.num_areas then
    let m := (List.range' m_state.num_areas (original_num_areas - m_state.num_areas)).foldl
      (reset_trailing_area P) m_state
    { m with num_areas := original_num_areas }
  else m_state

/-- The last three assignments of `restore_full` and `restore_incremental`. -/
def finish_restore (P : Platform) (m_state : malloc_state) : malloc_state :=
  { m_state with timestamp := -1, is_incremental := false,
                 total_inc_size := P.sizeof_malloc_state }

/-- The function `restore_full`. -/
def restore_full (P : Platform) (lp : lp_struct) (raw_ckpt : Ckpt) : Except Fatal lp_struct :=
  let target_ptr := raw_ckpt.state.total_log_size
  let original_num_areas := lp.m_state.num_areas
  let m_state : malloc_state := { lp.m_state with tomalloc_state_hdr := raw_ckpt.state }
  match restore_full_loop P target_ptr m_state.num_areas 0
      { m_state := m_state, ptr := P.sizeof_malloc_state, rest := raw_ckpt.items } with
  | Except.error e => Except.error e
  | Except.ok c =>
    Except.ok { lp with m_state := finish_restore P (reset_trailing P original_num_areas c.m_state) }

/-- State of `restore_incremental` while it reads one log: the live memory
map, the array `to_be_restored`, the cursor and the records from it on. -/
structure IncCursor where
  m_state : malloc_state
  to_be_restored : Nat → Option (Nat → Bool)
  ptr : Nat
  rest : List Item

/-- The bitmap that `bits`, copied from a log, holds. -/
def bitmap_of_bits (bits : List Bool) : Nat → Bool :=
  fun i => bits.getD i false

/-- The block of `restore_incremental` for a logged area met for the first
time (`to_be_restored[idx] == NULL`), in an incremental and in a full log:
the logged header and use bitmap are copied over the live area and the dirty
tracking is reset. -/
def restore_logged_hdr (m_area : malloc_area) (logged : malloc_area_hdr) (bits : List Bool)
    (bitmap_size : Nat) : malloc_area :=
  let m_area : malloc_area := { m_area with tomalloc_area_hdr := logged }
  let m_area : malloc_area := { m_area with use_bitmap := write_bitmap m_area.use_bitmap bits }
  { m_area with state_changed := 0, dirty_chunks := 0,
                dirty_bitmap := bitmap_memset0 m_area.dirty_bitmap bitmap_size }

/-- The macro `copy_to_area_check_already(x)` of `restore_incremental`, run
over the set bits `xs` of the logged bitmap: a chunk still to be restored is
copied and its bit reset; the cursor moves on in either case. -/
def copy_to_area_check_already (chunk_size : Nat) :
    List Nat → (Nat → Nat) → (Nat → Bool) → Nat → List Item →
      Except Fatal ((Nat → Nat) × (Nat → Bool) × Nat × List Item)
  | [], area, tbr, ptr, rest => Except.ok (area, tbr, ptr, rest)
  | x :: xs, area, tbr, ptr, rest =>
    match rest with
    | Item.bytes l :: rest1 =>
      if l.length ≠ chunk_size then Except.error Fatal.bad_read
      else if bitmap_check tbr x then
        copy_to_area_check_already chunk_size xs (write_bytes area (x * chunk_size) l)
          (bitmap_reset tbr x) (ptr + chunk_size) rest1
      else
        copy_to_area_check_already chunk_size xs area tbr (ptr + chunk_size) rest1
    | _ => Except.error Fatal.bad_read

/-- The macro `copy_to_area_log_mode(x)` of `restore_incremental`, run over
the set bits `xs` of `to_be_restored[idx]`: chunk `x` is taken at offset
`x * chunk_size` of the payload `l` of the area, the cursor does not move. -/
def copy_to_area_log_mode (chunk_size : Nat) (l : List Nat) :
    List Nat → (Nat → Nat) → (Nat → Bool) → Except Fatal ((Nat → Nat) × (Nat → Bool))
  | [], area, tbr => Except.ok (area, tbr)
  | x :: xs, area, tbr =>
    if x * chunk_size + chunk_size ≤ l.length then
      copy_to_area_log_mode chunk_size l xs
        (write_bytes area (x * chunk_size) ((l.drop (x * chunk_size)).take chunk_size))
        (bitmap_reset tbr x)
    else Except.error Fatal.bad_read

/-- Body of the loop over the areas of an incremental log in
`restore_incremental` (after the test that leaves the loop). -/
def restore_incremental_area (P : Platform) (c : IncCursor) : Except Fatal IncCursor :=
  match c.rest with
  | Item.hdr logged :: Item.bitmap bits :: rest2 =>
    let m_area := c.m_state.areas logged.idx
    let ptr := c.ptr + P.sizeof_malloc_area
    let chunk_size := P.untagged_chunk_size logged.chunk_size
    let bitmap_size := P.bitmap_required_size logged.num_chunks
    if logged.idx ≥ c.m_state.max_num_areas then Except.error Fatal.out_of_bounds
    else if bits.length ≠ 8 * bitmap_size then Except.error Fatal.bad_read
    else
      let s : malloc_area × (Nat → Bool) :=
        match c.to_be_restored logged.idx with
        | none => (restore_logged_hdr m_area logged bits bitmap_size, bitmap_of_bits bits)
        | some tbr => (m_area, tbr)
      let m_area := s.1
      let tbr := s.2
      let ptr := ptr + bitmap_size
      if logged.dirty_chunks = 0 then
        Except.ok { m_state := set_area c.m_state logged.idx m_area,
                    to_be_restored := Function.update c.to_be_restored logged.idx (some tbr),
                    ptr := ptr, rest := rest2 }
      else
        match rest2 with
        | Item.bitmap dirty :: rest3 =>
          if dirty.length ≠ 8 * bitmap_size then Except.error Fatal.bad_read
          else
            let ptr := ptr + bitmap_size
            match copy_to_area_check_already chunk_size
                (bitmap_set_bits (bitmap_of_bits dirty) bitmap_size) m_area.area tbr ptr rest3 with
            | Except.error e => Except.error e
            | Except.ok r =>
              let m_area : malloc_area := { m_area with area := r.1 }
              Except.ok { m_state := set_area c.m_state logged.idx m_area,
                          to_be_restored :=
                            Function.update c.to_be_restored logged.idx (some r.2.1),
                          ptr := r.2.2.1, rest := r.2.2.2 }
        | _ => Except.error Fatal.bad_read
  | _ => Except.error Fatal.bad_read

/-- Body of the loop over the areas of the full log reached by
`restore_incremental` (after the test that leaves the loop). -/
def restore_incremental_full_area (P : Platform) (c : IncCursor) : Except Fatal IncCursor :=
  match c.rest with
  | Item.hdr logged :: Item.bitmap bits :: rest2 =>
    let m_area := c.m_state.areas logged.idx
    let ptr := c.ptr + P.sizeof_malloc_area
    let chunk_size := P.untagged_chunk_size logged.chunk_size
    let bitmap_size := P.bitmap_required_size logged.num_chunks
    if logged.idx ≥ c.m_state.max_num_areas then Except.error Fatal.out_of_bounds
    else if bits.length ≠ 8 * bitmap_size then Except.error Fatal.bad_read
    else
      let s : malloc_area × (Nat → Bool) :=
        match c.to_be_restored logged.idx with
        | none => (restore_logged_hdr m_area logged bits bitmap_size, bitmap_of_bits bits)
        | some tbr => (m_area, tbr)
      let m_area := s.1
      let tbr := s.2
      let ptr := ptr + bitmap_size
      if logged.log_mode then
        match rest2 with
        | Item.bytes l :: rest3 =>
          if l.length ≠ chunk_size * logged.num_chunks then Except.error Fatal.bad_read
          else
            match copy_to_area_log_mode chunk_size l (bitmap_set_bits tbr bitmap_size)
                m_area.area tbr with
            | Except.error e => Except.error e
            | Except.ok r =>
              let m_area : malloc_area := { m_area with area := r.1 }
              Except.ok { m_state := set_area c.m_state logged.idx m_area,
                          to_be_restored := Function.update c.to_be_restored logged.idx (some r.2),
                          ptr := ptr + chunk_size * logged.num_chunks, rest := rest3 }
        | _ => Except.error Fatal.bad_read
      else
        match copy_to_area_check_already chunk_size
            (bitmap_set_bits (bitmap_of_bits bits) bitmap_size) m_area.area tbr ptr rest2 with
        | Except.error e => Except.error e
        | Except.ok r =>
          let m_area : malloc_area := { m_area with area := r.1 }
          Except.ok { m_state := set_area c.m_state logged.idx m_area,
                      to_be_restored := Function.update c.to_be_restored logged.idx (some r.2.1),
                      ptr := r.2.2.1, rest := r.2.2.2 }
  | _ => Except.error Fatal.bad_read

/-- The loop `for (i = 0; i < m_state->num_areas; i++)` over the areas of one
log in `restore_incremental`, with `n` iterations left: it is left as soon as
the cursor has reached `log_size`. -/
def restore_incremental_loop (step : IncCursor → Except Fatal IncCursor) (log_size : Nat) :
    Nat → IncCursor → Except Fatal IncCursor
  | 0, c => Except.ok c
  | n + 1, c =>
    if c.ptr ≥ log_size then Except.ok c
    else
      match step c with
      | Except.error e => Except.error e
      | Except.ok c1 => restore_incremental_loop step log_size n c1

/-- One pass of the loop `while (is_incremental(curr_node->log))` of
`restore_incremental` up to the sanity check on the size of the log. -/
def restore_incremental_log (P : Platform) (ckpt : Ckpt) (m_state : malloc_state)
    (to_be_restored : Nat → Option (Nat → Bool)) :
    Except Fatal (malloc_state × (Nat → Option (Nat → Bool))) :=
  let log_size := ckpt.state.total_inc_size
  match restore_incremental_loop (restore_incremental_area P) log_size m_state.num_areas
      { m_state := m_state, to_be_restored := to_be_restored,
        ptr := P.sizeof_malloc_state, rest := ckpt.items } with
  | Except.error e => Except.error e
  | Except.ok c =>
    if c.ptr ≠ log_size then Except.error Fatal.corrupt_layout
    else Except.ok (c.m_state, c.to_be_restored)

/-- The part of `restore_incremental` that handles the full log reached, up
to the sanity check on the size of the log. -/
def restore_incremental_full (P : Platform) (ckpt : Ckpt) (m_state : malloc_state)
    (to_be_restored : Nat → Option (Nat → Bool)) :
    Except Fatal (malloc_state × (Nat → Option (Nat → Bool))) :=
  let log_size := ckpt.state.total_log_size
  match restore_incremental_loop (restore_incremental_full_area P) log_size m_state.num_areas
      { m_state := m_state, to_be_restored := to_be_restored,
        ptr := P.sizeof_malloc_state, rest := ckpt.items } with
  | Except.error e => Except.error e
  | Except.ok c =>
    if c.ptr ≠ log_size then Except.error Fatal.corrupt_layout
    else Except.ok (c.m_state, c.to_be_restored)

/-- The walk of `restore_incremental` along the checkpoint queue: `log` is
the log of the current node and `prevs` are the logs of the nodes that
`list_prev` yields, nearest first.  Incremental logs are handled one after
the other; the walk ends with the handling of the first full log. -/
def restore_incremental_chain (P : Platform) (log : Ckpt) (prevs : List Ckpt)
    (m_state : malloc_state) (to_be_restored : Nat → Option (Nat → Bool)) :
    Except Fatal (malloc_state × (Nat → Option (Nat → Bool))) :=
  if log.state.is_incremental then
    match restore_incremental_log P log m_state to_be_restored with
    | Except.error e => Except.error e
    | Except.ok r =>
      match prevs with
      | [] => Except.error Fatal.corrupt_chain
      | prev :: older => restore_incremental_chain P prev older r.1 r.2
  else
    restore_incremental_full P log m_state to_be_restored

/-- The function `restore_incremental`; `queue_node` is the log of the node
to restore and `prevs` the logs of the nodes before it in the queue of the
LP, nearest first. -/
def restore_incremental (P : Platform) (lp : lp_struct) (queue_node : Ckpt) (prevs : List Ckpt) :
    Except Fatal lp_struct :=
  let original_num_areas := lp.m_state.num_areas
  let m_state : malloc_state := { lp.m_state with tomalloc_state_hdr := queue_node.state }
  match restore_incremental_chain P queue_node prevs m_state (fun _ => none) with
  | Except.error e => Except.error e
  | Except.ok r =>
    Except.ok { lp with m_state := finish_restore P (reset_trailing P original_num_areas r.1) }

/-- The function `log_restore`. -/
def log_restore (P : Platform) (lp : lp_struct) (state_queue_node : Ckpt) (prevs : List Ckpt) :
    Except Fatal lp_struct :=
  if state_queue_node.state.is_incremental then
    restore_incremental P lp state_queue_node prevs
  else
    restore_full P lp state_queue_node

/-! ## Auxiliary definitions used in the statements -/

/-- The area left by the reset of the dirty tracking at the top of the loop
body of `log_full` and of `restore_full`. -/
def clean_area (P : Platform) (a : malloc_area) : malloc_area :=
  { a with state_changed := 0, dirty_chunks := 0,
           dirty_bitmap := if a.has_bitmap then
             bitmap_memset0 a.dirty_bitmap (P.bitmap_required_size a.num_chunks)
             else a.dirty_bitmap }

/-- Records that `log_full` writes for an area. -/
def full_area_items (P : Platform) (a : malloc_area) : List Item :=
  if a.alloc_chunks = 0 then []
  else
    Item.hdr { a.tomalloc_area_hdr with state_changed := 0, dirty_chunks := 0 } ::
    Item.bitmap (read_bitmap a.use_bitmap (P.bitmap_required_size a.num_chunks)) ::
    (if a.log_mode then
      [Item.bytes (read_bytes a.area 0 (a.num_chunks * P.untagged_chunk_size a.chunk_size))]
     else
      (bitmap_set_bits a.use_bitmap (P.bitmap_required_size a.num_chunks)).map
        (fun x => Item.bytes (read_bytes a.area (x * P.untagged_chunk_size a.chunk_size)
          (P.untagged_chunk_size a.chunk_size))))

/-- The dirty bitmap of an area has no bit set (an area without bitmaps has
no dirty bit). -/
def dirty_bitmap_zero (P : Platform) (a : malloc_area) : Prop :=
  a.has_bitmap = true → ∀ i, i < 8 * P.bitmap_required_size a.num_chunks → a.dirty_bitmap i = false

/-- The use bitmap of an area has no bit set (an area without bitmaps has no
chunk in use). -/
def use_bitmap_zero (P : Platform) (a : malloc_area) : Prop :=
  a.has_bitmap = true → ∀ i, i < 8 * P.bitmap_required_size a.num_chunks → a.use_bitmap i = false

/-- Chunk `x` of an area: its `UNTAGGED_CHUNK_SIZE` bytes. -/
def chunk (P : Platform) (a : malloc_area) (x : Nat) : List Nat :=
  read_bytes a.area (x * P.untagged_chunk_size a.chunk_size) (P.untagged_chunk_size a.chunk_size)

/-- The bits of the use bitmap of an area. -/
def use_bits (P : Platform) (a : malloc_area) : List Bool :=
  read_bitmap a.use_bitmap (P.bitmap_required_size a.num_chunks)

/-- The bits of the dirty bitmap of an area. -/
def dirty_bits (P : Platform) (a : malloc_area) : List Bool :=
  read_bitmap a.dirty_bitmap (P.bitmap_required_size a.num_chunks)

/-- The memory map after the first `n` areas went through the loop of
`log_full`. -/
def clean_upto (P : Platform) (m : malloc_state) (n : Nat) : malloc_state :=
  { m with areas := fun j => if j < n then clean_area P (m.areas j) else m.areas j }


/-- Records that `log_incremental` writes for an area. -/
def inc_area_items (P : Platform) (a : malloc_area) : List Item :=
  if a.state_changed = 0 then []
  else
    Item.hdr a.tomalloc_area_hdr ::
    Item.bitmap (read_bitmap a.use_bitmap (P.bitmap_required_size a.num_chunks)) ::
    (if a.dirty_chunks = 0 then []
     else
      Item.bitmap (read_bitmap a.dirty_bitmap (P.bitmap_required_size a.num_chunks)) ::
      (bitmap_set_bits a.dirty_bitmap (P.bitmap_required_size a.num_chunks)).map
        (fun x => Item.bytes (read_bytes a.area (x * P.untagged_chunk_size a.chunk_size)
          (P.untagged_chunk_size a.chunk_size))))

/-- The area left by the loop body of `log_incremental`. -/
def inc_clean_area (P : Platform) (a : malloc_area) : malloc_area :=
  if a.state_changed = 0 then a
  else if a.dirty_chunks = 0 then { a with state_changed := 0 }
  else { a with state_changed := 0, dirty_chunks := 0,
                dirty_bitmap := bitmap_memset0 a.dirty_bitmap (P.bitmap_required_size a.num_chunks) }

/-- The memory map after the areas `i, ..., i+n-1` went through the loop of
`log_incremental`. -/
def inc_clean_range (P : Platform) (m : malloc_state) (i n : Nat) : malloc_state :=
  { m with areas := fun j => if i ≤ j ∧ j < i + n then inc_clean_area P (m.areas j) else m.areas j }

/-- The condition on which `log_incremental` stops the simulation with
"State unchanged and dirty chunks". -/
def inc_bad (a : malloc_area) : Prop := a.state_changed = 0 ∧ a.dirty_chunks ≠ 0

instance (a : malloc_area) : Decidable (inc_bad a) := by
  unfold inc_bad; infer_instance

/-- Records that `log_full` writes after the header. -/
def full_items (P : Platform) (m : malloc_state) : List Item :=
  (List.range m.num_areas).flatMap (fun j => full_area_items P (m.areas j))

/-- Records that `log_incremental` writes after the header. -/
def inc_items (P : Platform) (m : malloc_state) : List Item :=
  (List.range' 0 m.num_areas).flatMap (fun j => inc_area_items P (m.areas j))

/-- The LP that `log_full` leaves. -/
def lp_after_full (P : Platform) (lp : lp_struct) : lp_struct :=
  { lp with m_state :=
      { clean_upto P { lp.m_state with is_incremental := false } lp.m_state.num_areas with
        total_inc_size := P.sizeof_malloc_state } }

/-- The checkpoint that `log_full` returns. -/
def ckpt_full (P : Platform) (lp : lp_struct) : Ckpt :=
  { state := { lp.m_state.tomalloc_state_hdr with is_incremental := false, timestamp := lp.lvt },
    items := full_items P lp.m_state }

/-- The LP that `log_incremental` leaves. -/
def lp_after_inc (P : Platform) (lp : lp_struct) : lp_struct :=
  { lp with m_state :=
      { inc_clean_range P lp.m_state 0 lp.m_state.num_areas with
        total_inc_size := P.sizeof_malloc_state } }

/-- The checkpoint that `log_incremental` returns. -/
def ckpt_inc (P : Platform) (lp : lp_struct) : Ckpt :=
  { state := { lp.m_state.tomalloc_state_hdr with timestamp := lp.lvt, is_incremental := true },
    items := inc_items P lp.m_state }

/-! ## Concrete inputs -/

/-- The value of a computation that did not stop the simulation. -/
def ok_or {α : Type} (x : Except Fatal α) (d : α) : α :=
  match x with
  | Except.ok a => a
  | Except.error _ => d

/-- A platform: headers of 40 and 48 bytes, one bitmap byte per 8 chunks,
chunks without tag. -/
def plat : Platform :=
  { sizeof_malloc_state := 40, sizeof_malloc_area := 48,
    bitmap_required_size := fun n => (n + 7) / 8, untagged_chunk_size := fun c => c,
    sizeof_malloc_area_pos := by decide }

/-- Scenario S1: one area of 8 chunks of 16 bytes, chunks 0, 2, 4 allocated,
chunk 2 filled with `0xAA` and marked dirty. -/
def s1_area : malloc_area :=
  { idx := 0, prev := 0, next := 0, num_chunks := 8, alloc_chunks := 3, next_chunk := 5,
    chunk_size := 16, state_changed := 1, dirty_chunks := 1, last_access := 7,
    log_mode := false, area_lock := false, has_bitmap := true,
    use_bitmap := fun i => decide (i = 0 ∨ i = 2 ∨ i = 4),
    dirty_bitmap := fun i => decide (i = 2),
    area := fun a => if 32 ≤ a ∧ a < 48 then 170 else 0 }

/-- The memory map of scenario S1. -/
def s1_state : malloc_state :=
  { is_incremental := false, total_log_size := 137, total_inc_size := 106,
    num_areas := 1, max_num_areas := 1, timestamp := 3, areas := fun _ => s1_area }

/-- The LP of scenario S1, at virtual time 9. -/
def s1_lp : lp_struct := { m_state := s1_state, state_log_full_forced := false, lvt := 9 }

/-- An area whose dirty bitmap has bit 0 set although `dirty_chunks` and
`state_changed` are 0. -/
def stale_area : malloc_area :=
  { s1_area with state_changed := 0, dirty_chunks := 0, dirty_bitmap := fun i => decide (i = 0) }

/-- An LP with the single area `stale_area`. -/
def stale_lp : lp_struct :=
  { m_state := { s1_state with total_inc_size := 40, areas := fun _ => stale_area },
    state_log_full_forced := false, lvt := 9 }

/-- The sum that the spec gives for the size of a full log. -/
def full_log_sum (P : Platform) (m : malloc_state) : Nat :=
  P.sizeof_malloc_state +
    ((List.range m.num_areas).map (fun i => area_full_size P (m.areas i).tomalloc_area_hdr)).sum

/-- Every area counts in `alloc_chunks` the set bits of its use bitmap. -/
def alloc_is_popcount (P : Platform) (m : malloc_state) : Prop :=
  ∀ i, i < m.num_areas →
    (m.areas i).alloc_chunks =
      popcount (m.areas i).use_bitmap (P.bitmap_required_size (m.areas i).num_chunks)

/-- An area of 8 chunks of 16 bytes in slot `i` that was never used. -/
def empty_area (i : Nat) : malloc_area :=
  { idx := i, prev := i - 1, next := i + 1, num_chunks := 8, alloc_chunks := 0, next_chunk := 0,
    chunk_size := 16, state_changed := 0, dirty_chunks := 0, last_access := 0,
    log_mode := false, area_lock := false, has_bitmap := false,
    use_bitmap := fun _ => false, dirty_bitmap := fun _ => false, area := fun _ => 0 }

/-- An LP with `n` unused areas, `max_num_areas = n`. -/
def empty_lp (n : Nat) : lp_struct :=
  { m_state := { is_incremental := false, total_log_size := 40, total_inc_size := 40,
                 num_areas := n, max_num_areas := n, timestamp := 0, areas := empty_area },
    state_log_full_forced := false, lvt := 1 }

/-- The bytes of `dst` after the chunks `xs` of `chunk_size` bytes were copied
over it from `src`. -/
def copied (chunk_size : Nat) (xs : List Nat) (src dst : Nat → Nat) : Nat → Nat :=
  fun a => if xs.any (fun x => decide (x * chunk_size ≤ a ∧ a < x * chunk_size + chunk_size))
    then src a else dst a

/-- The area that `restore_full` leaves in a slot `live` for which the log
holds the record of the area `s`. -/
def restore_logged_area (P : Platform) (s live : malloc_area) : malloc_area :=
  { tomalloc_area_hdr := { s.tomalloc_area_hdr with state_changed := 0, dirty_chunks := 0 },
    use_bitmap := write_bitmap live.use_bitmap
      (read_bitmap s.use_bitmap (P.bitmap_required_size s.num_chunks)),
    dirty_bitmap := (clean_area P live).dirty_bitmap,
    area :=
      if s.log_mode then
        write_bytes live.area 0
          (read_bytes s.area 0 (s.num_chunks * P.untagged_chunk_size s.chunk_size))
      else
        copied (P.untagged_chunk_size s.chunk_size)
          (bitmap_set_bits s.use_bitmap (P.bitmap_required_size s.num_chunks)) s.area live.area }

/-- The area that `restore_full` leaves in a slot `live` when the log was
taken by `log_full` from a map that had the area `s` in that slot. -/
def restore_one (P : Platform) (s live : malloc_area) (timestamp : Int) : malloc_area :=
  if s.alloc_chunks = 0 then
    reset_unlogged (clean_area P live) (P.bitmap_required_size live.num_chunks) timestamp
  else restore_logged_area P s live

/-- The memory map after the loop of `restore_full` went through the slots
`i, ..., i+k-1`, the log being the full log of `s`. -/
def restored_range (P : Platform) (s m : malloc_state) (i k : Nat) : malloc_state :=
  { m with areas := fun j =>
      if i ≤ j ∧ j < i + k then restore_one P (s.areas j) (m.areas j) m.timestamp
      else m.areas j }

/-- Chunk `x` of an area is allocated: the chunk exists and its bit in the
use bitmap exists and is set. -/
def allocated (P : Platform) (a : malloc_area) (x : Nat) : Prop :=
  x < a.num_chunks ∧ x < 8 * P.bitmap_required_size a.num_chunks ∧ a.use_bitmap x = true

instance (P : Platform) (a : malloc_area) (x : Nat) : Decidable (allocated P a x) := by
  unfold allocated; infer_instance

/-- The memory map that `restore_full` leaves when it restores into the live
LP `live` the full log that `log_full` took of the LP `s`. -/
def restored_full (P : Platform) (s live : lp_struct) : malloc_state :=
  finish_restore P (reset_trailing P live.m_state.num_areas
    (restored_range P s.m_state
      { live.m_state with tomalloc_state_hdr := (ckpt_full P s).state } 0 s.m_state.num_areas))

/-- Every area slot `i` of the map holds the area of index `i`. -/
def idx_is_slot (m : malloc_state) : Prop :=
  ∀ i, i < m.num_areas → (m.areas i).idx = i

/-- An area whose only chunk was allocated and freed again: no chunk is in
use and the allocation cursor is at 1. -/
def freed_area : malloc_area :=
  { empty_area 0 with next_chunk := 1, has_bitmap := true }

/-- An LP with the single area `freed_area`. -/
def freed_lp : lp_struct :=
  { m_state := { is_incremental := false, total_log_size := 40, total_inc_size := 40,
                 num_areas := 1, max_num_areas := 1, timestamp := 0, areas := fun _ => freed_area },
    state_log_full_forced := false, lvt := 1 }

/-- The LP of scenario S1 at a later time: chunk 2 was overwritten with
`0xBB` and chunk 0 was freed. -/
def s1_lp_later : lp_struct :=
  { s1_lp with
    lvt := 12,
    m_state := { s1_state with
      areas := fun _ =>
        { s1_area with alloc_chunks := 2, next_chunk := 0, last_access := 11,
                       use_bitmap := fun i => decide (i = 2 ∨ i = 4),
                       area := fun a => if 32 ≤ a ∧ a < 48 then 187 else 0 } } }

/-! ## The effect of `restore_incremental`, record by record -/

/-- The bitmap `t` after the bits `xs` were reset. -/
def reset_bits (xs : List Nat) (t : Nat → Bool) : Nat → Bool :=
  fun x => if x ∈ xs then false else t x

/-- The bytes of `dst` after those chunks among `xs` whose bit is set in `t`
were copied over it from `src`. -/
def copied_if (chunk_size : Nat) (xs : List Nat) (t : Nat → Bool) (src dst : Nat → Nat) :
    Nat → Nat :=
  fun b =>
    if xs.any (fun x => t x && decide (x * chunk_size ≤ b ∧ b < x * chunk_size + chunk_size))
    then src b else dst b

/-- The memory map and the array `to_be_restored` during `restore_incremental`. -/
abbrev RState := malloc_state × (Nat → Option (Nat → Bool))

/-- The live area and the bitmap `to_be_restored[idx]` once a record with
header `h` and use bitmap `use` was met: on the first sighting of the area
the header and the use bitmap are restored and the bitmap is a copy of the
logged use bitmap. -/
def sight (P : Platform) (h : malloc_area_hdr) (use : Nat → Bool) (st : RState) :
    malloc_area × (Nat → Bool) :=
  match st.2 h.idx with
  | none =>
    (restore_logged_hdr (st.1.areas h.idx) h
        (read_bitmap use (P.bitmap_required_size h.num_chunks))
        (P.bitmap_required_size h.num_chunks),
      bitmap_of_bits (read_bitmap use (P.bitmap_required_size h.num_chunks)))
  | some t => (st.1.areas h.idx, t)

/-- The effect on `restore_incremental` of the record that `log_incremental`
wrote for the area `a`. -/
def apply_inc (P : Platform) (st : RState) (a : malloc_area) : RState :=
  let s := sight P a.tomalloc_area_hdr a.use_bitmap st
  if a.dirty_chunks = 0 then
    (set_area st.1 a.idx s.1, Function.update st.2 a.idx (some s.2))
  else
    let xs := bitmap_set_bits a.dirty_bitmap (P.bitmap_required_size a.num_chunks)
    (set_area st.1 a.idx
        { s.1 with area := copied_if (P.untagged_chunk_size a.chunk_size) xs s.2 a.area s.1.area },
      Function.update st.2 a.idx (some (reset_bits xs s.2)))

/-- The effect on `restore_incremental` of the record that `log_full` wrote
for the area `a`. -/
def apply_full (P : Platform) (st : RState) (a : malloc_area) : RState :=
  let s := sight P { a.tomalloc_area_hdr with state_changed := 0, dirty_chunks := 0 }
    a.use_bitmap st
  if a.log_mode then
    let xs := bitmap_set_bits s.2 (P.bitmap_required_size a.num_chunks)
    (set_area st.1 a.idx
        { s.1 with area := copied (P.untagged_chunk_size a.chunk_size) xs a.area s.1.area },
      Function.update st.2 a.idx (some (reset_bits xs s.2)))
  else
    let xs := bitmap_set_bits a.use_bitmap (P.bitmap_required_size a.num_chunks)
    (set_area st.1 a.idx
        { s.1 with area := copied_if (P.untagged_chunk_size a.chunk_size) xs s.2 a.area s.1.area },
      Function.update st.2 a.idx (some (reset_bits xs s.2)))

/-- Every bit set in a bitmap of `to_be_restored` is the bit of a chunk of
the area, `nc idx` being the number of chunks of the area `idx`. -/
def tbr_in_range (nc : Nat → Nat) (tbr : Nat → Option (Nat → Bool)) : Prop :=
  ∀ idx t, tbr idx = some t → ∀ x, t x = true → x < nc idx

/-- A record of a log copied from the area `a` fits a map with `maxn` slots
in `to_be_restored` and `nc idx` chunks in area `idx`: its index is below
`maxn`, it has `nc idx` chunks and no bit of its use bitmap is set beyond
them. -/
def rec_ok (P : Platform) (nc : Nat → Nat) (maxn : Nat) (a : malloc_area) : Prop :=
  a.idx < maxn ∧ a.num_chunks = nc a.idx ∧
    ∀ x, x < 8 * P.bitmap_required_size a.num_chunks → a.use_bitmap x = true → x < a.num_chunks

/-- The checkpoint `ckpt` is an incremental log that declares its size and
holds the records that `log_incremental` writes for the areas `recs`. -/
def is_inc_log (P : Platform) (ckpt : Ckpt) (recs : List malloc_area) : Prop :=
  ckpt.state.is_incremental = true ∧ ckpt.items = recs.flatMap (inc_area_items P) ∧
    ckpt.state.total_inc_size = P.sizeof_malloc_state + items_size P ckpt.items ∧
    ∀ a, a ∈ recs → a.state_changed ≠ 0

/-- The checkpoint `ckpt` is a full log that declares its size and holds the
records that `log_full` writes for the areas `recs`. -/
def is_full_log (P : Platform) (ckpt : Ckpt) (recs : List malloc_area) : Prop :=
  ckpt.state.is_incremental = false ∧ ckpt.items = recs.flatMap (full_area_items P) ∧
    ckpt.state.total_log_size = P.sizeof_malloc_state + items_size P ckpt.items ∧
    ∀ a, a ∈ recs → a.alloc_chunks ≠ 0

/-- The records `recs` of one log fit the map that `restore_incremental`
works on: there are at most `num_areas` of them and each fits (`rec_ok`). -/
def recs_fit (P : Platform) (nc : Nat → Nat) (h : malloc_state_hdr) (recs : List malloc_area) :
    Prop :=
  recs.length ≤ h.num_areas ∧ ∀ a, a ∈ recs → rec_ok P nc h.max_num_areas a

/-- The state that the walk of `restore_incremental` reaches on the
incremental logs with records `incs` (newest log first) followed by the full
log with records `full`. -/
def chain_fold (P : Platform) (incs : List (List malloc_area)) (full : List malloc_area)
    (st : RState) : RState :=
  full.foldl (apply_full P) (incs.flatten.foldl (apply_inc P) st)

/-- One area slot and its entry in `to_be_restored` during
`restore_incremental`. -/
abbrev AState := malloc_area × Option (Nat → Bool)

/-- The function `sight` on one slot. -/
def sight_area (P : Platform) (h : malloc_area_hdr) (use : Nat → Bool) (x : AState) :
    malloc_area × (Nat → Bool) :=
  match x.2 with
  | none =>
    (restore_logged_hdr x.1 h (read_bitmap use (P.bitmap_required_size h.num_chunks))
        (P.bitmap_required_size h.num_chunks),
      bitmap_of_bits (read_bitmap use (P.bitmap_required_size h.num_chunks)))
  | some t => (x.1, t)

/-- The effect of an incremental record on the slot it names. -/
def step_inc (P : Platform) (x : AState) (a : malloc_area) : AState :=
  let s := sight_area P a.tomalloc_area_hdr a.use_bitmap x
  if a.dirty_chunks = 0 then (s.1, some s.2)
  else
    let xs := bitmap_set_bits a.dirty_bitmap (P.bitmap_required_size a.num_chunks)
    ({ s.1 with area := copied_if (P.untagged_chunk_size a.chunk_size) xs s.2 a.area s.1.area },
      some (reset_bits xs s.2))

/-- The effect of a record of the full log on the slot it names. -/
def step_full (P : Platform) (x : AState) (a : malloc_area) : AState :=
  let s := sight_area P { a.tomalloc_area_hdr with state_changed := 0, dirty_chunks := 0 }
    a.use_bitmap x
  if a.log_mode then
    let xs := bitmap_set_bits s.2 (P.bitmap_required_size a.num_chunks)
    ({ s.1 with area := copied (P.untagged_chunk_size a.chunk_size) xs a.area s.1.area },
      some (reset_bits xs s.2))
  else
    let xs := bitmap_set_bits a.use_bitmap (P.bitmap_required_size a.num_chunks)
    ({ s.1 with area := copied_if (P.untagged_chunk_size a.chunk_size) xs s.2 a.area s.1.area },
      some (reset_bits xs s.2))

/-- A record of the chain: `true` marks a record of the full log. -/
abbrev Rec := Bool × malloc_area

/-- The effect of a record of the chain on the memory map. -/
def apply_rec (P : Platform) (st : RState) (r : Rec) : RState :=
  if r.1 then apply_full P st r.2 else apply_inc P st r.2

/-- The effect of a record of the chain on the slot it names. -/
def step_rec (P : Platform) (x : AState) (r : Rec) : AState :=
  if r.1 then step_full P x r.2 else step_inc P x r.2

/-- The records of a chain in the order in which `restore_incremental` reads
them: the incremental logs, newest first, then the full log. -/
def chain_recs (incs : List (List malloc_area)) (full : List malloc_area) : List Rec :=
  incs.flatten.map (fun a => (false, a)) ++ full.map (fun a => (true, a))

/-- The slot `i` of a state of `restore_incremental`. -/
def slot (st : RState) (i : Nat) : AState := (st.1.areas i, st.2 i)

/-- The header that a record of the chain carries. -/
def rec_hdr (r : Rec) : malloc_area_hdr :=
  if r.1 then { r.2.tomalloc_area_hdr with state_changed := 0, dirty_chunks := 0 }
  else r.2.tomalloc_area_hdr

/-- The record holds a payload for chunk `c`: in an incremental log the chunk
is dirty, in the full log the chunk is in use or the area is logged as a
whole. -/
def offers (P : Platform) (r : Rec) (c : Nat) : Prop :=
  c < 8 * P.bitmap_required_size r.2.num_chunks ∧
    (if r.1 then (r.2.log_mode = true ∨ r.2.use_bitmap c = true)
     else (r.2.dirty_chunks ≠ 0 ∧ r.2.dirty_bitmap c = true))

instance (P : Platform) (r : Rec) (c : Nat) : Decidable (offers P r c) := by
  unfold offers; infer_instance

/-- Bit `c` of the use bitmap that a record carries. -/
def use_bit (P : Platform) (a : malloc_area) (c : Nat) : Bool :=
  decide (c < 8 * P.bitmap_required_size a.num_chunks) && a.use_bitmap c

/-- Bit `c` of `to_be_restored[idx]` when the record `r` is handled: the bit
kept so far or, on the first sighting of the area, the bit of the use bitmap
of `r`. -/
def pending (P : Platform) (x : AState) (r : Rec) (c : Nat) : Bool :=
  match x.2 with
  | none => use_bit P r.2 c
  | some t => t c

/-- No record of `l` holds a payload for chunk `c`. -/
def none_offers (P : Platform) (l : List Rec) (c : Nat) : Prop :=
  ∀ r, r ∈ l → ¬ offers P r c

/-- All records of `l` have chunks of `cs` bytes. -/
def chunks_of (P : Platform) (l : List Rec) (cs : Nat) : Prop :=
  ∀ r, r ∈ l → P.untagged_chunk_size r.2.chunk_size = cs


/-- The memory map that `restore_incremental` leaves in the LP `lp` for a
chain whose newest log has the header `h`, whose incremental logs hold the
records `incs` (newest log first) and whose full log holds the records
`frecs`. -/
def restored_inc (P : Platform) (lp : lp_struct) (h : malloc_state_hdr)
    (incs : List (List malloc_area)) (frecs : List malloc_area) : malloc_state :=
  finish_restore P (reset_trailing P lp.m_state.num_areas
    (chain_fold P incs frecs ({ lp.m_state with tomalloc_state_hdr := h }, fun _ => none)).1)

/-- Scenario S5, first incremental checkpoint: after the full checkpoint of S1
chunk 2 was overwritten with `0xBB`. -/
def s5_area1 : malloc_area :=
  { s1_area with area := fun a => if 32 ≤ a ∧ a < 48 then 187 else 0 }

/-- Scenario S5, second incremental checkpoint: chunk 2 was overwritten again,
with `0xCC`. -/
def s5_area2 : malloc_area :=
  { s1_area with area := fun a => if 32 ≤ a ∧ a < 48 then 204 else 0 }

/-- The LP of scenario S5 when the first incremental checkpoint is taken. -/
def s5_lp1 : lp_struct :=
  { m_state := { s1_state with areas := fun _ => s5_area1 },
    state_log_full_forced := false, lvt := 10 }

/-- The LP of scenario S5 when the second incremental checkpoint is taken. -/
def s5_lp2 : lp_struct :=
  { m_state := { s1_state with areas := fun _ => s5_area2 },
    state_log_full_forced := false, lvt := 11 }

/-! ## A run of checkpoints seen from one area slot -/

/-- The header with the dirty tracking reset. -/
def cl (h : malloc_area_hdr) : malloc_area_hdr :=
  { h with state_changed := 0, dirty_chunks := 0 }

/-- The areas for which `log_incremental` writes a record, in the order of
the log. -/
def inc_recs (s : lp_struct) : List malloc_area :=
  ((List.range s.m_state.num_areas).map s.m_state.areas).filter
    (fun a => decide (a.state_changed ≠ 0))

/-- The areas for which `log_full` writes a record, in the order of the
log. -/
def full_recs (s : lp_struct) : List malloc_area :=
  ((List.range s.m_state.num_areas).map s.m_state.areas).filter
    (fun a => decide (a.alloc_chunks ≠ 0))

/-- The state `s` of an LP has `n` areas, each in the slot of its index, and
no bit of a use bitmap is set beyond the chunks of its area. -/
def well_formed (P : Platform) (n : Nat) (s : lp_struct) : Prop :=
  s.m_state.num_areas = n ∧ idx_is_slot s.m_state ∧
  ∀ i, i < n → ∀ x, x < 8 * P.bitmap_required_size (s.m_state.areas i).num_chunks →
    (s.m_state.areas i).use_bitmap x = true → x < (s.m_state.areas i).num_chunks

/-- Scenario S2, the area when the incremental checkpoint is taken: after the
full checkpoint of S1 chunk 4 was filled with `0xBB`, chunk 6 was allocated
and not written, and chunk 0 was freed. -/
def s2_area : malloc_area :=
  { s1_area with next_chunk := 7, last_access := 10,
                 use_bitmap := fun i => decide (i = 2 ∨ i = 4 ∨ i = 6),
                 dirty_bitmap := fun i => decide (i = 4),
                 area := fun a => if 32 ≤ a ∧ a < 48 then 170
                                  else if 64 ≤ a ∧ a < 80 then 187 else 0 }

/-- The LP of scenario S2 when the incremental checkpoint is taken. -/
def s2_lp : lp_struct :=
  { m_state := { s1_state with areas := fun _ => s2_area },
    state_log_full_forced := false, lvt := 10 }

/-- The LP of scenario S2 at a later time: chunk 6 was filled with `0xFF`. -/
def s2_live : lp_struct :=
  { m_state := { s1_state with
      areas := fun _ =>
        { s2_area with last_access := 12, dirty_bitmap := fun i => decide (i = 6),
                       area := fun a => if 32 ≤ a ∧ a < 48 then 170
                                        else if 64 ≤ a ∧ a < 80 then 187
                                        else if 96 ≤ a ∧ a < 112 then 255 else 0 } },
    state_log_full_forced := false, lvt := 13 }

/-! ## Auxiliary definitions for the claims on the restore -/

/-- The area is empty the way `restore_full` and `restore_incremental` leave
an area that the log does not hold: no chunk allocated, allocation cursor at
0, dirty tracking reset, LOG_MODE and AREA_LOCK cleared, no bit set in the
bitmaps, and `last_access` at `timestamp`. -/
def emptied (P : Platform) (timestamp : Int) (a : malloc_area) : Prop :=
  a.alloc_chunks = 0 ∧ a.next_chunk = 0 ∧ a.dirty_chunks = 0 ∧ a.state_changed = 0 ∧
  a.log_mode = false ∧ a.area_lock = false ∧ use_bitmap_zero P a ∧ dirty_bitmap_zero P a ∧
  a.last_access = timestamp

/-- The LP of scenario S1 at a later time, with a second area in which chunks
are allocated. -/
def two_lp : lp_struct :=
  { m_state := { s1_state with
      num_areas := 2, max_num_areas := 2,
      areas := fun i => if i = 0 then s1_area else { s1_area with idx := 1, log_mode := true } },
    state_log_full_forced := false, lvt := 12 }

/-- The size that the header of a log declares: `total_inc_size` for an
incremental log, `total_log_size` for a full log. -/
def declared_size (blob : Ckpt) : Nat :=
  if blob.state.is_incremental then blob.state.total_inc_size else blob.state.total_log_size

/-- The loop of `restore_incremental` over the records of the log `blob`, up
to the sanity check on the cursor: the loop for an incremental log or the
one for the full log. -/
def parse_log (P : Platform) (blob : Ckpt) (m_state : malloc_state)
    (to_be_restored : Nat → Option (Nat → Bool)) : Except Fatal IncCursor :=
  restore_incremental_loop
    (if blob.state.is_incremental then restore_incremental_area P
     else restore_incremental_full_area P)
    (declared_size blob) m_state.num_areas
    { m_state := m_state, to_be_restored := to_be_restored,
      ptr := P.sizeof_malloc_state, rest := blob.items }

/-- The passes of `restore_incremental` over the incremental logs `logs`, one
after the other, each with its sanity check. -/
def restore_incremental_logs (P : Platform) :
    List Ckpt → malloc_state × (Nat → Option (Nat → Bool)) →
      Except Fatal (malloc_state × (Nat → Option (Nat → Bool)))
  | [], st => Except.ok st
  | log :: tl, st =>
    match restore_incremental_log P log st.1 st.2 with
    | Except.error e => Except.error e
    | Except.ok r => restore_incremental_logs P tl r

/-- What `restore_incremental` does on a chain of the incremental logs `incs`
followed by the full log `full`, `hdr` being the header of the newest log:
the passes over `incs`, the pass over `full`, and the end of the function. -/
def restore_at_full (P : Platform) (lp : lp_struct) (hdr : malloc_state_hdr)
    (incs : List Ckpt) (full : Ckpt) : Except Fatal lp_struct :=
  match restore_incremental_logs P incs
      ({ lp.m_state with tomalloc_state_hdr := hdr }, fun _ => none) with
  | Except.error e => Except.error e
  | Except.ok st =>
    match restore_incremental_full P full st.1 st.2 with
    | Except.error e => Except.error e
    | Except.ok r =>
      Except.ok { lp with
        m_state := finish_restore P (reset_trailing P lp.m_state.num_areas r.1) }

/-- A full log of scenario S1 whose header declares 1000 bytes instead of the
137 bytes of its records. -/
def oversized_full : Ckpt :=
  { state := { (ckpt_full plat s1_lp).state with total_log_size := 1000 },
    items := (ckpt_full plat s1_lp).items }

/-- The second incremental log of scenario S5 with a header that declares 200
bytes instead of the 106 bytes of its records. -/
def oversized_inc : Ckpt :=
  { state := { (ckpt_inc plat s5_lp2).state with total_inc_size := 200 },
    items := (ckpt_inc plat s5_lp2).items }

/-- Scenario S3, area 0: 4 chunks of 8 bytes, none allocated. -/
def s3_area0 : malloc_area :=
  { idx := 0, prev := 0, next := 1, num_chunks := 4, alloc_chunks := 0, next_chunk := 0,
    chunk_size := 8, state_changed := 0, dirty_chunks := 0, last_access := 0,
    log_mode := false, area_lock := false, has_bitmap := true,
    use_bitmap := fun _ => false, dirty_bitmap := fun _ => false, area := fun _ => 0 }

/-- Scenario S3, area 1: 2 chunks of 64 bytes with LOG_MODE set; chunk 0 is
allocated and byte `i` of it holds `i`, chunk 1 is free and holds `0x77`. -/
def s3_area1 : malloc_area :=
  { idx := 1, prev := 0, next := 2, num_chunks := 2, alloc_chunks := 1, next_chunk := 1,
    chunk_size := 64, state_changed := 1, dirty_chunks := 1, last_access := 4,
    log_mode := true, area_lock := false, has_bitmap := true,
    use_bitmap := fun i => decide (i = 0), dirty_bitmap := fun i => decide (i = 0),
    area := fun a => if a < 64 then a else 119 }

/-- The LP of scenario S3 at the full checkpoint. -/
def s3_lp : lp_struct :=
  { m_state := { is_incremental := false, total_log_size := 217, total_inc_size := 40,
                 num_areas := 2, max_num_areas := 2, timestamp := 0,
                 areas := fun i => if i = 0 then s3_area0 else s3_area1 },
    state_log_full_forced := false, lvt := 5 }

/-- The LP of scenario S3 at a later time: every byte of area 1 was
overwritten with `0xEE` and chunk 1 was allocated. -/
def s3_live : lp_struct :=
  { m_state := { s3_lp.m_state with
      areas := fun i => if i = 0 then s3_area0
        else { s3_area1 with alloc_chunks := 2, next_chunk := 2,
                             use_bitmap := fun i => decide (i < 2), area := fun _ => 238 } },
    state_log_full_forced := false, lvt := 8 }

/-- An LP with two areas at a full checkpoint: area 0 has never been used,
area 1 is the area of scenario S1. -/
def far_lp : lp_struct :=
  { m_state := { is_incremental := false, total_log_size := 137, total_inc_size := 40,
                 num_areas := 2, max_num_areas := 2, timestamp := 0,
                 areas := fun i => if i = 0 then empty_area 0 else { s1_area with idx := 1 } },
    state_log_full_forced := false, lvt := 3 }

/-- The state of an LP with one area in use out of two slots, nothing changed
since the last checkpoint. -/
def near_lp : lp_struct :=
  { m_state := { is_incremental := false, total_log_size := 40, total_inc_size := 40,
                 num_areas := 1, max_num_areas := 2, timestamp := 0, areas := empty_area },
    state_log_full_forced := false, lvt := 6 }

/-- Scenario S6, area `j` at the full checkpoint: the area of scenario S1 in
slot `j`. -/
def s6_area (j : Nat) : malloc_area :=
  { s1_area with idx := j, prev := j - 1, next := j + 1 }

/-- The LP of scenario S6 at the full checkpoint: 5 areas. -/
def s6_lp : lp_struct :=
  { m_state := { is_incremental := false, total_log_size := 525, total_inc_size := 40,
                 num_areas := 5, max_num_areas := 5, timestamp := 0, areas := s6_area },
    state_log_full_forced := false, lvt := 20 }

/-- Scenario S6 at the incremental checkpoint: chunk 2 of area 2 was filled
with `0xBB`, the other areas are unchanged. -/
def s6_lp1 : lp_struct :=
  { m_state := { is_incremental := false, total_log_size := 525, total_inc_size := 106,
                 num_areas := 5, max_num_areas := 5, timestamp := 0,
                 areas := fun j =>
                   if j = 2 then { s6_area 2 with area := fun a => if 32 ≤ a ∧ a < 48 then 187 else 0 }
                   else { s6_area j with state_changed := 0, dirty_chunks := 0,
                                         dirty_bitmap := fun _ => false } },
    state_log_full_forced := false, lvt := 21 }

/-- Scenario S6 at a later time: every byte of every area was overwritten
with `0xEE`. -/
def s6_live : lp_struct :=
  { m_state := { s6_lp1.m_state with
      areas := fun j => { s6_area j with area := fun _ => 238 } },
    state_log_full_forced := false, lvt := 25 }

/-! ## Auxiliary definitions for the claims on the contents of the logs -/

/-- The area headers among the records of a log, in the order of the log. -/
def area_records (items : List Item) : List malloc_area_hdr :=
  items.filterMap (fun it => match it with
    | Item.hdr h => some h
    | _ => none)

/-- The bitmap `to_be_restored[idx]` of `restore_incremental` after the block
for an area met for the first time, for a record with header `logged` and use
bitmap `bits`: a copy of the logged use bitmap when the entry was `NULL`. -/
def still_to_restore (c : IncCursor) (logged : malloc_area_hdr) (bits : List Bool) : Nat → Bool :=
  match c.to_be_restored logged.idx with
  | none => bitmap_of_bits bits
  | some t => t

/-- Scenario S7: one area, in a map with room for 4, of 8 chunks of 16 bytes
that is logged wholesale (`LOG_MODE` set), chunks 0 to 4 allocated and filled
with `0x11`. -/
def s7_area : malloc_area :=
  { idx := 0, prev := 0, next := 0, num_chunks := 8, alloc_chunks := 5, next_chunk := 5,
    chunk_size := 16, state_changed := 0, dirty_chunks := 0, last_access := 7,
    log_mode := true, area_lock := false, has_bitmap := true,
    use_bitmap := fun i => decide (i < 5),
    dirty_bitmap := fun _ => false,
    area := fun a => if a < 80 then 17 else 0 }

/-- The LP of scenario S7 when the full log is taken, at virtual time 9. -/
def s7_lp : lp_struct :=
  { m_state :=
      { is_incremental := false, total_log_size := 217, total_inc_size := 40,
        num_areas := 1, max_num_areas := 4, timestamp := 3, areas := fun _ => s7_area },
    state_log_full_forced := false, lvt := 9 }

/-- Scenario S7 when the incremental log is taken: the chunks 0, 2 and 4 were
overwritten with `0xAA` and marked dirty. -/
def s7_area1 : malloc_area :=
  { s7_area with
    state_changed := 1, dirty_chunks := 3,
    dirty_bitmap := fun i => decide (i = 0 ∨ i = 2 ∨ i = 4),
    area := fun a =>
      if a < 16 ∨ (32 ≤ a ∧ a < 48) ∨ (64 ≤ a ∧ a < 80) then 170
      else if a < 80 then 17 else 0 }

/-- The LP of scenario S7 when the incremental log is taken, at virtual
time 12. -/
def s7_lp1 : lp_struct :=
  { m_state :=
      { is_incremental := false, total_log_size := 217, total_inc_size := 138,
        num_areas := 1, max_num_areas := 4, timestamp := 3, areas := fun _ => s7_area1 },
    state_log_full_forced := false, lvt := 12 }

/-- The full log of scenario S7. -/
def s7_full : Ckpt :=
  (ok_or (log_full plat s7_lp) (s7_lp, { state := s7_lp.m_state.tomalloc_state_hdr, items := [] })).2

/-- The incremental log of scenario S7. -/
def s7_inc : Ckpt :=
  (ok_or (log_incremental plat s7_lp1)
    (s7_lp1, { state := s7_lp1.m_state.tomalloc_state_hdr, items := [] })).2

/-- The LP of scenario S7 when the restore is asked for: every chunk of the
area was freed and overwritten with `0xFF`. -/
def s7_live : lp_struct :=
  { m_state :=
      { is_incremental := false, total_log_size := 217, total_inc_size := 40,
        num_areas := 1, max_num_areas := 4, timestamp := 3,
        areas := fun _ =>
          { s7_area with alloc_chunks := 0, next_chunk := 0, use_bitmap := fun _ => false,
                         area := fun _ => 255 } },
    state_log_full_forced := false, lvt := 20 }

/-- The state of `restore_incremental` in scenario S7 when it enters the loop
over the areas of the full log: the incremental log was handled. -/
def s7_cursor : IncCursor :=
  { m_state :=
      (ok_or (restore_incremental_log plat s7_inc
        { s7_live.m_state with tomalloc_state_hdr := s7_inc.state } (fun _ => none))
        (s7_live.m_state, fun _ => none)).1,
    to_be_restored :=
      (ok_or (restore_incremental_log plat s7_inc
        { s7_live.m_state with tomalloc_state_hdr := s7_inc.state } (fun _ => none))
        (s7_live.m_state, fun _ => none)).2,
    ptr := plat.sizeof_malloc_state,
    rest := s7_full.items }

/-- The logs that the walk of `restore_incremental` reads in the queue
`log :: prevs` (nearest first): the incremental logs up to the first full log
and that full log. -/
def blobs_read : List Ckpt → List Ckpt
  | [] => []
  | log :: prevs => if log.state.is_incremental then log :: blobs_read prevs else [log]

/-- Scenario S8, the incremental checkpoint: after the full checkpoint of
scenario S3 chunk 0 of area 1 was written again; area 0 is still unused. -/
def s8_lp1 : lp_struct :=
  { m_state := { s3_lp.m_state with total_inc_size := 154 },
    state_log_full_forced := false, lvt := 6 }

/-- The full log of scenario S8: the full log of scenario S3, which has no
record for the unused area 0. -/
def s8_full : Ckpt :=
  (ok_or (log_full plat s3_lp) (s3_lp, { state := s3_lp.m_state.tomalloc_state_hdr, items := [] })).2

/-- The incremental log of scenario S8. -/
def s8_inc : Ckpt :=
  (ok_or (log_incremental plat s8_lp1)
    (s8_lp1, { state := s8_lp1.m_state.tomalloc_state_hdr, items := [] })).2

/-- The LP of scenario S8 when the restore is asked for: two chunks of area 0
were allocated and filled with `0x55`, area 1 was overwritten with `0xEE`. -/
def s8_live : lp_struct :=
  { m_state := { s3_lp.m_state with
      areas := fun i =>
        if i = 0 then
          { s3_area0 with alloc_chunks := 2, next_chunk := 2, last_access := 7,
                          state_changed := 1, dirty_chunks := 2,
                          use_bitmap := fun i => decide (i < 2),
                          dirty_bitmap := fun i => decide (i < 2), area := fun _ => 85 }
        else { s3_area1 with area := fun _ => 238 } },
    state_log_full_forced := false, lvt := 8 }

/-! ## The micro-statistics sampler (`src/statistics/new_stats.c`)

The thread-local counters are `unsigned int`: every assignment is taken
modulo `2^32`. -/

/-- The value that an `unsigned int` holds after `x` is assigned to it. -/
def u32 (x : Nat) : Nat := x % 2 ^ 32

/-- The thread-local variables of the sampler and the entry
`stat_collection[tid]` of the thread. -/
structure Sampler where
  current_executed_events : Nat
  current_sample_id : Nat
  last_sample_id : Nat
  sampling_enabled : Nat
  sampled_rollbacks : Nat
  forward_executed_events : Nat
  aborted_events : Nat
  hard : Bool
  stat_sampled_rollbacks : Nat
  stat_aborted_events : Nat
  stat_forward_executed_events : Nat
deriving DecidableEq, Repr

/-- The initial values of the variables: all 0. -/
def Sampler.init : Sampler :=
  { current_executed_events := 0, current_sample_id := 0, last_sample_id := 0,
    sampling_enabled := 0, sampled_rollbacks := 0, forward_executed_events := 0,
    aborted_events := 0, hard := false, stat_sampled_rollbacks := 0,
    stat_aborted_events := 0, stat_forward_executed_events := 0 }

/-- The function `on_process_event_forward`; the second component is the
value stored in `evt->sample_id`. -/
def on_process_event_forward (s : Sampler) : Sampler × Nat :=
  ({ s with current_executed_events := u32 (s.current_executed_events + s.sampling_enabled) },
    s.current_sample_id)

/-- The function `on_log_state`; the second component holds the values stored
in `log->executed_events` and `log->sample_id`. -/
def on_log_state (s : Sampler) : Sampler × (Nat × Nat) :=
  ({ s with forward_executed_events :=
              u32 (s.forward_executed_events + s.current_executed_events),
            current_executed_events := 0 },
    (s.current_executed_events, s.last_sample_id))

/-- The function `on_log_restore`. -/
def on_log_restore (s : Sampler) : Sampler :=
  let s : Sampler :=
    { s with sampled_rollbacks := u32 (s.sampled_rollbacks + s.sampling_enabled),
             aborted_events := u32 (s.aborted_events + s.current_executed_events),
             forward_executed_events :=
               u32 (s.forward_executed_events + s.current_executed_events),
             current_executed_events := 0 }
  if s.aborted_events = 0 then { s with hard := true } else s

/-- The function `on_log_discarded`, for a log with the fields `sample_id`
and `executed_events`. -/
def on_log_discarded (s : Sampler) (sample_id executed_events : Nat) : Sampler :=
  if sample_id = s.last_sample_id then
    { s with aborted_events := u32 (s.aborted_events + executed_events) }
  else s

/-- The function `on_process_event_silent`, for an event with the field
`sample_id`. -/
def on_process_event_silent (s : Sampler) (sample_id : Nat) : Sampler :=
  if sample_id = s.last_sample_id ∧ s.last_sample_id ≠ 0 then
    { s with aborted_events := u32 (s.aborted_events + 2 ^ 32 - 1),
             forward_executed_events := u32 (s.forward_executed_events + 2 ^ 32 - 1),
             current_executed_events := u32 (s.current_executed_events + 1) }
  else s

/-- The function `OnSamplingPeriodBegin`. -/
def OnSamplingPeriodBegin (s : Sampler) : Sampler :=
  { s with sampling_enabled := 1,
           last_sample_id := u32 (s.last_sample_id + 1),
           current_sample_id := u32 (s.last_sample_id + 1),
           forward_executed_events := 0, aborted_events := 0, sampled_rollbacks := 0,
           current_executed_events := 0 }

/-- The function `OnSamplingPeriodEnd`. -/
def OnSamplingPeriodEnd (s : Sampler) : Sampler :=
  { s with sampling_enabled := 0, current_sample_id := 0,
           stat_forward_executed_events :=
             u32 (s.stat_forward_executed_events + s.forward_executed_events),
           stat_aborted_events := u32 (s.stat_aborted_events + s.aborted_events),
           stat_sampled_rollbacks := u32 (s.stat_sampled_rollbacks + s.sampled_rollbacks) }

/-- A call of one of the functions of the sampler, with the fields that it
reads from its argument. -/
inductive SamplerCall where
  | SamplingPeriodBegin
  | SamplingPeriodEnd
  | process_event_forward
  | log_state
  | log_restore
  | log_discarded (sample_id executed_events : Nat)
  | process_event_silent (sample_id : Nat)
deriving DecidableEq, Repr

/-- The variables after a call. -/
def Sampler.step (s : Sampler) : SamplerCall → Sampler
  | SamplerCall.SamplingPeriodBegin => OnSamplingPeriodBegin s
  | SamplerCall.SamplingPeriodEnd => OnSamplingPeriodEnd s
  | SamplerCall.process_event_forward => (on_process_event_forward s).1
  | SamplerCall.log_state => (on_log_state s).1
  | SamplerCall.log_restore => on_log_restore s
  | SamplerCall.log_discarded sid ee => on_log_discarded s sid ee
  | SamplerCall.process_event_silent sid => on_process_event_silent s sid

/-- The variables after a sequence of calls from the initial state. -/
def Sampler.run (calls : List SamplerCall) : Sampler :=
  calls.foldl Sampler.step Sampler.init

/-! ## The drain of the PEBS buffer (`src/driver/ime_pebs.c`) -/

/-- The constant `PEBS_STRUCT_SIZE`, `sizeof(pebs_arg_t)`: 25 fields of 8
bytes. -/
def PEBS_STRUCT_SIZE : Nat := 200

/-- The pointers of `debug_store_t` to the PEBS buffer, as addresses. -/
structure debug_store_t where
  pebs_buffer_base : Nat
  pebs_index : Nat
  pebs_absolute_maximum : Nat
  pebs_interrupt_threshold : Nat
deriving DecidableEq, Repr

/-- The globals of the driver that `write_buffer` and `pebs_init` use:
`pebs_mem a` stands for the part of the PEBS record at address `a` that
`memcpy` copies, `buffer_sample i` for the record of index `i` of the array
`buffer_sample`, `capacity` for the number of records with which the array
was allocated, `allocated_bytes` for the size of the allocation, and `written`
lists the indices of `buffer_sample` that were written, the last one first. -/
structure Pebs where
  nRecords_pebs : Nat
  nRecords_module : Nat
  user_index_written : Nat
  ds : debug_store_t
  pebs_mem : Nat → Nat
  buffer_sample : Nat → Nat
  capacity : Nat
  allocated_bytes : Nat
  written : List Nat

/-- The loop of `write_buffer`, with `fuel` iterations at most: `pebs` runs
from the base of the buffer in steps of `PEBS_STRUCT_SIZE` while it is below
`end_`; `MAX_BUFFER_SIZE` is a constant of `main/ime-ioctl.h`. -/
def write_buffer_loop (MAX_BUFFER_SIZE : Nat) (end_ : Nat) : Nat → Nat → Pebs → Pebs
  | 0, _, st => st
  | fuel + 1, pebs, st =>
    if pebs < end_ then
      let st : Pebs :=
        if st.user_index_written < MAX_BUFFER_SIZE then
          { st with
            buffer_sample :=
              Function.update st.buffer_sample st.user_index_written (st.pebs_mem pebs),
            written := st.user_index_written :: st.written,
            user_index_written := st.user_index_written + 1 }
        else st
      write_buffer_loop MAX_BUFFER_SIZE end_ fuel (pebs + PEBS_STRUCT_SIZE) st
    else st

/-- The function `write_buffer`.  The loop is given
`pebs_index - pebs_buffer_base` iterations, which is enough since every
iteration moves `pebs` by `PEBS_STRUCT_SIZE > 0`. -/
def write_buffer (MAX_BUFFER_SIZE : Nat) (st : Pebs) : Pebs :=
  let st1 := write_buffer_loop MAX_BUFFER_SIZE st.ds.pebs_index
    (st.ds.pebs_index - st.ds.pebs_buffer_base) st.ds.pebs_buffer_base st
  { st1 with ds := { st1.ds with pebs_index := st1.ds.pebs_buffer_base } }

/-- The function `allocate_buffer`, both allocations succeeding: `ppebs` is
the address of the new PEBS buffer; `buffer_sample` is a new zeroed array of
`nRecords_module` records. -/
def allocate_buffer (ppebs : Nat) (st : Pebs) : Pebs :=
  { st with
    buffer_sample := fun _ => 0,
    capacity := st.nRecords_module,
    allocated_bytes := PEBS_STRUCT_SIZE * st.nRecords_module,
    written := [],
    ds := { pebs_buffer_base := ppebs, pebs_index := ppebs,
            pebs_absolute_maximum := ppebs + (st.nRecords_pebs - 1) * PEBS_STRUCT_SIZE,
            pebs_interrupt_threshold := ppebs + PEBS_STRUCT_SIZE } }

/-- The part of `pebs_init` that sets up the buffers, on a CPU for which PEBS
is enabled: the two lengths are taken from the arguments when they are
positive, then `allocate_buffer` is called. -/
def pebs_init (buffer_pebs_length buffer_module_length : Int) (ppebs : Nat) (st : Pebs) : Pebs :=
  let st : Pebs :=
    if buffer_pebs_length > 0 then { st with nRecords_pebs := buffer_pebs_length.toNat } else st
  let st : Pebs :=
    if buffer_module_length > 0 then { st with nRecords_module := buffer_module_length.toNat }
    else st
  allocate_buffer ppebs st

/-- The globals of the driver when the module is loaded; `MAX_BUFFER_SIZE` is
a constant of `main/ime-ioctl.h`. -/
def Pebs.init (MAX_BUFFER_SIZE : Nat) : Pebs :=
  { nRecords_pebs := 32, nRecords_module := MAX_BUFFER_SIZE, user_index_written := 0,
    ds := { pebs_buffer_base := 0, pebs_index := 0, pebs_absolute_maximum := 0,
            pebs_interrupt_threshold := 0 },
    pebs_mem := fun _ => 0, buffer_sample := fun _ => 0, capacity := 0,
    allocated_bytes := 0, written := [] }

/-- The number of records between the base of the PEBS buffer and
`pebs_index`: the iterations of the loop of `write_buffer`. -/
def pending_records (st : Pebs) : Nat :=
  (st.ds.pebs_index - st.ds.pebs_buffer_base + PEBS_STRUCT_SIZE - 1) / PEBS_STRUCT_SIZE

/-- The state after the hardware stored `k` records in the PEBS buffer:
`pebs_index` is `k` records above the base. -/
def pebs_stored (k : Nat) (st : Pebs) : Pebs :=
  { st with ds := { st.ds with pebs_index := st.ds.pebs_buffer_base + k * PEBS_STRUCT_SIZE } }

/-- The record of index `i` of `buffer_sample` lies within the allocation,
for records of `sizeof_pebs_user` bytes (`struct pebs_user` is declared in
`main/ime-ioctl.h`). -/
def record_in_bounds (sizeof_pebs_user : Nat) (st : Pebs) (i : Nat) : Prop :=
  (i + 1) * sizeof_pebs_user ≤ st.allocated_bytes

instance (sz : Nat) (st : Pebs) (i : Nat) : Decidable (record_in_bounds sz st i) := by
  unfold record_in_bounds; infer_instance

/-- The run that configures `n` records for `buffer_sample` and `n + 2` for
the PEBS buffer at address `ppebs`, lets the hardware store `n + 1` records
and calls `write_buffer`. -/
def drain_configured (MAX_BUFFER_SIZE n ppebs : Nat) : Pebs :=
  write_buffer MAX_BUFFER_SIZE
    (pebs_stored (n + 1) (pebs_init (n + 2 : Nat) (n : Nat) ppebs (Pebs.init MAX_BUFFER_SIZE)))
/-! ## The writers -/

theorem items_size_append (P : Platform) (l1 l2 : List Item) :
    items_size P (l1 ++ l2) = items_size P l1 + items_size P l2 := by
  simp [items_size, List.sum_append]

theorem items_size_nil (P : Platform) : items_size P [] = 0 := rfl

theorem items_size_cons (P : Platform) (x : Item) (l : List Item) :
    items_size P (x :: l) = x.size P + items_size P l := by
  simp [items_size]

theorem read_bitmap_length (b : Nat → Bool) (n : Nat) : (read_bitmap b n).length = 8 * n := by
  simp [read_bitmap]

theorem read_bytes_length (m : Nat → Nat) (off n : Nat) : (read_bytes m off n).length = n := by
  simp [read_bytes]

theorem items_size_chunks (P : Platform) (area : Nat → Nat) (cs : Nat) (xs : List Nat) :
    items_size P (xs.map (fun x => Item.bytes (read_bytes area (x * cs) cs))) = xs.length * cs := by
  induction xs with
  | nil => simp [items_size]
  | cons x xs ih =>
    rw [List.map_cons, items_size_cons, ih]
    simp [Item.size, read_bytes_length]
    ring

theorem copy_from_area_foldl (m_area : malloc_area) (cs : Nat) (xs : List Nat) (ptr : Nat)
    (log : List Item) :
    xs.foldl (copy_from_area m_area cs) (ptr, log) =
      (ptr + xs.length * cs,
       log ++ xs.map (fun x => Item.bytes (read_bytes m_area.area (x * cs) cs))) := by
  induction xs generalizing ptr log with
  | nil => simp
  | cons x xs ih =>
    simp only [List.foldl_cons, copy_from_area, ih, List.length_cons, List.map_cons,
      List.append_assoc, List.singleton_append, Prod.mk.injEq, and_true]
    ring

theorem full_area_items_size (P : Platform) (a : malloc_area) :
    items_size P (full_area_items P a) =
      if a.alloc_chunks = 0 then 0
      else P.sizeof_malloc_area + P.bitmap_required_size a.num_chunks +
        (if a.log_mode then a.num_chunks * P.untagged_chunk_size a.chunk_size
         else popcount a.use_bitmap (P.bitmap_required_size a.num_chunks) *
           P.untagged_chunk_size a.chunk_size) := by
  unfold full_area_items
  split_ifs with h1 h2
  · rfl
  · simp [items_size_cons, items_size_nil, Item.size, read_bitmap_length, read_bytes_length]
    ring
  · rw [items_size_cons, items_size_cons, items_size_chunks]
    simp [Item.size, read_bitmap_length, popcount]
    ring

theorem log_full_area_eq (P : Platform) (c : LogCursor) (i : Nat) :
    log_full_area P c i =
      { m_state := set_area c.m_state i (clean_area P (c.m_state.areas i)),
        ptr := c.ptr + items_size P (full_area_items P (c.m_state.areas i)),
        log := c.log ++ full_area_items P (c.m_state.areas i) } := by
  rw [full_area_items_size]
  unfold log_full_area full_area_items clean_area
  simp only [copy_from_area_foldl]
  split_ifs <;> simp [popcount] <;> ring

theorem log_full_loop_eq (P : Platform) (m : malloc_state) (ptr : Nat) (log : List Item)
    (n : Nat) :
    (List.range n).foldl (log_full_area P) { m_state := m, ptr := ptr, log := log } =
      { m_state := clean_upto P m n,
        ptr := ptr + items_size P ((List.range n).flatMap (fun j => full_area_items P (m.areas j))),
        log := log ++ (List.range n).flatMap (fun j => full_area_items P (m.areas j)) } := by
  induction n with
  | zero => simp [clean_upto, items_size]
  | succ n ih =>
    rw [List.range_succ, List.foldl_append, ih]
    simp only [List.foldl_cons, List.foldl_nil, log_full_area_eq, List.flatMap_append,
      List.flatMap_cons, List.flatMap_nil, List.append_nil, items_size_append]
    have h1 : (clean_upto P m n).areas n = m.areas n := by simp [clean_upto]
    rw [h1]
    congr 1
    · simp only [clean_upto, set_area]
      congr 1
      funext j
      by_cases hj : j = n
      · subst hj; simp
      · rw [Function.update_noteq hj]
        by_cases hlt : j < n
        · simp [hlt, Nat.lt_succ_of_lt hlt]
        · have : ¬ j < n + 1 := by omega
          simp [hlt, this]
    · ring
    · simp

theorem log_full_eq (P : Platform) (lp : lp_struct) :
    log_full P lp =
      if get_log_size P lp.m_state ≠ P.sizeof_malloc_state +
          items_size P ((List.range lp.m_state.num_areas).flatMap
            (fun j => full_area_items P (lp.m_state.areas j))) then
        Except.error Fatal.corrupt_layout
      else
        Except.ok
          ({ lp with m_state :=
              { clean_upto P { lp.m_state with is_incremental := false } lp.m_state.num_areas with
                total_inc_size := P.sizeof_malloc_state } },
           { state := { lp.m_state.tomalloc_state_hdr with
                          is_incremental := false, timestamp := lp.lvt },
             items := (List.range lp.m_state.num_areas).flatMap
               (fun j => full_area_items P (lp.m_state.areas j)) }) := by
  unfold log_full
  simp only [log_full_loop_eq, List.nil_append]
  rfl

theorem inc_area_items_size (P : Platform) (a : malloc_area) :
    items_size P (inc_area_items P a) =
      if a.state_changed = 0 then 0
      else P.sizeof_malloc_area + P.bitmap_required_size a.num_chunks +
        (if a.dirty_chunks = 0 then 0
         else P.bitmap_required_size a.num_chunks +
           popcount a.dirty_bitmap (P.bitmap_required_size a.num_chunks) *
             P.untagged_chunk_size a.chunk_size) := by
  unfold inc_area_items
  split_ifs with h1 h2
  · rfl
  · simp [items_size_cons, items_size_nil, Item.size, read_bitmap_length]
  · rw [items_size_cons, items_size_cons, items_size_cons, items_size_chunks]
    simp [Item.size, read_bitmap_length, popcount]
    ring

theorem log_incremental_area_eq (P : Platform) (c : LogCursor) (i : Nat) :
    log_incremental_area P c i =
      if inc_bad (c.m_state.areas i) then Except.error Fatal.invariant_violation
      else Except.ok
        { m_state := if (c.m_state.areas i).state_changed = 0 then c.m_state
            else set_area c.m_state i (inc_clean_area P (c.m_state.areas i)),
          ptr := c.ptr + items_size P (inc_area_items P (c.m_state.areas i)),
          log := c.log ++ inc_area_items P (c.m_state.areas i) } := by
  rw [inc_area_items_size]
  unfold log_incremental_area inc_area_items inc_clean_area inc_bad
  simp only [copy_from_area_foldl]
  split_ifs <;> simp_all [popcount] <;> ring

theorem set_area_self (m : malloc_state) (i : Nat) : set_area m i (m.areas i) = m := by
  simp [set_area]

theorem log_incremental_area_ok (P : Platform) (c : LogCursor) (i : Nat)
    (h : ¬ inc_bad (c.m_state.areas i)) :
    log_incremental_area P c i = Except.ok
        { m_state := set_area c.m_state i (inc_clean_area P (c.m_state.areas i)),
          ptr := c.ptr + items_size P (inc_area_items P (c.m_state.areas i)),
          log := c.log ++ inc_area_items P (c.m_state.areas i) } := by
  rw [log_incremental_area_eq, if_neg h]
  by_cases h0 : (c.m_state.areas i).state_changed = 0
  · simp [h0, inc_clean_area, set_area_self]
  · simp [h0]

theorem log_incremental_loop_ok (P : Platform) (n i : Nat) (c : LogCursor)
    (h : ∀ j, i ≤ j → j < i + n → ¬ inc_bad (c.m_state.areas j)) :
    log_incremental_loop P n i c = Except.ok
      { m_state := inc_clean_range P c.m_state i n,
        ptr := c.ptr + items_size P
          ((List.range' i n).flatMap (fun j => inc_area_items P (c.m_state.areas j))),
        log := c.log ++
          (List.range' i n).flatMap (fun j => inc_area_items P (c.m_state.areas j)) } := by
  induction n generalizing i c with
  | zero =>
    simp only [log_incremental_loop, List.range'_zero, List.flatMap_nil, items_size_nil,
      List.append_nil, Nat.add_zero]
    have hm : inc_clean_range P c.m_state i 0 = c.m_state := by
      simp only [inc_clean_range]
      have : (fun j => if i ≤ j ∧ j < i + 0 then inc_clean_area P (c.m_state.areas j)
          else c.m_state.areas j) = c.m_state.areas := by
        funext j
        have : ¬ (i ≤ j ∧ j < i + 0) := by omega
        simp [this]
      rw [this]
    rw [hm]
  | succ n ih =>
    have hi : ¬ inc_bad (c.m_state.areas i) := h i (Nat.le_refl i) (by omega)
    rw [log_incremental_loop, log_incremental_area_ok P c i hi]
    simp only
    have hareas : ∀ j, i + 1 ≤ j →
        (set_area c.m_state i (inc_clean_area P (c.m_state.areas i))).areas j =
          c.m_state.areas j := by
      intro j hj
      simp only [set_area]
      rw [Function.update_noteq (by omega)]
    rw [ih]
    · have hfm : (List.range' (i + 1) n).flatMap (fun j => inc_area_items P
            ((set_area c.m_state i (inc_clean_area P (c.m_state.areas i))).areas j)) =
          (List.range' (i + 1) n).flatMap (fun j => inc_area_items P (c.m_state.areas j)) := by
        apply List.flatMap_congr
        intro j hj
        rw [hareas j (by simp at hj; omega)]
      simp only [hfm, List.range'_succ, List.flatMap_cons, items_size_append, List.append_assoc]
      congr 2
      · simp only [inc_clean_range, set_area]
        congr 1
        funext j
        by_cases hj : j = i
        · subst hj; simp
        · rw [Function.update_noteq hj]
          by_cases hlt : i + 1 ≤ j ∧ j < i + 1 + n
          · have : i ≤ j ∧ j < i + (n + 1) := by omega
            simp [hlt, this]
          · have : ¬ (i ≤ j ∧ j < i + (n + 1)) := by omega
            simp [hlt, this]
      · ring
    · intro j h1 h2
      rw [hareas j h1]
      exact h j (by omega) (by omega)

theorem log_incremental_loop_err (P : Platform) (n i : Nat) (c : LogCursor)
    (h : ∃ j, i ≤ j ∧ j < i + n ∧ inc_bad (c.m_state.areas j)) :
    log_incremental_loop P n i c = Except.error Fatal.invariant_violation := by
  induction n generalizing i c with
  | zero => obtain ⟨j, h1, h2, _⟩ := h; omega
  | succ n ih =>
    rw [log_incremental_loop]
    by_cases hi : inc_bad (c.m_state.areas i)
    · rw [log_incremental_area_eq, if_pos hi]
    · rw [log_incremental_area_ok P c i hi]
      simp only
      apply ih
      obtain ⟨j, h1, h2, h3⟩ := h
      have hne : j ≠ i := by
        intro e; subst e; exact hi h3
      refine ⟨j, by omega, by omega, ?_⟩
      simp only [set_area]
      rw [Function.update_noteq hne]
      exact h3

theorem log_full_eq2 (P : Platform) (lp : lp_struct) :
    log_full P lp =
      if get_log_size P lp.m_state ≠ P.sizeof_malloc_state + items_size P (full_items P lp.m_state)
      then Except.error Fatal.corrupt_layout
      else Except.ok (lp_after_full P lp, ckpt_full P lp) := by
  rw [log_full_eq]
  rfl

theorem log_full_inv (P : Platform) (lp : lp_struct) (r : lp_struct × Ckpt)
    (h : log_full P lp = Except.ok r) :
    r = (lp_after_full P lp, ckpt_full P lp) ∧
      get_log_size P lp.m_state =
        P.sizeof_malloc_state + items_size P (full_items P lp.m_state) := by
  rw [log_full_eq2] at h
  split_ifs at h with hs
  · simp only [ne_eq, Decidable.not_not] at hs
    exact ⟨(Except.ok.inj h).symm, hs⟩

theorem log_incremental_eq (P : Platform) (lp : lp_struct) :
    log_incremental P lp =
      if ∃ j, j < lp.m_state.num_areas ∧ inc_bad (lp.m_state.areas j) then
        Except.error Fatal.invariant_violation
      else if P.sizeof_malloc_state + items_size P (inc_items P lp.m_state) ≠
          lp.m_state.total_inc_size then
        Except.error Fatal.corrupt_layout
      else Except.ok (lp_after_inc P lp, ckpt_inc P lp) := by
  unfold log_incremental
  by_cases hb : ∃ j, j < lp.m_state.num_areas ∧ inc_bad (lp.m_state.areas j)
  · rw [if_pos hb]
    obtain ⟨j, h1, h2⟩ := hb
    simp only
    rw [log_incremental_loop_err P _ 0 _ ⟨j, Nat.zero_le j, by omega, h2⟩]
  · rw [if_neg hb]
    simp only
    rw [log_incremental_loop_ok P _ 0 _ (fun j _ h2 h3 => hb ⟨j, by omega, h3⟩)]
    simp only [List.nil_append]
    rfl

theorem log_incremental_inv (P : Platform) (lp : lp_struct) (r : lp_struct × Ckpt)
    (h : log_incremental P lp = Except.ok r) :
    r = (lp_after_inc P lp, ckpt_inc P lp) ∧
      (∀ j, j < lp.m_state.num_areas → ¬ inc_bad (lp.m_state.areas j)) ∧
      P.sizeof_malloc_state + items_size P (inc_items P lp.m_state) =
        lp.m_state.total_inc_size := by
  rw [log_incremental_eq] at h
  split_ifs at h with h1 h2
  · simp only [ne_eq, Decidable.not_not] at h2
    refine ⟨(Except.ok.inj h).symm, ?_, h2⟩
    intro j hj hbad
    exact h1 ⟨j, hj, hbad⟩

theorem log_state_eq (P : Platform) (snapshot : Snapshot) (lp : lp_struct) :
    log_state P snapshot lp =
      if lp.state_log_full_forced = true ∨ snapshot = Snapshot.SNAPSHOT_FULL then
        log_full P { lp with state_log_full_forced := false }
      else log_incremental P lp := by
  unfold log_state
  by_cases h1 : lp.state_log_full_forced = true <;> by_cases h2 : snapshot = Snapshot.SNAPSHOT_FULL <;>
    simp [h1, h2]

/-! ## `restore_full` on a log written by `log_full` -/

theorem write_bytes_read_bytes (src dst : Nat → Nat) (off n : Nat) :
    write_bytes dst off (read_bytes src off n) =
      fun a => if off ≤ a ∧ a < off + n then src a else dst a := by
  funext a
  unfold write_bytes read_bytes
  simp only [List.length_map, List.length_range]
  by_cases h : off ≤ a ∧ a < off + n
  · rw [if_pos h, if_pos h]
    have h2 : a - off < n := by omega
    rw [List.getD_eq_getElem?_getD, List.getElem?_map, List.getElem?_range h2]
    simp
    congr 1
    omega
  · rw [if_neg h, if_neg h]

theorem write_read_bitmap (u live : Nat → Bool) (n i : Nat) :
    write_bitmap live (read_bitmap u n) i = if i < 8 * n then u i else live i := by
  unfold write_bitmap read_bitmap
  simp only [List.length_map, List.length_range]
  by_cases h : i < 8 * n
  · rw [if_pos h, if_pos h, List.getD_eq_getElem?_getD, List.getElem?_map, List.getElem?_range h]
    simp
  · rw [if_neg h, if_neg h]

theorem bitmap_set_bits_congr (u v : Nat → Bool) (n : Nat)
    (h : ∀ i, i < 8 * n → u i = v i) : bitmap_set_bits u n = bitmap_set_bits v n := by
  unfold bitmap_set_bits
  apply List.filter_congr
  intro i hi
  rw [h i (by simpa using hi)]

theorem bitmap_set_bits_write_read (u live : Nat → Bool) (n : Nat) :
    bitmap_set_bits (write_bitmap live (read_bitmap u n)) n = bitmap_set_bits u n := by
  apply bitmap_set_bits_congr
  intro i hi
  rw [write_read_bitmap, if_pos hi]

theorem copied_cons (cs x : Nat) (xs : List Nat) (src dst : Nat → Nat) :
    copied cs xs src (write_bytes dst (x * cs) (read_bytes src (x * cs) cs)) =
      copied cs (x :: xs) src dst := by
  funext a
  rw [write_bytes_read_bytes]
  unfold copied
  simp only [List.any_cons, Bool.or_eq_true, decide_eq_true_eq]
  by_cases h1 : x * cs ≤ a ∧ a < x * cs + cs
  · simp [h1]
  · simp [h1]

theorem copy_to_area_spec (cs : Nat) (xs : List Nat) (src dst : Nat → Nat) (ptr : Nat)
    (rest : List Item) :
    copy_to_area cs xs dst ptr
        (xs.map (fun x => Item.bytes (read_bytes src (x * cs) cs)) ++ rest) =
      Except.ok (copied cs xs src dst, ptr + xs.length * cs, rest) := by
  induction xs generalizing dst ptr with
  | nil =>
    simp only [copy_to_area, List.map_nil, List.nil_append, List.length_nil, Nat.zero_mul,
      Nat.add_zero]
    congr 2
  | cons x xs ih =>
    simp only [List.map_cons, List.cons_append, copy_to_area, read_bytes_length, ne_eq,
      not_true_eq_false, if_false]
    rw [ih, copied_cons]
    congr 3
    simp only [List.length_cons]
    ring


theorem clean_area_inline (P : Platform) (a : malloc_area) :
    (if a.has_bitmap = true then
        ({ a with state_changed := 0, dirty_chunks := 0,
                  dirty_bitmap :=
                    bitmap_memset0 a.dirty_bitmap (P.bitmap_required_size a.num_chunks) } :
          malloc_area)
      else { a with state_changed := 0, dirty_chunks := 0 }) = clean_area P a := by
  unfold clean_area
  split_ifs <;> rfl

theorem restore_full_area_unlogged (P : Platform) (target : Nat) (c : RestoreCursor) (i : Nat)
    (h : c.ptr ≥ target ∨
      ∃ h tl, c.rest = Item.hdr h :: tl ∧ (c.m_state.areas i).idx ≠ h.idx) :
    restore_full_area P target c i =
      Except.ok
        { m_state := set_area c.m_state i
            (reset_unlogged (clean_area P (c.m_state.areas i))
              (P.bitmap_required_size (c.m_state.areas i).num_chunks) c.m_state.timestamp),
          ptr := c.ptr, rest := c.rest } := by
  have hclean := clean_area_inline P (c.m_state.areas i)
  unfold restore_full_area
  simp only [hclean]
  by_cases hp : c.ptr ≥ target
  · rw [if_pos hp]
  · rw [if_neg hp]
    rcases h with h | ⟨h, tl, hr, hne⟩
    · exact absurd h hp
    · rw [hr]
      simp only
      have hne2 : (clean_area P (c.m_state.areas i)).idx ≠ h.idx := hne
      rw [if_pos hne2]

theorem restore_full_area_logged (P : Platform) (target : Nat) (c : RestoreCursor) (i : Nat)
    (s : malloc_area) (r : List Item) (hs : s.alloc_chunks ≠ 0)
    (hrest : c.rest = full_area_items P s ++ r) (hlt : c.ptr < target)
    (hidx : (c.m_state.areas i).idx = s.idx)
    (hnc : (c.m_state.areas i).num_chunks = s.num_chunks) :
    restore_full_area P target c i =
      Except.ok { m_state := set_area c.m_state i (restore_logged_area P s (c.m_state.areas i)),
                  ptr := c.ptr + items_size P (full_area_items P s), rest := r } := by
  have hclean := clean_area_inline P (c.m_state.areas i)
  have hp : ¬ c.ptr ≥ target := by omega
  rw [full_area_items_size, if_neg hs]
  unfold restore_full_area
  simp only [hclean]
  rw [if_neg hp, hrest]
  unfold full_area_items
  rw [if_neg hs]
  have hidx2 : ¬ (clean_area P (c.m_state.areas i)).idx ≠ s.idx := by
    simpa using hidx
  simp only [List.cons_append]
  rw [if_neg hidx2]
  simp only [read_bitmap_length, hnc, ne_eq, not_true_eq_false, if_false]
  by_cases hlm : s.log_mode = true
  · simp only [hlm, if_true, List.cons_append, List.nil_append, read_bytes_length, ne_eq,
      not_true_eq_false, if_false]
    simp [restore_logged_area, hlm, clean_area]
    ring
  · have hlm2 : s.log_mode = false := by simpa using hlm
    simp only [hlm2, Bool.false_eq_true, if_false, bitmap_set_bits_write_read]
    rw [copy_to_area_spec]
    simp [restore_logged_area, hlm2, clean_area, popcount]
    ring

theorem full_items_head (P : Platform) (s : malloc_state) (i k : Nat) :
    (List.range' i k).flatMap (fun j => full_area_items P (s.areas j)) = [] ∨
    ∃ j h tl, i ≤ j ∧ j < i + k ∧ h.idx = (s.areas j).idx ∧
      (List.range' i k).flatMap (fun j => full_area_items P (s.areas j)) = Item.hdr h :: tl := by
  induction k generalizing i with
  | zero => left; rfl
  | succ k ih =>
    rw [List.range'_succ, List.flatMap_cons]
    by_cases h0 : (s.areas i).alloc_chunks = 0
    · have he : full_area_items P (s.areas i) = [] := by simp [full_area_items, h0]
      rw [he, List.nil_append]
      rcases ih (i + 1) with h | ⟨j, h, tl, h1, h2, h3, h4⟩
      · left; exact h
      · right; exact ⟨j, h, tl, by omega, by omega, h3, h4⟩
    · right
      have he : full_area_items P (s.areas i) =
          Item.hdr { (s.areas i).tomalloc_area_hdr with state_changed := 0, dirty_chunks := 0 } ::
          (full_area_items P (s.areas i)).tail := by
        unfold full_area_items
        rw [if_neg h0]
        rfl
      rw [he, List.cons_append]
      exact ⟨i, { (s.areas i).tomalloc_area_hdr with state_changed := 0, dirty_chunks := 0 }, _,
        Nat.le_refl i, by omega, rfl, rfl⟩

theorem restored_range_zero (P : Platform) (s m : malloc_state) (i : Nat) :
    restored_range P s m i 0 = m := by
  unfold restored_range
  have : (fun j => if i ≤ j ∧ j < i + 0 then restore_one P (s.areas j) (m.areas j) m.timestamp
      else m.areas j) = m.areas := by
    funext j
    have : ¬ (i ≤ j ∧ j < i + 0) := by omega
    simp [this]
  rw [this]

theorem restored_range_succ (P : Platform) (s m : malloc_state) (i k : Nat) (a : malloc_area)
    (ha : a = restore_one P (s.areas i) (m.areas i) m.timestamp) :
    restored_range P s (set_area m i a) (i + 1) k = restored_range P s m i (k + 1) := by
  unfold restored_range set_area
  simp only
  congr 1
  funext j
  by_cases hj : j = i
  · subst hj
    have h1 : ¬ (j + 1 ≤ j ∧ j < j + 1 + k) := by omega
    have h2 : j ≤ j ∧ j < j + (k + 1) := by omega
    simp [h1, h2, ha]
  · rw [Function.update_noteq hj]
    by_cases hlt : i + 1 ≤ j ∧ j < i + 1 + k
    · have : i ≤ j ∧ j < i + (k + 1) := by omega
      simp [hlt, this]
    · have : ¬ (i ≤ j ∧ j < i + (k + 1)) := by omega
      simp [hlt, this]

theorem restore_full_loop_spec (P : Platform) (s : malloc_state)
    (target k i : Nat) (c : RestoreCursor)
    (hrest : c.rest = (List.range' i k).flatMap (fun j => full_area_items P (s.areas j)))
    (htarget : target = c.ptr + items_size P c.rest)
    (hidx_s : ∀ j, i ≤ j → j < i + k → (s.areas j).idx = j)
    (hidx_l : ∀ j, i ≤ j → j < i + k → (c.m_state.areas j).idx = j)
    (hnc : ∀ j, i ≤ j → j < i + k → (c.m_state.areas j).num_chunks = (s.areas j).num_chunks) :
    restore_full_loop P target k i c =
      Except.ok { m_state := restored_range P s c.m_state i k, ptr := target, rest := [] } := by
  induction k generalizing i c with
  | zero =>
    rw [restore_full_loop, restored_range_zero]
    simp only [List.range'_zero, List.flatMap_nil] at hrest
    rw [hrest, items_size_nil, Nat.add_zero] at htarget
    rw [htarget, ← hrest]
  | succ k ih =>
    rw [restore_full_loop]
    rw [List.range'_succ, List.flatMap_cons] at hrest
    have hareas : ∀ (a : malloc_area) j, i + 1 ≤ j → (set_area c.m_state i a).areas j =
        c.m_state.areas j := by
      intro a j hj
      simp only [set_area]
      rw [Function.update_noteq (by omega)]
    by_cases h0 : (s.areas i).alloc_chunks = 0
    · have he : full_area_items P (s.areas i) = [] := by simp [full_area_items, h0]
      rw [he, List.nil_append] at hrest
      have hun : c.ptr ≥ target ∨
          ∃ h tl, c.rest = Item.hdr h :: tl ∧ (c.m_state.areas i).idx ≠ h.idx := by
        rcases full_items_head P s (i + 1) k with h | ⟨j, h, tl, h1, h2, h3, h4⟩
        · left
          rw [hrest, h, items_size_nil] at htarget
          omega
        · right
          refine ⟨h, tl, by rw [hrest, h4], ?_⟩
          rw [h3, hidx_l i (Nat.le_refl i) (by omega), hidx_s j (by omega) (by omega)]
          omega
      rw [restore_full_area_unlogged P target c i hun]
      simp only
      rw [ih (i + 1)]
      · rw [restored_range_succ]
        simp [restore_one, h0]
      · exact hrest
      · exact htarget
      · intro j h1 h2; exact hidx_s j (by omega) (by omega)
      · intro j h1 h2
        rw [hareas _ j h1]
        exact hidx_l j (by omega) (by omega)
      · intro j h1 h2
        rw [hareas _ j h1]
        exact hnc j (by omega) (by omega)
    · have hlt : c.ptr < target := by
        rw [htarget, hrest, items_size_append, full_area_items_size, if_neg h0]
        have hP := P.sizeof_malloc_area_pos
        omega
      rw [restore_full_area_logged P target c i (s.areas i) _ h0 hrest hlt
        (by rw [hidx_l i (Nat.le_refl i) (by omega), hidx_s i (Nat.le_refl i) (by omega)])
        (hnc i (Nat.le_refl i) (by omega))]
      simp only
      rw [ih (i + 1)]
      · rw [restored_range_succ]
        simp [restore_one, h0]
      · rfl
      · rw [htarget, hrest, items_size_append]
        ring
      · intro j h1 h2; exact hidx_s j (by omega) (by omega)
      · intro j h1 h2
        rw [hareas _ j h1]
        exact hidx_l j (by omega) (by omega)
      · intro j h1 h2
        rw [hareas _ j h1]
        exact hnc j (by omega) (by omega)

theorem restore_full_of_log_full (P : Platform) (s live : lp_struct)
    (hsize : s.m_state.total_log_size =
      P.sizeof_malloc_state + items_size P (full_items P s.m_state))
    (hidx_s : ∀ j, j < s.m_state.num_areas → (s.m_state.areas j).idx = j)
    (hidx_l : ∀ j, j < s.m_state.num_areas → (live.m_state.areas j).idx = j)
    (hnc : ∀ j, j < s.m_state.num_areas →
      (live.m_state.areas j).num_chunks = (s.m_state.areas j).num_chunks) :
    restore_full P live (ckpt_full P s) =
      Except.ok { live with m_state := restored_full P s live } := by
  unfold restore_full
  simp only
  have hn : (ckpt_full P s).state.num_areas = s.m_state.num_areas := rfl
  have hitems : (ckpt_full P s).items =
      (List.range' 0 s.m_state.num_areas).flatMap
        (fun j => full_area_items P (s.m_state.areas j)) := by
    simp [ckpt_full, full_items, List.range_eq_range']
  rw [hn, restore_full_loop_spec P s.m_state _ s.m_state.num_areas 0 _ hitems]
  · rfl
  · show s.m_state.total_log_size = _
    rw [hsize]
    rfl
  · intro j _ h2; exact hidx_s j (by omega)
  · intro j _ h2; exact hidx_l j (by omega)
  · intro j _ h2; exact hnc j (by omega)

theorem reset_trailing_le (P : Platform) (orig : Nat) (m : malloc_state)
    (h : orig ≤ m.num_areas) : reset_trailing P orig m = m := by
  unfold reset_trailing
  rw [if_neg (by omega)]

theorem restored_full_area (P : Platform) (s live : lp_struct)
    (h : live.m_state.num_areas ≤ s.m_state.num_areas) (i : Nat) (hi : i < s.m_state.num_areas) :
    (restored_full P s live).areas i =
      restore_one P (s.m_state.areas i) (live.m_state.areas i) s.lvt := by
  unfold restored_full
  rw [reset_trailing_le P _ _ (by exact h)]
  simp [finish_restore, restored_range, hi, ckpt_full]

theorem restored_full_hdr (P : Platform) (s live : lp_struct)
    (h : live.m_state.num_areas ≤ s.m_state.num_areas) :
    (restored_full P s live).tomalloc_state_hdr =
      { s.m_state.tomalloc_state_hdr with
          timestamp := -1, is_incremental := false, total_inc_size := P.sizeof_malloc_state } := by
  unfold restored_full
  rw [reset_trailing_le P _ _ (by exact h)]
  rfl

theorem mem_bitmap_set_bits (u : Nat → Bool) (n x : Nat) :
    x ∈ bitmap_set_bits u n ↔ x < 8 * n ∧ u x = true := by
  simp [bitmap_set_bits]

theorem copied_of_mem (cs : Nat) (xs : List Nat) (src dst : Nat → Nat) (x a : Nat)
    (hx : x ∈ xs) (h1 : x * cs ≤ a) (h2 : a < x * cs + cs) : copied cs xs src dst a = src a := by
  unfold copied
  rw [if_pos]
  rw [List.any_eq_true]
  exact ⟨x, hx, by simp [h1, h2]⟩

theorem copied_of_not_mem (cs : Nat) (xs : List Nat) (src dst : Nat → Nat) (a : Nat)
    (h : ∀ x, x ∈ xs → ¬ (x * cs ≤ a ∧ a < x * cs + cs)) : copied cs xs src dst a = dst a := by
  unfold copied
  rw [if_neg]
  rw [List.any_eq_true]
  rintro ⟨x, hx, hd⟩
  exact h x hx (by simpa using hd)

theorem read_bytes_congr (m1 m2 : Nat → Nat) (off n : Nat)
    (h : ∀ j, j < n → m1 (off + j) = m2 (off + j)) : read_bytes m1 off n = read_bytes m2 off n := by
  unfold read_bytes
  apply List.map_congr_left
  intro j hj
  exact h j (by simpa using hj)

theorem restore_logged_area_chunk (P : Platform) (s live : malloc_area) (x : Nat)
    (hx : allocated P s x) :
    chunk P (restore_logged_area P s live) x = chunk P s x := by
  obtain ⟨h1, h2, h3⟩ := hx
  unfold chunk
  have hcs : (restore_logged_area P s live).chunk_size = s.chunk_size := rfl
  rw [hcs]
  apply read_bytes_congr
  intro j hj
  by_cases hlm : s.log_mode = true
  · simp only [restore_logged_area, hlm, if_true]
    rw [write_bytes_read_bytes]
    have hb : x * P.untagged_chunk_size s.chunk_size + j <
        0 + s.num_chunks * P.untagged_chunk_size s.chunk_size := by
      have := Nat.mul_le_mul_right (P.untagged_chunk_size s.chunk_size) (Nat.succ_le_of_lt h1)
      rw [Nat.succ_mul] at this
      omega
    beta_reduce
    rw [if_pos ⟨Nat.zero_le _, hb⟩]
  · simp only [restore_logged_area, hlm, if_false]
    apply copied_of_mem _ _ _ _ x
    · exact (mem_bitmap_set_bits _ _ _).2 ⟨h2, h3⟩
    · omega
    · omega

theorem restore_logged_area_use (P : Platform) (s live : malloc_area) (x : Nat)
    (hx : x < 8 * P.bitmap_required_size s.num_chunks) :
    (restore_logged_area P s live).use_bitmap x = s.use_bitmap x := by
  simp only [restore_logged_area]
  rw [write_read_bitmap, if_pos hx]

/-! ## `restore_incremental` on logs written by `log_incremental` and `log_full` -/

theorem bitmap_of_read (u : Nat → Bool) (n i : Nat) (hi : i < 8 * n) :
    bitmap_of_bits (read_bitmap u n) i = u i := by
  unfold bitmap_of_bits read_bitmap
  rw [List.getD_eq_getElem?_getD, List.getElem?_map, List.getElem?_range hi]
  simp

theorem bitmap_of_read_ge (u : Nat → Bool) (n i : Nat) (hi : ¬ i < 8 * n) :
    bitmap_of_bits (read_bitmap u n) i = false := by
  unfold bitmap_of_bits read_bitmap
  rw [List.getD_eq_getElem?_getD, List.getElem?_eq_none]
  · rfl
  · simp; omega

theorem bitmap_set_bits_of_read (u : Nat → Bool) (n : Nat) :
    bitmap_set_bits (bitmap_of_bits (read_bitmap u n)) n = bitmap_set_bits u n := by
  apply bitmap_set_bits_congr
  intro i hi
  exact bitmap_of_read u n i hi

theorem copied_if_cons (cs x : Nat) (xs : List Nat) (t : Nat → Bool) (src dst : Nat → Nat)
    (ht : t x = true) :
    copied_if cs xs (bitmap_reset t x) src
        (write_bytes dst (x * cs) (read_bytes src (x * cs) cs)) =
      copied_if cs (x :: xs) t src dst := by
  funext b
  rw [write_bytes_read_bytes]
  unfold copied_if
  simp only [List.any_cons, ht, Bool.true_and]
  by_cases h1 : x * cs ≤ b ∧ b < x * cs + cs
  · simp [h1]
  · have hany : (xs.any fun y => bitmap_reset t x y &&
          decide (y * cs ≤ b ∧ b < y * cs + cs)) =
        (xs.any fun y => t y && decide (y * cs ≤ b ∧ b < y * cs + cs)) := by
      apply congrArg (fun f => xs.any f)
      funext y
      by_cases hy : y = x
      · subst hy
        simp [h1]
      · simp [bitmap_reset, hy]
    simp only [hany, h1, decide_False, Bool.false_or, if_false]

theorem copied_if_cons_skip (cs x : Nat) (xs : List Nat) (t : Nat → Bool) (src dst : Nat → Nat)
    (ht : t x = false) :
    copied_if cs xs t src dst = copied_if cs (x :: xs) t src dst := by
  funext b
  unfold copied_if
  simp [List.any_cons, ht]

theorem reset_bits_cons (x : Nat) (xs : List Nat) (t : Nat → Bool) :
    reset_bits xs (bitmap_reset t x) = reset_bits (x :: xs) t := by
  funext y
  unfold reset_bits bitmap_reset
  by_cases hy : y = x
  · subst hy; simp
  · simp [hy]

theorem reset_bits_cons_skip (x : Nat) (xs : List Nat) (t : Nat → Bool) (ht : t x = false) :
    reset_bits xs t = reset_bits (x :: xs) t := by
  funext y
  unfold reset_bits
  by_cases hy : y = x
  · subst hy; simp [ht]
  · simp [hy]

theorem copy_to_area_check_already_spec (cs : Nat) (xs : List Nat) (src dst : Nat → Nat)
    (t : Nat → Bool) (ptr : Nat) (rest : List Item) :
    copy_to_area_check_already cs xs dst t ptr
        (xs.map (fun x => Item.bytes (read_bytes src (x * cs) cs)) ++ rest) =
      Except.ok (copied_if cs xs t src dst, reset_bits xs t, ptr + xs.length * cs, rest) := by
  induction xs generalizing dst t ptr with
  | nil =>
    simp only [copy_to_area_check_already, List.map_nil, List.nil_append, List.length_nil,
      Nat.zero_mul, Nat.add_zero]
    congr 2
  | cons x xs ih =>
    simp only [List.map_cons, List.cons_append, copy_to_area_check_already, read_bytes_length,
      ne_eq, not_true_eq_false, if_false, bitmap_check]
    by_cases ht : t x = true
    · rw [if_pos ht, ih, copied_if_cons cs x xs t src dst ht, reset_bits_cons]
      congr 4
      simp only [List.length_cons]
      ring
    · have ht2 : t x = false := by simpa using ht
      rw [if_neg ht, ih, ← copied_if_cons_skip cs x xs t src dst ht2,
        ← reset_bits_cons_skip x xs t ht2]
      congr 4
      simp only [List.length_cons]
      ring

theorem read_bytes_drop_take (src : Nat → Nat) (n k cs : Nat) (h : k + cs ≤ n) :
    ((read_bytes src 0 n).drop k).take cs = read_bytes src k cs := by
  apply List.ext_getElem
  · simp [read_bytes]
    omega
  · intro i h1 h2
    simp [read_bytes]

theorem copied_cons_reset (cs x : Nat) (xs : List Nat) (src dst : Nat → Nat) :
    copied cs xs src (write_bytes dst (x * cs) (read_bytes src (x * cs) cs)) =
      copied cs (x :: xs) src dst := copied_cons cs x xs src dst

theorem copy_to_area_log_mode_spec (cs nc : Nat) (xs : List Nat) (src dst : Nat → Nat)
    (t : Nat → Bool) (hx : ∀ x, x ∈ xs → x < nc) :
    copy_to_area_log_mode cs (read_bytes src 0 (nc * cs)) xs dst t =
      Except.ok (copied cs xs src dst, reset_bits xs t) := by
  induction xs generalizing dst t with
  | nil =>
    simp only [copy_to_area_log_mode]
    congr 2
  | cons x xs ih =>
    have hxn : x < nc := hx x (List.mem_cons_self x xs)
    have hb : x * cs + cs ≤ nc * cs := by
      have := Nat.mul_le_mul_right cs (Nat.succ_le_of_lt hxn)
      rw [Nat.succ_mul] at this
      exact this
    simp only [copy_to_area_log_mode, read_bytes_length]
    rw [if_pos hb, read_bytes_drop_take src _ _ _ hb,
      ih _ _ (fun y hy => hx y (List.mem_cons_of_mem x hy)), copied_cons, reset_bits_cons]

theorem restore_incremental_area_spec (P : Platform) (c : IncCursor) (a : malloc_area)
    (r : List Item) (hsc : a.state_changed ≠ 0) (hrest : c.rest = inc_area_items P a ++ r)
    (hidx : a.idx < c.m_state.max_num_areas) :
    restore_incremental_area P c =
      Except.ok { m_state := (apply_inc P (c.m_state, c.to_be_restored) a).1,
                  to_be_restored := (apply_inc P (c.m_state, c.to_be_restored) a).2,
                  ptr := c.ptr + items_size P (inc_area_items P a), rest := r } := by
  rw [inc_area_items_size, if_neg hsc]
  unfold restore_incremental_area
  rw [hrest]
  unfold inc_area_items
  rw [if_neg hsc]
  have hnidx : ¬ a.idx ≥ c.m_state.max_num_areas := by omega
  simp only [List.cons_append, hnidx, if_false, read_bitmap_length, ne_eq, not_true_eq_false]
  by_cases hd : a.dirty_chunks = 0
  · simp only [hd, if_true, List.nil_append]
    unfold apply_inc sight
    simp only [hd, if_true]
    cases ht : c.to_be_restored a.idx <;> simp [ht] <;> ring
  · simp only [hd, if_false, List.cons_append, read_bitmap_length, ne_eq, not_true_eq_false,
      bitmap_set_bits_of_read]
    rw [copy_to_area_check_already_spec]
    unfold apply_inc sight
    simp only [hd, if_false]
    cases ht : c.to_be_restored a.idx <;> simp [ht, popcount] <;> ring

theorem restore_incremental_full_area_spec (P : Platform) (c : IncCursor) (a : malloc_area)
    (r : List Item) (hac : a.alloc_chunks ≠ 0) (hrest : c.rest = full_area_items P a ++ r)
    (hidx : a.idx < c.m_state.max_num_areas)
    (hlm : a.log_mode = true → ∀ x,
      x ∈ bitmap_set_bits
        (sight P { a.tomalloc_area_hdr with state_changed := 0, dirty_chunks := 0 } a.use_bitmap
          (c.m_state, c.to_be_restored)).2 (P.bitmap_required_size a.num_chunks) →
      x < a.num_chunks) :
    restore_incremental_full_area P c =
      Except.ok { m_state := (apply_full P (c.m_state, c.to_be_restored) a).1,
                  to_be_restored := (apply_full P (c.m_state, c.to_be_restored) a).2,
                  ptr := c.ptr + items_size P (full_area_items P a), rest := r } := by
  rw [full_area_items_size, if_neg hac]
  unfold restore_incremental_full_area
  rw [hrest]
  unfold full_area_items
  rw [if_neg hac]
  have hnidx : ¬ a.idx ≥ c.m_state.max_num_areas := by omega
  simp only [List.cons_append, hnidx, if_false, read_bitmap_length, ne_eq, not_true_eq_false]
  by_cases hl : a.log_mode = true
  · have hx := hlm hl
    have hlen : a.num_chunks * P.untagged_chunk_size a.chunk_size =
        P.untagged_chunk_size a.chunk_size * a.num_chunks := Nat.mul_comm _ _
    simp only [hl, if_true, List.cons_append, List.nil_append, read_bytes_length, hlen, ne_eq,
      not_true_eq_false, if_false]
    unfold apply_full
    simp only [hl, if_true]
    unfold sight at hx ⊢
    cases ht : c.to_be_restored a.idx
    · simp only [ht] at hx ⊢
      rw [← hlen, copy_to_area_log_mode_spec _ _ _ _ _ _ hx]
      simp only [restore_logged_hdr, Nat.add_assoc]
    · simp only [ht] at hx ⊢
      rw [← hlen, copy_to_area_log_mode_spec _ _ _ _ _ _ hx]
      simp only [Nat.add_assoc]
  · have hl2 : a.log_mode = false := by simpa using hl
    simp only [hl2, Bool.false_eq_true, if_false, bitmap_set_bits_of_read]
    rw [copy_to_area_check_already_spec]
    unfold apply_full sight
    simp only [hl2, Bool.false_eq_true, if_false]
    cases ht : c.to_be_restored a.idx <;> simp [ht, popcount] <;> ring

theorem apply_inc_hdr (P : Platform) (st : RState) (a : malloc_area) :
    (apply_inc P st a).1.tomalloc_state_hdr = st.1.tomalloc_state_hdr := by
  unfold apply_inc
  simp only
  split_ifs <;> rfl

theorem apply_full_hdr (P : Platform) (st : RState) (a : malloc_area) :
    (apply_full P st a).1.tomalloc_state_hdr = st.1.tomalloc_state_hdr := by
  unfold apply_full
  simp only
  split_ifs <;> rfl

theorem foldl_apply_inc_hdr (P : Platform) (recs : List malloc_area) (st : RState) :
    (recs.foldl (apply_inc P) st).1.tomalloc_state_hdr = st.1.tomalloc_state_hdr := by
  induction recs generalizing st with
  | nil => rfl
  | cons a tl ih => rw [List.foldl_cons, ih, apply_inc_hdr]

theorem foldl_apply_full_hdr (P : Platform) (recs : List malloc_area) (st : RState) :
    (recs.foldl (apply_full P) st).1.tomalloc_state_hdr = st.1.tomalloc_state_hdr := by
  induction recs generalizing st with
  | nil => rfl
  | cons a tl ih => rw [List.foldl_cons, ih, apply_full_hdr]

theorem inc_area_items_pos (P : Platform) (a : malloc_area) (hsc : a.state_changed ≠ 0) :
    0 < items_size P (inc_area_items P a) := by
  rw [inc_area_items_size, if_neg hsc]
  have := P.sizeof_malloc_area_pos
  omega

theorem full_area_items_pos (P : Platform) (a : malloc_area) (hac : a.alloc_chunks ≠ 0) :
    0 < items_size P (full_area_items P a) := by
  rw [full_area_items_size, if_neg hac]
  have := P.sizeof_malloc_area_pos
  omega

theorem inc_loop_spec (P : Platform) (recs : List malloc_area) (n : Nat) (c : IncCursor)
    (log_size : Nat) (hrest : c.rest = recs.flatMap (inc_area_items P))
    (hsz : log_size = c.ptr + items_size P c.rest) (hn : recs.length ≤ n)
    (hrec : ∀ a, a ∈ recs → a.state_changed ≠ 0 ∧ a.idx < c.m_state.max_num_areas) :
    restore_incremental_loop (restore_incremental_area P) log_size n c =
      Except.ok
        { m_state := (recs.foldl (apply_inc P) (c.m_state, c.to_be_restored)).1,
          to_be_restored := (recs.foldl (apply_inc P) (c.m_state, c.to_be_restored)).2,
          ptr := log_size, rest := [] } := by
  induction recs generalizing n c with
  | nil =>
    simp only [List.flatMap_nil] at hrest
    rw [hrest, items_size_nil, Nat.add_zero] at hsz
    cases n with
    | zero =>
      rw [restore_incremental_loop, hsz, ← hrest]
      rfl
    | succ n =>
      rw [restore_incremental_loop, if_pos (by omega), hsz, ← hrest]
      rfl
  | cons a tl ih =>
    rw [List.flatMap_cons] at hrest
    obtain ⟨hsc, hidx⟩ := hrec a (List.mem_cons_self a tl)
    cases n with
    | zero => simp at hn
    | succ n =>
      have hlt : ¬ c.ptr ≥ log_size := by
        rw [hsz, hrest, items_size_append]
        have := inc_area_items_pos P a hsc
        omega
      rw [restore_incremental_loop, if_neg hlt,
        restore_incremental_area_spec P c a _ hsc hrest hidx]
      simp only
      rw [ih]
      · rfl
      · rfl
      · rw [hsz, hrest, items_size_append]
        ring
      · simpa using hn
      · intro b hb
        obtain ⟨h1, h2⟩ := hrec b (List.mem_cons_of_mem a hb)
        refine ⟨h1, ?_⟩
        have := apply_inc_hdr P (c.m_state, c.to_be_restored) a
        show b.idx < (apply_inc P (c.m_state, c.to_be_restored) a).1.tomalloc_state_hdr.max_num_areas
        rw [this]
        exact h2

theorem sight_in_range (P : Platform) (nc : Nat → Nat) (maxn : Nat) (st : RState)
    (a : malloc_area) (h : malloc_area_hdr) (hidx : h.idx = a.idx)
    (hnc : h.num_chunks = a.num_chunks) (hinv : tbr_in_range nc st.2)
    (hrec : rec_ok P nc maxn a) (x : Nat) (hx : (sight P h a.use_bitmap st).2 x = true) :
    x < nc a.idx := by
  unfold sight at hx
  cases ht : st.2 h.idx with
  | none =>
    rw [ht] at hx
    simp only at hx
    rw [hnc] at hx
    by_cases hlt : x < 8 * P.bitmap_required_size a.num_chunks
    · rw [bitmap_of_read _ _ _ hlt] at hx
      rw [← hrec.2.1]
      exact hrec.2.2 x hlt hx
    · rw [bitmap_of_read_ge _ _ _ hlt] at hx
      exact absurd hx (by simp)
  | some t =>
    rw [ht] at hx
    simp only at hx
    rw [← hidx]
    exact hinv h.idx t ht x hx

theorem reset_bits_le (xs : List Nat) (t : Nat → Bool) (x : Nat)
    (h : reset_bits xs t x = true) : t x = true := by
  unfold reset_bits at h
  by_cases hx : x ∈ xs
  · simp [hx] at h
  · simpa [hx] using h

theorem tbr_in_range_update (nc : Nat → Nat) (tbr : Nat → Option (Nat → Bool)) (i : Nat)
    (t : Nat → Bool) (hinv : tbr_in_range nc tbr) (ht : ∀ x, t x = true → x < nc i) :
    tbr_in_range nc (Function.update tbr i (some t)) := by
  intro j u hu x hx
  by_cases hj : j = i
  · subst hj
    rw [Function.update_same] at hu
    have : t = u := Option.some.inj hu
    subst this
    exact ht x hx
  · rw [Function.update_noteq hj] at hu
    exact hinv j u hu x hx

theorem apply_inc_in_range (P : Platform) (nc : Nat → Nat) (maxn : Nat) (st : RState)
    (a : malloc_area) (hinv : tbr_in_range nc st.2) (hrec : rec_ok P nc maxn a) :
    tbr_in_range nc (apply_inc P st a).2 := by
  have hs := sight_in_range P nc maxn st a a.tomalloc_area_hdr rfl rfl hinv hrec
  unfold apply_inc
  simp only
  split_ifs
  · exact tbr_in_range_update nc _ _ _ hinv hs
  · exact tbr_in_range_update nc _ _ _ hinv (fun x hx => hs x (reset_bits_le _ _ x hx))

theorem apply_full_in_range (P : Platform) (nc : Nat → Nat) (maxn : Nat) (st : RState)
    (a : malloc_area) (hinv : tbr_in_range nc st.2) (hrec : rec_ok P nc maxn a) :
    tbr_in_range nc (apply_full P st a).2 := by
  have hs := sight_in_range P nc maxn st a
    { a.tomalloc_area_hdr with state_changed := 0, dirty_chunks := 0 } rfl rfl hinv hrec
  unfold apply_full
  simp only
  split_ifs
  · exact tbr_in_range_update nc _ _ _ hinv (fun x hx => hs x (reset_bits_le _ _ x hx))
  · exact tbr_in_range_update nc _ _ _ hinv (fun x hx => hs x (reset_bits_le _ _ x hx))

theorem foldl_apply_inc_in_range (P : Platform) (nc : Nat → Nat) (maxn : Nat)
    (recs : List malloc_area) (st : RState) (hinv : tbr_in_range nc st.2)
    (hrec : ∀ a, a ∈ recs → rec_ok P nc maxn a) :
    tbr_in_range nc (recs.foldl (apply_inc P) st).2 := by
  induction recs generalizing st with
  | nil => exact hinv
  | cons a tl ih =>
    rw [List.foldl_cons]
    exact ih _ (apply_inc_in_range P nc maxn st a hinv (hrec a (List.mem_cons_self a tl)))
      (fun b hb => hrec b (List.mem_cons_of_mem a hb))

theorem full_loop_spec (P : Platform) (nc : Nat → Nat) (recs : List malloc_area) (n : Nat)
    (c : IncCursor) (log_size : Nat) (hrest : c.rest = recs.flatMap (full_area_items P))
    (hsz : log_size = c.ptr + items_size P c.rest) (hn : recs.length ≤ n)
    (hrec : ∀ a, a ∈ recs → a.alloc_chunks ≠ 0 ∧ rec_ok P nc c.m_state.max_num_areas a)
    (hinv : tbr_in_range nc c.to_be_restored) :
    restore_incremental_loop (restore_incremental_full_area P) log_size n c =
      Except.ok
        { m_state := (recs.foldl (apply_full P) (c.m_state, c.to_be_restored)).1,
          to_be_restored := (recs.foldl (apply_full P) (c.m_state, c.to_be_restored)).2,
          ptr := log_size, rest := [] } := by
  induction recs generalizing n c with
  | nil =>
    simp only [List.flatMap_nil] at hrest
    rw [hrest, items_size_nil, Nat.add_zero] at hsz
    cases n with
    | zero =>
      rw [restore_incremental_loop, hsz, ← hrest]
      rfl
    | succ n =>
      rw [restore_incremental_loop, if_pos (by omega), hsz, ← hrest]
      rfl
  | cons a tl ih =>
    rw [List.flatMap_cons] at hrest
    obtain ⟨hac, hok⟩ := hrec a (List.mem_cons_self a tl)
    cases n with
    | zero => simp at hn
    | succ n =>
      have hlt : ¬ c.ptr ≥ log_size := by
        rw [hsz, hrest, items_size_append]
        have := full_area_items_pos P a hac
        omega
      have hlm : a.log_mode = true → ∀ x,
          x ∈ bitmap_set_bits
            (sight P { a.tomalloc_area_hdr with state_changed := 0, dirty_chunks := 0 }
              a.use_bitmap (c.m_state, c.to_be_restored)).2
            (P.bitmap_required_size a.num_chunks) →
          x < a.num_chunks := by
        intro _ x hx
        rw [hok.2.1]
        exact sight_in_range P nc _ (c.m_state, c.to_be_restored) a _ rfl rfl hinv hok x
          ((mem_bitmap_set_bits _ _ x).1 hx).2
      rw [restore_incremental_loop, if_neg hlt,
        restore_incremental_full_area_spec P c a _ hac hrest hok.1 hlm]
      simp only
      rw [ih]
      · rfl
      · rfl
      · rw [hsz, hrest, items_size_append]
        ring
      · simpa using hn
      · intro b hb
        obtain ⟨h1, h2⟩ := hrec b (List.mem_cons_of_mem a hb)
        refine ⟨h1, ?_⟩
        have := apply_full_hdr P (c.m_state, c.to_be_restored) a
        show rec_ok P nc
          (apply_full P (c.m_state, c.to_be_restored) a).1.tomalloc_state_hdr.max_num_areas b
        rw [this]
        exact h2
      · exact apply_full_in_range P nc _ (c.m_state, c.to_be_restored) a hinv hok

theorem restore_incremental_log_spec (P : Platform) (nc : Nat → Nat) (ckpt : Ckpt)
    (recs : List malloc_area) (m : malloc_state) (tbr : Nat → Option (Nat → Bool))
    (hlog : is_inc_log P ckpt recs) (hfit : recs_fit P nc m.tomalloc_state_hdr recs) :
    restore_incremental_log P ckpt m tbr = Except.ok (recs.foldl (apply_inc P) (m, tbr)) := by
  obtain ⟨_, hitems, hsize, hsc⟩ := hlog
  unfold restore_incremental_log
  simp only
  rw [inc_loop_spec P recs m.num_areas _ _ hitems]
  · simp
  · rw [hsize, hitems]
  · exact hfit.1
  · intro a ha
    exact ⟨hsc a ha, (hfit.2 a ha).1⟩

theorem restore_incremental_full_spec (P : Platform) (nc : Nat → Nat) (ckpt : Ckpt)
    (recs : List malloc_area) (m : malloc_state) (tbr : Nat → Option (Nat → Bool))
    (hlog : is_full_log P ckpt recs) (hfit : recs_fit P nc m.tomalloc_state_hdr recs)
    (hinv : tbr_in_range nc tbr) :
    restore_incremental_full P ckpt m tbr = Except.ok (recs.foldl (apply_full P) (m, tbr)) := by
  obtain ⟨_, hitems, hsize, hac⟩ := hlog
  unfold restore_incremental_full
  simp only
  rw [full_loop_spec P nc recs m.num_areas _ _ hitems]
  · simp
  · rw [hsize, hitems]
  · exact hfit.1
  · intro a ha
    exact ⟨hac a ha, hfit.2 a ha⟩
  · exact hinv

theorem restore_incremental_chain_spec (P : Platform) (nc : Nat → Nat)
    (incs : List (Ckpt × List malloc_area)) (full : Ckpt) (frecs : List malloc_area)
    (older : List Ckpt) (m : malloc_state) (tbr : Nat → Option (Nat → Bool))
    (hincs : ∀ p, p ∈ incs → is_inc_log P p.1 p.2 ∧ recs_fit P nc m.tomalloc_state_hdr p.2)
    (hfull : is_full_log P full frecs) (hfit : recs_fit P nc m.tomalloc_state_hdr frecs)
    (hinv : tbr_in_range nc tbr) (log : Ckpt) (prevs : List Ckpt)
    (hchain : log :: prevs = incs.map Prod.fst ++ full :: older) :
    restore_incremental_chain P log prevs m tbr =
      Except.ok (chain_fold P (incs.map Prod.snd) frecs (m, tbr)) := by
  induction incs generalizing m tbr log prevs with
  | nil =>
    simp only [List.map_nil, List.nil_append, List.cons.injEq] at hchain
    obtain ⟨h1, h2⟩ := hchain
    subst h1
    unfold restore_incremental_chain
    rw [if_neg (by rw [hfull.1]; simp)]
    rw [restore_incremental_full_spec P nc log frecs m tbr hfull hfit hinv]
    rfl
  | cons p tl ih =>
    simp only [List.map_cons, List.cons_append, List.cons.injEq] at hchain
    obtain ⟨h1, h2⟩ := hchain
    subst h1
    obtain ⟨hlog, hpfit⟩ := hincs p (List.mem_cons_self p tl)
    unfold restore_incremental_chain
    rw [if_pos hlog.1, restore_incremental_log_spec P nc p.1 p.2 m tbr hlog hpfit]
    simp only
    have hhdr := foldl_apply_inc_hdr P p.2 (m, tbr)
    cases hpv : List.map Prod.fst tl ++ full :: older with
    | nil => simp at hpv
    | cons q qs =>
      rw [hpv] at h2
      subst h2
      simp only
      rw [ih (List.foldl (apply_inc P) (m, tbr) p.2).1 (List.foldl (apply_inc P) (m, tbr) p.2).2
        _ _ _ q qs hpv.symm]
      · simp [chain_fold, List.foldl_append]
      · intro r hr
        rw [hhdr]
        exact hincs r (List.mem_cons_of_mem p hr)
      · rw [hhdr]
        exact hfit
      · exact foldl_apply_inc_in_range P nc m.max_num_areas p.2 (m, tbr) hinv hpfit.2

/-! ## The walk of `restore_incremental` seen from one area slot -/

theorem apply_inc_eq (P : Platform) (st : RState) (a : malloc_area) :
    apply_inc P st a =
      (set_area st.1 a.idx (step_inc P (slot st a.idx) a).1,
       Function.update st.2 a.idx (step_inc P (slot st a.idx) a).2) := by
  unfold apply_inc step_inc sight sight_area slot
  cases ht : st.2 a.idx <;> simp only [ht] <;> split_ifs <;> rfl

theorem apply_full_eq (P : Platform) (st : RState) (a : malloc_area) :
    apply_full P st a =
      (set_area st.1 a.idx (step_full P (slot st a.idx) a).1,
       Function.update st.2 a.idx (step_full P (slot st a.idx) a).2) := by
  unfold apply_full step_full sight sight_area slot
  cases ht : st.2 a.idx <;> simp only [ht] <;> split_ifs <;> rfl

theorem apply_rec_eq (P : Platform) (st : RState) (r : Rec) :
    apply_rec P st r =
      (set_area st.1 r.2.idx (step_rec P (slot st r.2.idx) r).1,
       Function.update st.2 r.2.idx (step_rec P (slot st r.2.idx) r).2) := by
  unfold apply_rec step_rec
  split_ifs
  · exact apply_full_eq P st r.2
  · exact apply_inc_eq P st r.2

theorem slot_apply_rec_same (P : Platform) (st : RState) (r : Rec) :
    slot (apply_rec P st r) r.2.idx = step_rec P (slot st r.2.idx) r := by
  rw [apply_rec_eq]
  simp [slot, set_area]

theorem slot_apply_rec_other (P : Platform) (st : RState) (r : Rec) (i : Nat)
    (h : r.2.idx ≠ i) : slot (apply_rec P st r) i = slot st i := by
  rw [apply_rec_eq]
  simp only [slot, set_area]
  rw [Function.update_noteq (Ne.symm h), Function.update_noteq (Ne.symm h)]

theorem slot_foldl (P : Platform) (l : List Rec) (st : RState) (i : Nat) :
    slot (l.foldl (apply_rec P) st) i =
      (l.filter (fun r => decide (r.2.idx = i))).foldl (step_rec P) (slot st i) := by
  induction l generalizing st with
  | nil => rfl
  | cons r tl ih =>
    rw [List.foldl_cons, ih]
    by_cases h : r.2.idx = i
    · rw [List.filter_cons_of_pos (by simpa using h), List.foldl_cons]
      subst h
      rw [slot_apply_rec_same]
    · rw [List.filter_cons_of_neg (by simpa using h), slot_apply_rec_other P st r i h]

theorem chain_fold_eq (P : Platform) (incs : List (List malloc_area)) (full : List malloc_area)
    (st : RState) :
    chain_fold P incs full st = (chain_recs incs full).foldl (apply_rec P) st := by
  unfold chain_fold chain_recs
  rw [List.foldl_append, List.foldl_map, List.foldl_map]
  rfl

theorem chunk_range_unique (cs x c b : Nat) (h1 : x * cs ≤ b) (h2 : b < x * cs + cs)
    (h3 : c * cs ≤ b) (h4 : b < c * cs + cs) : x = c := by
  by_contra hne
  rcases Nat.lt_or_gt_of_ne hne with h | h
  · have := Nat.mul_le_mul_right cs (Nat.succ_le_of_lt h)
    rw [Nat.succ_mul] at this
    omega
  · have := Nat.mul_le_mul_right cs (Nat.succ_le_of_lt h)
    rw [Nat.succ_mul] at this
    omega

theorem copied_if_range (cs : Nat) (xs : List Nat) (t : Nat → Bool) (src dst : Nat → Nat)
    (c b : Nat) (h3 : c * cs ≤ b) (h4 : b < c * cs + cs) :
    copied_if cs xs t src dst b = if c ∈ xs ∧ t c = true then src b else dst b := by
  unfold copied_if
  by_cases h : c ∈ xs ∧ t c = true
  · rw [if_pos h, if_pos]
    rw [List.any_eq_true]
    exact ⟨c, h.1, by simp [h.2, h3, h4]⟩
  · rw [if_neg h, if_neg]
    rw [List.any_eq_true]
    rintro ⟨x, hx, hd⟩
    simp only [Bool.and_eq_true, decide_eq_true_eq] at hd
    have hxc := chunk_range_unique cs x c b hd.2.1 hd.2.2 h3 h4
    subst hxc
    exact h ⟨hx, hd.1⟩

theorem copied_range (cs : Nat) (xs : List Nat) (src dst : Nat → Nat)
    (c b : Nat) (h3 : c * cs ≤ b) (h4 : b < c * cs + cs) :
    copied cs xs src dst b = if c ∈ xs then src b else dst b := by
  unfold copied
  by_cases h : c ∈ xs
  · rw [if_pos h, if_pos]
    rw [List.any_eq_true]
    exact ⟨c, h, by simp [h3, h4]⟩
  · rw [if_neg h, if_neg]
    rw [List.any_eq_true]
    rintro ⟨x, hx, hd⟩
    simp only [decide_eq_true_eq] at hd
    have hxc := chunk_range_unique cs x c b hd.1 hd.2 h3 h4
    subst hxc
    exact h hx

theorem sight_area_bit (P : Platform) (x : AState) (r : Rec) (c : Nat) :
    (sight_area P (rec_hdr r) r.2.use_bitmap x).2 c = pending P x r c := by
  have hnc : (rec_hdr r).num_chunks = r.2.num_chunks := by
    unfold rec_hdr; split_ifs <;> rfl
  unfold sight_area pending
  cases ht : x.2 with
  | none =>
    simp only [hnc, use_bit]
    by_cases hlt : c < 8 * P.bitmap_required_size r.2.num_chunks
    · rw [bitmap_of_read _ _ _ hlt]
      simp [hlt]
    · rw [bitmap_of_read_ge _ _ _ hlt]
      simp [hlt]
  | some t => rfl

theorem sight_area_bytes (P : Platform) (x : AState) (h : malloc_area_hdr) (u : Nat → Bool) :
    (sight_area P h u x).1.area = x.1.area := by
  unfold sight_area
  cases x.2 <;> rfl

theorem step_rec_sight (P : Platform) (x : AState) (r : Rec) :
    step_rec P x r =
      (if r.1 then
        (if r.2.log_mode then
          ({ (sight_area P (rec_hdr r) r.2.use_bitmap x).1 with
              area := copied (P.untagged_chunk_size r.2.chunk_size)
                (bitmap_set_bits (sight_area P (rec_hdr r) r.2.use_bitmap x).2
                  (P.bitmap_required_size r.2.num_chunks)) r.2.area
                (sight_area P (rec_hdr r) r.2.use_bitmap x).1.area },
            some (reset_bits (bitmap_set_bits (sight_area P (rec_hdr r) r.2.use_bitmap x).2
              (P.bitmap_required_size r.2.num_chunks))
              (sight_area P (rec_hdr r) r.2.use_bitmap x).2))
         else
          ({ (sight_area P (rec_hdr r) r.2.use_bitmap x).1 with
              area := copied_if (P.untagged_chunk_size r.2.chunk_size)
                (bitmap_set_bits r.2.use_bitmap (P.bitmap_required_size r.2.num_chunks))
                (sight_area P (rec_hdr r) r.2.use_bitmap x).2 r.2.area
                (sight_area P (rec_hdr r) r.2.use_bitmap x).1.area },
            some (reset_bits
              (bitmap_set_bits r.2.use_bitmap (P.bitmap_required_size r.2.num_chunks))
              (sight_area P (rec_hdr r) r.2.use_bitmap x).2)))
       else
        (if r.2.dirty_chunks = 0 then
          ((sight_area P (rec_hdr r) r.2.use_bitmap x).1,
            some (sight_area P (rec_hdr r) r.2.use_bitmap x).2)
         else
          ({ (sight_area P (rec_hdr r) r.2.use_bitmap x).1 with
              area := copied_if (P.untagged_chunk_size r.2.chunk_size)
                (bitmap_set_bits r.2.dirty_bitmap (P.bitmap_required_size r.2.num_chunks))
                (sight_area P (rec_hdr r) r.2.use_bitmap x).2 r.2.area
                (sight_area P (rec_hdr r) r.2.use_bitmap x).1.area },
            some (reset_bits
              (bitmap_set_bits r.2.dirty_bitmap (P.bitmap_required_size r.2.num_chunks))
              (sight_area P (rec_hdr r) r.2.use_bitmap x).2)))) := by
  unfold step_rec step_full step_inc rec_hdr
  split_ifs <;> rfl

theorem step_rec_bit (P : Platform) (x : AState) (r : Rec) (c : Nat) :
    ∃ t, (step_rec P x r).2 = some t ∧
      t c = (pending P x r c && !decide (offers P r c)) := by
  rw [step_rec_sight]
  have hbit := sight_area_bit P x r c
  by_cases hf : r.1 = true
  · by_cases hl : r.2.log_mode = true
    · simp only [hf, hl, if_true]
      refine ⟨_, rfl, ?_⟩
      simp only [reset_bits, mem_bitmap_set_bits, hbit, offers, hf, hl, if_true, true_or,
        and_true]
      by_cases hlt : c < 8 * P.bitmap_required_size r.2.num_chunks
      · by_cases hp : pending P x r c = true <;> simp [hlt, hp]
      · simp [hlt]
    · have hl2 : r.2.log_mode = false := by simpa using hl
      simp only [hf, hl2, if_true, Bool.false_eq_true, if_false]
      refine ⟨_, rfl, ?_⟩
      simp only [reset_bits, mem_bitmap_set_bits, hbit, offers, hf, hl2, if_true,
        Bool.false_eq_true, false_or]
      by_cases ho : c < 8 * P.bitmap_required_size r.2.num_chunks ∧ r.2.use_bitmap c = true
      · simp [ho]
      · simp [ho]
  · have hf2 : r.1 = false := by simpa using hf
    by_cases hd : r.2.dirty_chunks = 0
    · simp only [hf2, Bool.false_eq_true, if_false, hd, if_true]
      refine ⟨_, rfl, ?_⟩
      simp [hbit, offers, hf2, hd]
    · simp only [hf2, Bool.false_eq_true, if_false, hd]
      refine ⟨_, rfl, ?_⟩
      simp only [reset_bits, mem_bitmap_set_bits, hbit, offers, hf2, Bool.false_eq_true,
        if_false, ne_eq, hd, not_false_eq_true, true_and]
      by_cases ho : c < 8 * P.bitmap_required_size r.2.num_chunks ∧ r.2.dirty_bitmap c = true
      · simp [ho]
      · simp [ho]

theorem step_rec_bytes (P : Platform) (x : AState) (r : Rec) (c b : Nat)
    (h3 : c * P.untagged_chunk_size r.2.chunk_size ≤ b)
    (h4 : b < c * P.untagged_chunk_size r.2.chunk_size + P.untagged_chunk_size r.2.chunk_size) :
    (step_rec P x r).1.area b =
      if pending P x r c = true ∧ offers P r c then r.2.area b else x.1.area b := by
  rw [step_rec_sight]
  have hbit := sight_area_bit P x r c
  have hbytes := sight_area_bytes P x (rec_hdr r) r.2.use_bitmap
  by_cases hf : r.1 = true
  · by_cases hl : r.2.log_mode = true
    · simp only [hf, hl, if_true]
      rw [copied_range _ _ _ _ c b h3 h4, hbytes]
      simp only [mem_bitmap_set_bits, hbit, offers, hf, hl, if_true, true_or, and_true]
      by_cases hlt : c < 8 * P.bitmap_required_size r.2.num_chunks
      · by_cases hp : pending P x r c = true <;> simp [hlt, hp]
      · simp [hlt]
    · have hl2 : r.2.log_mode = false := by simpa using hl
      simp only [hf, hl2, if_true, Bool.false_eq_true, if_false]
      rw [copied_if_range _ _ _ _ _ c b h3 h4, hbytes]
      simp only [mem_bitmap_set_bits, hbit, offers, hf, hl2, if_true, Bool.false_eq_true,
        false_or]
      by_cases ho : c < 8 * P.bitmap_required_size r.2.num_chunks ∧ r.2.use_bitmap c = true
      · by_cases hp : pending P x r c = true <;> simp [ho, hp]
      · by_cases hp : pending P x r c = true <;> simp [ho, hp]
  · have hf2 : r.1 = false := by simpa using hf
    by_cases hd : r.2.dirty_chunks = 0
    · simp only [hf2, Bool.false_eq_true, if_false, hd, if_true]
      rw [hbytes]
      simp [offers, hf2, hd]
    · simp only [hf2, Bool.false_eq_true, if_false, hd]
      rw [copied_if_range _ _ _ _ _ c b h3 h4, hbytes]
      simp only [mem_bitmap_set_bits, hbit, offers, hf2, Bool.false_eq_true, if_false, ne_eq,
        hd, not_false_eq_true, true_and]
      by_cases ho : c < 8 * P.bitmap_required_size r.2.num_chunks ∧ r.2.dirty_bitmap c = true
      · by_cases hp : pending P x r c = true <;> simp [ho, hp]
      · by_cases hp : pending P x r c = true <;> simp [ho, hp]

theorem step_rec_fst (P : Platform) (x : AState) (r : Rec) :
    ∃ ar, (step_rec P x r).1 =
      { (sight_area P (rec_hdr r) r.2.use_bitmap x).1 with area := ar } := by
  rw [step_rec_sight]
  split_ifs
  · exact ⟨_, rfl⟩
  · exact ⟨_, rfl⟩
  · exact ⟨(sight_area P (rec_hdr r) r.2.use_bitmap x).1.area, rfl⟩
  · exact ⟨_, rfl⟩

theorem step_rec_some (P : Platform) (x : AState) (r : Rec) (t : Nat → Bool)
    (hx : x.2 = some t) :
    (step_rec P x r).1.tomalloc_area_hdr = x.1.tomalloc_area_hdr ∧
    (step_rec P x r).1.use_bitmap = x.1.use_bitmap ∧
    (step_rec P x r).1.dirty_bitmap = x.1.dirty_bitmap := by
  obtain ⟨ar, har⟩ := step_rec_fst P x r
  have hs : (sight_area P (rec_hdr r) r.2.use_bitmap x).1 = x.1 := by
    unfold sight_area
    rw [hx]
  rw [har, hs]
  exact ⟨rfl, rfl, rfl⟩

theorem step_rec_none (P : Platform) (x : AState) (r : Rec) (hx : x.2 = none) :
    (step_rec P x r).1.tomalloc_area_hdr =
      { r.2.tomalloc_area_hdr with state_changed := 0, dirty_chunks := 0 } ∧
    (step_rec P x r).1.use_bitmap =
      write_bitmap x.1.use_bitmap
        (read_bitmap r.2.use_bitmap (P.bitmap_required_size r.2.num_chunks)) ∧
    (step_rec P x r).1.dirty_bitmap =
      bitmap_memset0 x.1.dirty_bitmap (P.bitmap_required_size r.2.num_chunks) := by
  obtain ⟨ar, har⟩ := step_rec_fst P x r
  have hs : (sight_area P (rec_hdr r) r.2.use_bitmap x).1 =
      restore_logged_hdr x.1 (rec_hdr r)
        (read_bitmap r.2.use_bitmap (P.bitmap_required_size (rec_hdr r).num_chunks))
        (P.bitmap_required_size (rec_hdr r).num_chunks) := by
    unfold sight_area
    rw [hx]
  have hnc : (rec_hdr r).num_chunks = r.2.num_chunks := by
    unfold rec_hdr; split_ifs <;> rfl
  have hh : ({ rec_hdr r with state_changed := 0, dirty_chunks := 0 } : malloc_area_hdr) =
      { r.2.tomalloc_area_hdr with state_changed := 0, dirty_chunks := 0 } := by
    unfold rec_hdr; split_ifs <;> rfl
  rw [har, hs, hnc]
  exact ⟨hh, rfl, rfl⟩

theorem step_rec_is_some (P : Platform) (x : AState) (r : Rec) :
    ∃ t, (step_rec P x r).2 = some t := by
  obtain ⟨t, ht, _⟩ := step_rec_bit P x r 0
  exact ⟨t, ht⟩

theorem foldl_step_some (P : Platform) (l : List Rec) (x : AState) (t : Nat → Bool)
    (hx : x.2 = some t) :
    (l.foldl (step_rec P) x).1.tomalloc_area_hdr = x.1.tomalloc_area_hdr ∧
    (l.foldl (step_rec P) x).1.use_bitmap = x.1.use_bitmap ∧
    (l.foldl (step_rec P) x).1.dirty_bitmap = x.1.dirty_bitmap ∧
    ∃ u, (l.foldl (step_rec P) x).2 = some u := by
  induction l generalizing x t with
  | nil => exact ⟨rfl, rfl, rfl, t, hx⟩
  | cons r tl ih =>
    rw [List.foldl_cons]
    obtain ⟨u, hu⟩ := step_rec_is_some P x r
    obtain ⟨h1, h2, h3, h4⟩ := ih (step_rec P x r) u hu
    obtain ⟨e1, e2, e3⟩ := step_rec_some P x r t hx
    exact ⟨h1.trans e1, h2.trans e2, h3.trans e3, h4⟩

theorem foldl_step_first (P : Platform) (r : Rec) (tl : List Rec) (x : AState)
    (hx : x.2 = none) :
    ((r :: tl).foldl (step_rec P) x).1.tomalloc_area_hdr =
      { r.2.tomalloc_area_hdr with state_changed := 0, dirty_chunks := 0 } ∧
    ((r :: tl).foldl (step_rec P) x).1.use_bitmap =
      write_bitmap x.1.use_bitmap
        (read_bitmap r.2.use_bitmap (P.bitmap_required_size r.2.num_chunks)) ∧
    ((r :: tl).foldl (step_rec P) x).1.dirty_bitmap =
      bitmap_memset0 x.1.dirty_bitmap (P.bitmap_required_size r.2.num_chunks) := by
  rw [List.foldl_cons]
  obtain ⟨u, hu⟩ := step_rec_is_some P x r
  obtain ⟨h1, h2, h3, _⟩ := foldl_step_some P tl (step_rec P x r) u hu
  obtain ⟨e1, e2, e3⟩ := step_rec_none P x r hx
  exact ⟨h1.trans e1, h2.trans e2, h3.trans e3⟩

theorem foldl_step_pending (P : Platform) (pre : List Rec) (r : Rec) (x : AState) (c : Nat)
    (hno : none_offers P pre c) :
    pending P (pre.foldl (step_rec P) x) r c =
      pending P x ((pre ++ [r]).head (by simp)) c := by
  induction pre generalizing x with
  | nil => rfl
  | cons p tl ih =>
    rw [List.foldl_cons, ih (step_rec P x p) (fun q hq => hno q (List.mem_cons_of_mem p hq))]
    obtain ⟨t, ht, hbit⟩ := step_rec_bit P x p c
    have hnp : ¬ offers P p c := hno p (List.mem_cons_self p tl)
    simp only [List.cons_append, List.head_cons]
    unfold pending at hbit ⊢
    rw [ht]
    simp only
    rw [hbit]
    simp [hnp]

theorem foldl_step_done (P : Platform) (post : List Rec) (x : AState) (c cs : Nat)
    (t : Nat → Bool) (hx : x.2 = some t) (ht : t c = false) (hcs : chunks_of P post cs)
    (b : Nat) (h3 : c * cs ≤ b) (h4 : b < c * cs + cs) :
    (post.foldl (step_rec P) x).1.area b = x.1.area b := by
  induction post generalizing x t with
  | nil => rfl
  | cons r tl ih =>
    rw [List.foldl_cons]
    have hr := hcs r (List.mem_cons_self r tl)
    obtain ⟨u, hu, hbit⟩ := step_rec_bit P x r c
    have hp : pending P x r c = false := by
      unfold pending
      rw [hx]
      exact ht
    rw [ih (step_rec P x r) u hu (by rw [hbit, hp]; rfl)
      (fun q hq => hcs q (List.mem_cons_of_mem r hq)),
      step_rec_bytes P x r c b (by rw [hr]; exact h3) (by rw [hr]; exact h4)]
    simp [hp]

theorem foldl_step_newest (P : Platform) (pre post : List Rec) (r : Rec) (x : AState)
    (c cs : Nat) (hcs : chunks_of P (pre ++ r :: post) cs) (hno : none_offers P pre c)
    (hoff : offers P r c)
    (hpend : pending P x ((pre ++ [r]).head (by simp)) c = true)
    (b : Nat) (h3 : c * cs ≤ b) (h4 : b < c * cs + cs) :
    ((pre ++ r :: post).foldl (step_rec P) x).1.area b = r.2.area b := by
  rw [List.foldl_append, List.foldl_cons]
  have hr : P.untagged_chunk_size r.2.chunk_size = cs := hcs r (by simp)
  have hp := foldl_step_pending P pre r x c hno
  rw [hpend] at hp
  obtain ⟨u, hu, hbit⟩ := step_rec_bit P (pre.foldl (step_rec P) x) r c
  rw [foldl_step_done P post _ c cs u hu (by rw [hbit, hp]; simp [hoff])
    (fun q hq => hcs q (by simp [hq])) b h3 h4,
    step_rec_bytes P _ r c b (by rw [hr]; exact h3) (by rw [hr]; exact h4)]
  simp [hp, hoff]

theorem set_area_bytes (m : malloc_state) (i j : Nat) (a : malloc_area)
    (h : a.area = (m.areas i).area) : ((set_area m i a).areas j).area = (m.areas j).area := by
  simp only [set_area]
  by_cases hj : j = i
  · subst hj
    rw [Function.update_same, h]
  · rw [Function.update_noteq hj]

theorem reset_trailing_area_bytes (P : Platform) (m : malloc_state) (i j : Nat) :
    ((reset_trailing_area P m i).areas j).area = (m.areas j).area := by
  unfold reset_trailing_area
  simp only
  refine Eq.trans (set_area_bytes _ i j _ ?_)
    (Eq.trans (set_area_bytes _ _ j _ ?_) (set_area_bytes m i j _ ?_))
  · split_ifs <;> rfl
  · rfl
  · rfl

theorem foldl_reset_trailing_bytes (P : Platform) (l : List Nat) (m : malloc_state) (j : Nat) :
    ((l.foldl (reset_trailing_area P) m).areas j).area = (m.areas j).area := by
  induction l generalizing m with
  | nil => rfl
  | cons i tl ih => rw [List.foldl_cons, ih, reset_trailing_area_bytes]

theorem reset_trailing_bytes (P : Platform) (orig : Nat) (m : malloc_state) (j : Nat) :
    ((reset_trailing P orig m).areas j).area = (m.areas j).area := by
  unfold reset_trailing
  split_ifs
  · exact foldl_reset_trailing_bytes P _ m j
  · rfl

theorem restore_incremental_spec (P : Platform) (nc : Nat → Nat) (lp : lp_struct)
    (incs : List (Ckpt × List malloc_area)) (full : Ckpt) (frecs : List malloc_area)
    (older : List Ckpt) (node : Ckpt) (prevs : List Ckpt)
    (hchain : node :: prevs = incs.map Prod.fst ++ full :: older)
    (hincs : ∀ p, p ∈ incs → is_inc_log P p.1 p.2 ∧ recs_fit P nc node.state p.2)
    (hfull : is_full_log P full frecs) (hfit : recs_fit P nc node.state frecs) :
    restore_incremental P lp node prevs =
      Except.ok { lp with
        m_state := restored_inc P lp node.state (incs.map Prod.snd) frecs } := by
  unfold restore_incremental
  simp only
  rw [restore_incremental_chain_spec P nc incs full frecs older _ _ hincs hfull hfit
    (fun _ _ h => by simp at h) node prevs hchain]
  rfl

theorem restored_inc_bytes (P : Platform) (lp : lp_struct)
    (incs : List (List malloc_area)) (frecs : List malloc_area) (h : malloc_state_hdr)
    (i : Nat) :
    ((restored_inc P lp h incs frecs).areas i).area =
      (((chain_recs incs frecs).filter (fun r => decide (r.2.idx = i))).foldl (step_rec P)
        (lp.m_state.areas i, none)).1.area := by
  unfold restored_inc
  have h1 : ∀ m : malloc_state, ((finish_restore P m).areas i).area = (m.areas i).area :=
    fun _ => rfl
  rw [h1, reset_trailing_bytes, chain_fold_eq]
  have h2 := slot_foldl P (chain_recs incs frecs)
    ({ lp.m_state with tomalloc_state_hdr := h }, fun _ => none) i
  have h3 := congrArg (fun x : AState => x.1.area) h2
  exact h3

theorem head_filter_find (pre : List malloc_area) (a b0 : malloc_area) (i : Nat)
    (ha : a.idx = i)
    (hfind : (pre ++ [a]).find? (fun b => decide (b.idx = i)) = some b0) :
    (((pre.map (fun b => ((false, b) : Rec))).filter (fun r => decide (r.2.idx = i)) ++
      [((false, a) : Rec)]).head (by simp)) = (false, b0) := by
  induction pre with
  | nil =>
    simp only [List.nil_append, List.find?_cons, ha, decide_True] at hfind
    have : a = b0 := Option.some.inj hfind
    subst this
    rfl
  | cons p tl ih =>
    by_cases hp : p.idx = i
    · simp only [List.cons_append, List.find?_cons, hp, decide_True] at hfind
      have : p = b0 := Option.some.inj hfind
      subst this
      simp [hp]
    · simp only [List.cons_append, List.find?_cons, hp, decide_False] at hfind
      have := ih hfind
      simp only [List.map_cons, hp, decide_False, Bool.false_eq_true, not_false_eq_true,
        List.filter_cons_of_neg]
      exact this

/-! ## The walk on one slot along a run of checkpoints -/

theorem flatMap_filter_map {α β γ : Type} (l : List α) (g : α → β) (p : β → Bool)
    (f : β → List γ) (h : ∀ b, p b = false → f b = []) :
    ((l.map g).filter p).flatMap f = l.flatMap (fun j => f (g j)) := by
  induction l with
  | nil => rfl
  | cons a tl ih =>
    rw [List.map_cons, List.flatMap_cons]
    by_cases hp : p (g a) = true
    · rw [List.filter_cons_of_pos hp, List.flatMap_cons, ih]
    · rw [List.filter_cons_of_neg hp, ih, h (g a) (by simpa using hp)]
      rfl

theorem ckpt_inc_is_inc_log (P : Platform) (s : lp_struct)
    (hsize : P.sizeof_malloc_state + items_size P (inc_items P s.m_state) =
      s.m_state.total_inc_size) :
    is_inc_log P (ckpt_inc P s) (inc_recs s) := by
  have hitems : (ckpt_inc P s).items = (inc_recs s).flatMap (inc_area_items P) := by
    unfold inc_recs
    rw [flatMap_filter_map]
    · show inc_items P s.m_state = _
      unfold inc_items
      rw [← List.range_eq_range']
    · intro b hb
      unfold inc_area_items
      rw [if_pos (by simpa using hb)]
  refine ⟨rfl, hitems, ?_, ?_⟩
  · exact hsize.symm
  · intro a ha
    unfold inc_recs at ha
    rw [List.mem_filter] at ha
    simpa using ha.2

theorem ckpt_full_is_full_log (P : Platform) (s : lp_struct)
    (hsize : s.m_state.total_log_size =
      P.sizeof_malloc_state + items_size P (full_items P s.m_state)) :
    is_full_log P (ckpt_full P s) (full_recs s) := by
  have hitems : (ckpt_full P s).items = (full_recs s).flatMap (full_area_items P) := by
    unfold full_recs
    rw [flatMap_filter_map]
    · rfl
    · intro b hb
      unfold full_area_items
      rw [if_pos (by simpa using hb)]
  refine ⟨rfl, hitems, ?_, ?_⟩
  · exact hsize
  · intro a ha
    unfold full_recs at ha
    rw [List.mem_filter] at ha
    simpa using ha.2

theorem range_recs_fit (P : Platform) (n : Nat) (nc : Nat → Nat) (h : malloc_state_hdr)
    (s : lp_struct) (p : malloc_area → Bool) (hwf : well_formed P n s)
    (hn : n ≤ h.num_areas) (hmax : n ≤ h.max_num_areas)
    (hnc : ∀ i, i < n → (s.m_state.areas i).num_chunks = nc i) :
    recs_fit P nc h (((List.range s.m_state.num_areas).map s.m_state.areas).filter p) := by
  obtain ⟨hnum, hidx, huse⟩ := hwf
  constructor
  · refine le_trans (List.length_filter_le _ _) ?_
    rw [List.length_map, List.length_range, hnum]
    exact hn
  · intro a ha
    rw [List.mem_filter, List.mem_map] at ha
    obtain ⟨⟨j, hj, hja⟩, _⟩ := ha
    rw [List.mem_range, hnum] at hj
    have hi : a.idx = j := by
      rw [← hja]
      exact hidx j (by rw [hnum]; exact hj)
    refine ⟨by rw [hi]; omega, ?_, ?_⟩
    · rw [hi, ← hja]
      exact hnc j hj
    · rw [← hja]
      exact huse j hj

theorem chain_fold_hdr (P : Platform) (incs : List (List malloc_area)) (frecs : List malloc_area)
    (st : RState) :
    (chain_fold P incs frecs st).1.tomalloc_state_hdr = st.1.tomalloc_state_hdr := by
  unfold chain_fold
  rw [foldl_apply_full_hdr, foldl_apply_inc_hdr]

theorem restored_inc_slot (P : Platform) (live : lp_struct) (h : malloc_state_hdr)
    (incs : List (List malloc_area)) (frecs : List malloc_area) (i : Nat)
    (hle : live.m_state.num_areas ≤ h.num_areas) :
    (restored_inc P live h incs frecs).areas i =
      (((chain_recs incs frecs).filter (fun r => decide (r.2.idx = i))).foldl (step_rec P)
        (live.m_state.areas i, none)).1 := by
  unfold restored_inc
  have hnum : (chain_fold P incs frecs
      ({ live.m_state with tomalloc_state_hdr := h }, fun _ => none)).1.num_areas =
      h.num_areas :=
    congrArg malloc_state_hdr.num_areas (chain_fold_hdr P incs frecs _)
  rw [reset_trailing_le P _ _ (by rw [hnum]; exact hle)]
  have h1 : ∀ m : malloc_state, (finish_restore P m).areas i = m.areas i := fun _ => rfl
  rw [h1, chain_fold_eq]
  have h2 := slot_foldl P (chain_recs incs frecs)
    ({ live.m_state with tomalloc_state_hdr := h }, fun _ => none) i
  exact congrArg Prod.fst h2

theorem restored_inc_hdr (P : Platform) (live : lp_struct) (h : malloc_state_hdr)
    (incs : List (List malloc_area)) (frecs : List malloc_area)
    (hle : live.m_state.num_areas ≤ h.num_areas) :
    (restored_inc P live h incs frecs).tomalloc_state_hdr =
      { h with timestamp := -1, is_incremental := false,
               total_inc_size := P.sizeof_malloc_state } := by
  unfold restored_inc
  have hh := chain_fold_hdr P incs frecs
    ({ live.m_state with tomalloc_state_hdr := h }, fun _ => none)
  have hnum : (chain_fold P incs frecs
      ({ live.m_state with tomalloc_state_hdr := h }, fun _ => none)).1.num_areas =
      h.num_areas := congrArg malloc_state_hdr.num_areas hh
  rw [reset_trailing_le P _ _ (by rw [hnum]; exact hle)]
  have h1 : ∀ m : malloc_state, (finish_restore P m).tomalloc_state_hdr =
      { m.tomalloc_state_hdr with timestamp := -1, is_incremental := false,
                                  total_inc_size := P.sizeof_malloc_state } := fun _ => rfl
  rw [h1, hh]

theorem reset_trailing_area_hdr (P : Platform) (m : malloc_state) (j : Nat) :
    (reset_trailing_area P m j).tomalloc_state_hdr = m.tomalloc_state_hdr := by
  unfold reset_trailing_area
  rfl

theorem reset_flags_emptied (P : Platform) (ts : Int) (b : malloc_area)
    (h1 : b.alloc_chunks = 0) (h2 : b.next_chunk = 0) (h3 : b.dirty_chunks = 0)
    (h4 : b.state_changed = 0) (h5 : b.last_access = ts) :
    emptied P ts
      (if b.has_bitmap = true then
        { b with log_mode := false, area_lock := false,
                 use_bitmap := bitmap_memset0 b.use_bitmap (P.bitmap_required_size b.num_chunks),
                 dirty_bitmap :=
                   bitmap_memset0 b.dirty_bitmap (P.bitmap_required_size b.num_chunks) }
       else { b with log_mode := false, area_lock := false }) := by
  split_ifs with hb
  · refine ⟨h1, h2, h3, h4, rfl, rfl, ?_, ?_, h5⟩
    · intro _ i hi
      simp only [bitmap_memset0]
      rw [if_pos hi]
    · intro _ i hi
      simp only [bitmap_memset0]
      rw [if_pos hi]
  · refine ⟨h1, h2, h3, h4, rfl, rfl, ?_, ?_, h5⟩
    · intro hb2
      exact absurd hb2 hb
    · intro hb2
      exact absurd hb2 hb

theorem reset_trailing_area_same (P : Platform) (m : malloc_state) (j : Nat) :
    emptied P m.timestamp ((reset_trailing_area P m j).areas j) := by
  unfold reset_trailing_area
  simp only [set_area, Function.update_same]
  apply reset_flags_emptied <;>
  · simp only [Function.update_apply]
    split_ifs <;> first | rfl | (exfalso; omega)

theorem reset_trailing_area_other (P : Platform) (m : malloc_state) (j x : Nat) (hx : x ≠ j) :
    (reset_trailing_area P m j).areas x = m.areas x ∨
      (reset_trailing_area P m j).areas x = { m.areas x with next := (m.areas j).idx } := by
  unfold reset_trailing_area
  simp only [set_area, Function.update_noteq hx]
  by_cases hp : x = (m.areas j).prev
  · right
    rw [← hp]
    simp only [Function.update_same, Function.update_noteq hx]
  · left
    simp only [Function.update_noteq hp, Function.update_noteq hx]

theorem reset_trailing_area_emptied (P : Platform) (m : malloc_state) (j x : Nat) (ts : Int)
    (hts : m.timestamp = ts) (h : x = j ∨ emptied P ts (m.areas x)) :
    emptied P ts ((reset_trailing_area P m j).areas x) := by
  by_cases hxj : x = j
  · subst hxj
    rw [← hts]
    exact reset_trailing_area_same P m x
  · have he : emptied P ts (m.areas x) := h.resolve_left hxj
    rcases reset_trailing_area_other P m j x hxj with e | e
    · rw [e]
      exact he
    · rw [e]
      exact he

theorem foldl_reset_trailing_hdr (P : Platform) (l : List Nat) (m : malloc_state) :
    (l.foldl (reset_trailing_area P) m).tomalloc_state_hdr = m.tomalloc_state_hdr := by
  induction l generalizing m with
  | nil => rfl
  | cons j tl ih => rw [List.foldl_cons, ih, reset_trailing_area_hdr]

theorem foldl_reset_trailing_emptied (P : Platform) (l : List Nat) (m : malloc_state) (x : Nat)
    (ts : Int) (hts : m.timestamp = ts) (h : x ∈ l ∨ emptied P ts (m.areas x)) :
    emptied P ts ((l.foldl (reset_trailing_area P) m).areas x) := by
  induction l generalizing m with
  | nil =>
    rcases h with h | h
    · simp at h
    · exact h
  | cons j tl ih =>
    rw [List.foldl_cons]
    have hts2 : (reset_trailing_area P m j).timestamp = ts := by
      rw [← hts]
      exact congrArg malloc_state_hdr.timestamp (reset_trailing_area_hdr P m j)
    apply ih _ hts2
    by_cases hxj : x = j
    · right
      exact reset_trailing_area_emptied P m j x ts hts (Or.inl hxj)
    · rcases h with h | h
      · left
        rcases List.mem_cons.1 h with e | e
        · exact absurd e hxj
        · exact e
      · right
        exact reset_trailing_area_emptied P m j x ts hts (Or.inr h)

theorem reset_trailing_spec (P : Platform) (orig : Nat) (m : malloc_state)
    (hgt : m.num_areas < orig) :
    (reset_trailing P orig m).tomalloc_state_hdr =
      { m.tomalloc_state_hdr with num_areas := orig } ∧
    ∀ i, m.num_areas ≤ i → i < orig →
      emptied P m.timestamp ((reset_trailing P orig m).areas i) := by
  unfold reset_trailing
  rw [if_pos hgt]
  constructor
  · show { (List.foldl _ m _).tomalloc_state_hdr with num_areas := orig } = _
    rw [foldl_reset_trailing_hdr]
  · intro i h1 h2
    apply foldl_reset_trailing_emptied P _ m i m.timestamp rfl
    left
    rw [List.mem_range']
    exact ⟨i - m.num_areas, by omega, by omega⟩
theorem restore_full_area_set (P : Platform) (t : Nat) (c c1 : RestoreCursor) (i : Nat)
    (h : restore_full_area P t c i = Except.ok c1) :
    ∃ a, c1.m_state = set_area c.m_state i a := by
  have hclean := clean_area_inline P (c.m_state.areas i)
  unfold restore_full_area at h
  simp only [hclean] at h
  have key : ∀ (x : RestoreCursor), Except.ok x = (Except.ok c1 : Except Fatal RestoreCursor) →
      (∃ a, x.m_state = set_area c.m_state i a) → ∃ a, c1.m_state = set_area c.m_state i a := by
    intro x hx hex
    rw [← Except.ok.inj hx]
    exact hex
  clear hclean
  repeat (any_goals (first
    | exact key _ h ⟨_, rfl⟩
    | cases h
    | split at h))

theorem restore_incremental_area_set (P : Platform) (c c1 : IncCursor)
    (h : restore_incremental_area P c = Except.ok c1) :
    ∃ j a, c1.m_state = set_area c.m_state j a := by
  unfold restore_incremental_area at h
  simp only at h
  have key : ∀ (x : IncCursor), Except.ok x = (Except.ok c1 : Except Fatal IncCursor) →
      (∃ j a, x.m_state = set_area c.m_state j a) → ∃ j a, c1.m_state = set_area c.m_state j a := by
    intro x hx hex
    rw [← Except.ok.inj hx]
    exact hex
  repeat (any_goals (first
    | exact key _ h ⟨_, _, rfl⟩
    | cases h
    | split at h))

theorem restore_incremental_full_area_set (P : Platform) (c c1 : IncCursor)
    (h : restore_incremental_full_area P c = Except.ok c1) :
    ∃ j a, c1.m_state = set_area c.m_state j a := by
  unfold restore_incremental_full_area at h
  simp only at h
  have key : ∀ (x : IncCursor), Except.ok x = (Except.ok c1 : Except Fatal IncCursor) →
      (∃ j a, x.m_state = set_area c.m_state j a) → ∃ j a, c1.m_state = set_area c.m_state j a := by
    intro x hx hex
    rw [← Except.ok.inj hx]
    exact hex
  repeat (any_goals (first
    | exact key _ h ⟨_, _, rfl⟩
    | cases h
    | split at h))

theorem restore_full_loop_frame (P : Platform) (t : Nat) (n : Nat) :
    ∀ (i : Nat) (c c1 : RestoreCursor), restore_full_loop P t n i c = Except.ok c1 →
      c1.m_state.tomalloc_state_hdr = c.m_state.tomalloc_state_hdr ∧
      ∀ j, (j < i ∨ i + n ≤ j) → c1.m_state.areas j = c.m_state.areas j := by
  induction n with
  | zero =>
    intro i c c1 h
    unfold restore_full_loop at h
    rw [← Except.ok.inj h]
    exact ⟨rfl, fun _ _ => rfl⟩
  | succ n ih =>
    intro i c c1 h
    unfold restore_full_loop at h
    cases hstep : restore_full_area P t c i with
    | error e =>
      rw [hstep] at h
      cases h
    | ok c2 =>
      rw [hstep] at h
      simp only at h
      obtain ⟨a, ha⟩ := restore_full_area_set P t c c2 i hstep
      obtain ⟨h1, h2⟩ := ih (i + 1) c2 c1 h
      refine ⟨by rw [h1, ha]; rfl, ?_⟩
      intro j hj
      rw [h2 j (by omega), ha]
      simp only [set_area]
      rw [Function.update_noteq (by omega)]

theorem restore_incremental_loop_hdr (step : IncCursor → Except Fatal IncCursor)
    (hstep : ∀ c c1, step c = Except.ok c1 →
      c1.m_state.tomalloc_state_hdr = c.m_state.tomalloc_state_hdr)
    (size : Nat) (n : Nat) :
    ∀ (c c1 : IncCursor), restore_incremental_loop step size n c = Except.ok c1 →
      c1.m_state.tomalloc_state_hdr = c.m_state.tomalloc_state_hdr := by
  induction n with
  | zero =>
    intro c c1 h
    unfold restore_incremental_loop at h
    rw [← Except.ok.inj h]
  | succ n ih =>
    intro c c1 h
    unfold restore_incremental_loop at h
    split_ifs at h with hp
    · rw [← Except.ok.inj h]
    · cases hs : step c with
      | error e =>
        rw [hs] at h
        cases h
      | ok c2 =>
        rw [hs] at h
        simp only at h
        rw [ih c2 c1 h, hstep c c2 hs]

theorem restore_incremental_area_hdr (P : Platform) (c c1 : IncCursor)
    (h : restore_incremental_area P c = Except.ok c1) :
    c1.m_state.tomalloc_state_hdr = c.m_state.tomalloc_state_hdr := by
  obtain ⟨j, a, ha⟩ := restore_incremental_area_set P c c1 h
  rw [ha]
  rfl

theorem restore_incremental_full_area_hdr (P : Platform) (c c1 : IncCursor)
    (h : restore_incremental_full_area P c = Except.ok c1) :
    c1.m_state.tomalloc_state_hdr = c.m_state.tomalloc_state_hdr := by
  obtain ⟨j, a, ha⟩ := restore_incremental_full_area_set P c c1 h
  rw [ha]
  rfl

theorem restore_incremental_log_hdr (P : Platform) (ckpt : Ckpt) (m : malloc_state)
    (tbr : Nat → Option (Nat → Bool)) (r : malloc_state × (Nat → Option (Nat → Bool)))
    (h : restore_incremental_log P ckpt m tbr = Except.ok r) :
    r.1.tomalloc_state_hdr = m.tomalloc_state_hdr := by
  unfold restore_incremental_log at h
  simp only at h
  split at h
  · cases h
  · rename_i c hc
    split_ifs at h
    rw [← Except.ok.inj h]
    exact restore_incremental_loop_hdr _ (restore_incremental_area_hdr P) _ _ _ c hc

theorem restore_incremental_full_hdr (P : Platform) (ckpt : Ckpt) (m : malloc_state)
    (tbr : Nat → Option (Nat → Bool)) (r : malloc_state × (Nat → Option (Nat → Bool)))
    (h : restore_incremental_full P ckpt m tbr = Except.ok r) :
    r.1.tomalloc_state_hdr = m.tomalloc_state_hdr := by
  unfold restore_incremental_full at h
  simp only at h
  split at h
  · cases h
  · rename_i c hc
    split_ifs at h
    rw [← Except.ok.inj h]
    exact restore_incremental_loop_hdr _ (restore_incremental_full_area_hdr P) _ _ _ c hc

theorem restore_incremental_chain_hdr (P : Platform) (prevs : List Ckpt) :
    ∀ (log : Ckpt) (m : malloc_state) (tbr : Nat → Option (Nat → Bool))
      (r : malloc_state × (Nat → Option (Nat → Bool))),
      restore_incremental_chain P log prevs m tbr = Except.ok r →
      r.1.tomalloc_state_hdr = m.tomalloc_state_hdr := by
  induction prevs with
  | nil =>
    intro log m tbr r h
    unfold restore_incremental_chain at h
    split_ifs at h with hi
    · cases hl : restore_incremental_log P log m tbr with
      | error e =>
        rw [hl] at h
        cases h
      | ok r1 =>
        rw [hl] at h
        cases h
    · exact restore_incremental_full_hdr P log m tbr r h
  | cons p tl ih =>
    intro log m tbr r h
    unfold restore_incremental_chain at h
    split_ifs at h with hi
    · cases hl : restore_incremental_log P log m tbr with
      | error e =>
        rw [hl] at h
        cases h
      | ok r1 =>
        rw [hl] at h
        simp only at h
        rw [ih p r1.1 r1.2 r h, restore_incremental_log_hdr P log m tbr r1 hl]
    · exact restore_incremental_full_hdr P log m tbr r h

theorem restore_full_inv (P : Platform) (lp : lp_struct) (blob : Ckpt) (r : lp_struct)
    (h : restore_full P lp blob = Except.ok r) :
    ∃ c, restore_full_loop P blob.state.total_log_size blob.state.num_areas 0
        { m_state := { lp.m_state with tomalloc_state_hdr := blob.state },
          ptr := P.sizeof_malloc_state, rest := blob.items } = Except.ok c ∧
      r = { lp with m_state :=
        finish_restore P (reset_trailing P lp.m_state.num_areas c.m_state) } := by
  unfold restore_full at h
  simp only at h
  split at h
  · cases h
  · rename_i c hc
    exact ⟨c, hc, (Except.ok.inj h).symm⟩

theorem restore_incremental_inv (P : Platform) (lp : lp_struct) (node : Ckpt)
    (prevs : List Ckpt) (r : lp_struct)
    (h : restore_incremental P lp node prevs = Except.ok r) :
    ∃ st, restore_incremental_chain P node prevs
        { lp.m_state with tomalloc_state_hdr := node.state } (fun _ => none) = Except.ok st ∧
      r = { lp with m_state :=
        finish_restore P (reset_trailing P lp.m_state.num_areas st.1) } := by
  unfold restore_incremental at h
  simp only at h
  split at h
  · cases h
  · rename_i st hst
    exact ⟨st, hst, (Except.ok.inj h).symm⟩

theorem restore_result (P : Platform) (lp : lp_struct) (blob : Ckpt) (prevs : List Ckpt)
    (r : lp_struct)
    (h : restore_full P lp blob = Except.ok r ∨
      restore_incremental P lp blob prevs = Except.ok r) :
    ∃ m : malloc_state, m.tomalloc_state_hdr = blob.state ∧
      r = { lp with m_state := finish_restore P (reset_trailing P lp.m_state.num_areas m) } := by
  rcases h with h | h
  · obtain ⟨c, hc, hr⟩ := restore_full_inv P lp blob r h
    exact ⟨c.m_state, (restore_full_loop_frame P _ _ 0 _ c hc).1, hr⟩
  · obtain ⟨st, hst, hr⟩ := restore_incremental_inv P lp blob prevs r h
    exact ⟨st.1, restore_incremental_chain_hdr P prevs blob _ _ st hst, hr⟩

theorem reset_trailing_keeps_emptied (P : Platform) (orig : Nat) (m : malloc_state) (x : Nat)
    (h : emptied P m.timestamp (m.areas x)) :
    emptied P m.timestamp ((reset_trailing P orig m).areas x) := by
  unfold reset_trailing
  split_ifs
  · exact foldl_reset_trailing_emptied P _ m x m.timestamp rfl (Or.inr h)
  · exact h

theorem restore_full_loop_split (P : Platform) (t : Nat) (a b : Nat) :
    ∀ (i : Nat) (c : RestoreCursor),
      restore_full_loop P t (a + b) i c =
        match restore_full_loop P t a i c with
        | Except.error e => Except.error e
        | Except.ok c1 => restore_full_loop P t b (i + a) c1 := by
  induction a with
  | zero =>
    intro i c
    rw [Nat.zero_add]
    rfl
  | succ a ih =>
    intro i c
    have e1 : restore_full_loop P t (a + b + 1) i c =
        match restore_full_area P t c i with
        | Except.error e => Except.error e
        | Except.ok c1 => restore_full_loop P t (a + b) (i + 1) c1 := rfl
    have e2 : restore_full_loop P t (a + 1) i c =
        match restore_full_area P t c i with
        | Except.error e => Except.error e
        | Except.ok c1 => restore_full_loop P t a (i + 1) c1 := rfl
    rw [show a + 1 + b = a + b + 1 by omega, e1, e2]
    cases hstep : restore_full_area P t c i with
    | error e => rfl
    | ok c2 =>
      simp only
      rw [ih (i + 1) c2, show i + 1 + a = i + (a + 1) by omega]

theorem reset_unlogged_emptied (P : Platform) (a : malloc_area) (ts : Int) :
    emptied P ts
      (reset_unlogged (clean_area P a) (P.bitmap_required_size a.num_chunks) ts) := by
  have hb1 : (clean_area P a).has_bitmap = a.has_bitmap := rfl
  unfold reset_unlogged
  simp only [hb1]
  split_ifs with hb
  · refine ⟨rfl, rfl, rfl, rfl, rfl, rfl, ?_, ?_, rfl⟩
    · intro _ i hi
      have hi2 : i < 8 * P.bitmap_required_size a.num_chunks := hi
      show (if i < 8 * P.bitmap_required_size a.num_chunks then false
        else (clean_area P a).use_bitmap i) = false
      rw [if_pos hi2]
    · intro _ i hi
      have hi2 : i < 8 * P.bitmap_required_size a.num_chunks := hi
      show (if a.has_bitmap = true then
          bitmap_memset0 a.dirty_bitmap (P.bitmap_required_size a.num_chunks)
        else a.dirty_bitmap) i = false
      rw [if_pos hb]
      show (if i < 8 * P.bitmap_required_size a.num_chunks then false
        else a.dirty_bitmap i) = false
      rw [if_pos hi2]
  · refine ⟨rfl, rfl, rfl, rfl, rfl, rfl, ?_, ?_, rfl⟩
    · intro hb2
      exact absurd hb2 hb
    · intro hb2
      exact absurd hb2 hb

theorem reset_unlogged_area (P : Platform) (a : malloc_area) (n : Nat) (ts : Int) :
    (reset_unlogged (clean_area P a) n ts).area = a.area := by
  unfold reset_unlogged clean_area
  simp only
  split_ifs <;> rfl

theorem hdr_item_of_area (P : Platform) (a : malloc_area) (h : malloc_area_hdr)
    (hm : Item.hdr h ∈ full_area_items P a) : a.alloc_chunks ≠ 0 ∧ h.idx = a.idx := by
  unfold full_area_items at hm
  split_ifs at hm with h0 hlm
  · simp at hm
  · simp at hm
    refine ⟨h0, ?_⟩
    rw [hm]
  · simp at hm
    refine ⟨h0, ?_⟩
    rw [hm]

theorem foldl_reset_trailing_other (P : Platform) (l : List Nat) (m : malloc_state) (x : Nat)
    (hx : x ∉ l) :
    ∃ nx, (l.foldl (reset_trailing_area P) m).areas x = { m.areas x with next := nx } := by
  induction l generalizing m with
  | nil => exact ⟨(m.areas x).next, rfl⟩
  | cons j tl ih =>
    rw [List.foldl_cons]
    have hxj : x ≠ j := fun e => hx (by rw [e]; exact List.mem_cons_self _ _)
    obtain ⟨nx, hnx⟩ := ih (reset_trailing_area P m j)
      (fun hm => hx (List.mem_cons_of_mem _ hm))
    rw [hnx]
    rcases reset_trailing_area_other P m j x hxj with e | e
    · exact ⟨nx, by rw [e]⟩
    · exact ⟨nx, by rw [e]⟩

theorem reset_trailing_other (P : Platform) (orig : Nat) (m : malloc_state) (x : Nat)
    (hx : x < m.num_areas ∨ orig ≤ x) :
    ∃ nx, (reset_trailing P orig m).areas x = { m.areas x with next := nx } := by
  unfold reset_trailing
  split_ifs
  · apply foldl_reset_trailing_other
    rw [List.mem_range']
    rintro ⟨k, hk, hxk⟩
    omega
  · exact ⟨(m.areas x).next, rfl⟩
theorem restore_incremental_area_set_lt (P : Platform) (c c1 : IncCursor)
    (h : restore_incremental_area P c = Except.ok c1) :
    ∃ j a, j < c.m_state.max_num_areas ∧ c1.m_state = set_area c.m_state j a := by
  unfold restore_incremental_area at h
  simp only at h
  have key : ∀ (x : IncCursor), Except.ok x = (Except.ok c1 : Except Fatal IncCursor) →
      (∃ j a, j < c.m_state.max_num_areas ∧ x.m_state = set_area c.m_state j a) →
      ∃ j a, j < c.m_state.max_num_areas ∧ c1.m_state = set_area c.m_state j a := by
    intro x hx hex
    rw [← Except.ok.inj hx]
    exact hex
  repeat (any_goals (first
    | exact key _ h ⟨_, _, by omega, rfl⟩
    | cases h
    | split at h))

theorem restore_incremental_full_area_set_lt (P : Platform) (c c1 : IncCursor)
    (h : restore_incremental_full_area P c = Except.ok c1) :
    ∃ j a, j < c.m_state.max_num_areas ∧ c1.m_state = set_area c.m_state j a := by
  unfold restore_incremental_full_area at h
  simp only at h
  have key : ∀ (x : IncCursor), Except.ok x = (Except.ok c1 : Except Fatal IncCursor) →
      (∃ j a, j < c.m_state.max_num_areas ∧ x.m_state = set_area c.m_state j a) →
      ∃ j a, j < c.m_state.max_num_areas ∧ c1.m_state = set_area c.m_state j a := by
    intro x hx hex
    rw [← Except.ok.inj hx]
    exact hex
  repeat (any_goals (first
    | exact key _ h ⟨_, _, by omega, rfl⟩
    | cases h
    | split at h))

theorem restore_incremental_loop_frame (step : IncCursor → Except Fatal IncCursor)
    (hstep : ∀ c c1, step c = Except.ok c1 →
      ∃ j a, j < c.m_state.max_num_areas ∧ c1.m_state = set_area c.m_state j a)
    (size : Nat) (n : Nat) :
    ∀ (c c1 : IncCursor), restore_incremental_loop step size n c = Except.ok c1 →
      c1.m_state.tomalloc_state_hdr = c.m_state.tomalloc_state_hdr ∧
      ∀ i, c.m_state.max_num_areas ≤ i → c1.m_state.areas i = c.m_state.areas i := by
  induction n with
  | zero =>
    intro c c1 h
    unfold restore_incremental_loop at h
    rw [← Except.ok.inj h]
    exact ⟨rfl, fun _ _ => rfl⟩
  | succ n ih =>
    intro c c1 h
    unfold restore_incremental_loop at h
    split_ifs at h with hp
    · rw [← Except.ok.inj h]
      exact ⟨rfl, fun _ _ => rfl⟩
    · cases hs : step c with
      | error e =>
        rw [hs] at h
        cases h
      | ok c2 =>
        rw [hs] at h
        simp only at h
        obtain ⟨j, a, hj, ha⟩ := hstep c c2 hs
        obtain ⟨h1, h2⟩ := ih c2 c1 h
        have hh : c2.m_state.tomalloc_state_hdr = c.m_state.tomalloc_state_hdr := by
          rw [ha]
          rfl
        have hmax : c2.m_state.max_num_areas = c.m_state.max_num_areas :=
          congrArg malloc_state_hdr.max_num_areas hh
        refine ⟨h1.trans hh, ?_⟩
        intro i hi
        rw [h2 i (by rw [hmax]; exact hi), ha]
        simp only [set_area]
        rw [Function.update_noteq (by omega)]

theorem restore_incremental_log_frame (P : Platform) (ckpt : Ckpt) (m : malloc_state)
    (tbr : Nat → Option (Nat → Bool)) (r : malloc_state × (Nat → Option (Nat → Bool)))
    (h : restore_incremental_log P ckpt m tbr = Except.ok r) :
    r.1.tomalloc_state_hdr = m.tomalloc_state_hdr ∧
    ∀ i, m.max_num_areas ≤ i → r.1.areas i = m.areas i := by
  unfold restore_incremental_log at h
  simp only at h
  split at h
  · cases h
  · rename_i c hc
    split_ifs at h
    rw [← Except.ok.inj h]
    exact restore_incremental_loop_frame _ (restore_incremental_area_set_lt P) _ _ _ c hc

theorem restore_incremental_full_frame (P : Platform) (ckpt : Ckpt) (m : malloc_state)
    (tbr : Nat → Option (Nat → Bool)) (r : malloc_state × (Nat → Option (Nat → Bool)))
    (h : restore_incremental_full P ckpt m tbr = Except.ok r) :
    r.1.tomalloc_state_hdr = m.tomalloc_state_hdr ∧
    ∀ i, m.max_num_areas ≤ i → r.1.areas i = m.areas i := by
  unfold restore_incremental_full at h
  simp only at h
  split at h
  · cases h
  · rename_i c hc
    split_ifs at h
    rw [← Except.ok.inj h]
    exact restore_incremental_loop_frame _ (restore_incremental_full_area_set_lt P) _ _ _ c hc

theorem restore_incremental_chain_frame (P : Platform) (prevs : List Ckpt) :
    ∀ (log : Ckpt) (m : malloc_state) (tbr : Nat → Option (Nat → Bool))
      (r : malloc_state × (Nat → Option (Nat → Bool))),
      restore_incremental_chain P log prevs m tbr = Except.ok r →
      r.1.tomalloc_state_hdr = m.tomalloc_state_hdr ∧
      ∀ i, m.max_num_areas ≤ i → r.1.areas i = m.areas i := by
  induction prevs with
  | nil =>
    intro log m tbr r h
    unfold restore_incremental_chain at h
    split_ifs at h with hi
    · cases hl : restore_incremental_log P log m tbr with
      | error e =>
        rw [hl] at h
        cases h
      | ok r1 =>
        rw [hl] at h
        cases h
    · exact restore_incremental_full_frame P log m tbr r h
  | cons p tl ih =>
    intro log m tbr r h
    unfold restore_incremental_chain at h
    split_ifs at h with hi
    · cases hl : restore_incremental_log P log m tbr with
      | error e =>
        rw [hl] at h
        cases h
      | ok r1 =>
        rw [hl] at h
        simp only at h
        obtain ⟨h1, h2⟩ := restore_incremental_log_frame P log m tbr r1 hl
        obtain ⟨h3, h4⟩ := ih p r1.1 r1.2 r h
        have hmax : r1.1.max_num_areas = m.max_num_areas :=
          congrArg malloc_state_hdr.max_num_areas h1
        refine ⟨h3.trans h1, ?_⟩
        intro i hi2
        rw [h4 i (by rw [hmax]; exact hi2), h2 i hi2]
    · exact restore_incremental_full_frame P log m tbr r h

theorem restore_result_frame (P : Platform) (lp : lp_struct) (blob : Ckpt) (prevs : List Ckpt)
    (r : lp_struct)
    (h : restore_full P lp blob = Except.ok r ∨
      restore_incremental P lp blob prevs = Except.ok r) (i : Nat)
    (h1 : blob.state.num_areas ≤ i) (h2 : blob.state.max_num_areas ≤ i)
    (h3 : lp.m_state.num_areas ≤ i) :
    ∃ nx, r.m_state.areas i = { lp.m_state.areas i with next := nx } := by
  have hm : ∃ m : malloc_state, m.tomalloc_state_hdr = blob.state ∧
      m.areas i = lp.m_state.areas i ∧
      r = { lp with
        m_state := finish_restore P (reset_trailing P lp.m_state.num_areas m) } := by
    rcases h with h | h
    · obtain ⟨c, hc, hr⟩ := restore_full_inv P lp blob r h
      obtain ⟨e1, e2⟩ := restore_full_loop_frame P _ _ 0 _ c hc
      exact ⟨c.m_state, e1, e2 i (Or.inr (by omega)), hr⟩
    · obtain ⟨st, hst, hr⟩ := restore_incremental_inv P lp blob prevs r h
      obtain ⟨e1, e2⟩ := restore_incremental_chain_frame P prevs blob _ _ st hst
      exact ⟨st.1, e1, e2 i h2, hr⟩
  obtain ⟨m, -, hmi, hr⟩ := hm
  obtain ⟨nx, hnx⟩ := reset_trailing_other P lp.m_state.num_areas m i (Or.inr h3)
  refine ⟨nx, ?_⟩
  subst hr
  show (reset_trailing P lp.m_state.num_areas m).areas i = _
  rw [hnx, hmi]

/-! ## The walk of `restore_incremental` along the queue -/

theorem restore_incremental_chain_eq (P : Platform) (log : Ckpt) (prevs : List Ckpt)
    (m : malloc_state) (tbr : Nat → Option (Nat → Bool)) :
    restore_incremental_chain P log prevs m tbr =
      if log.state.is_incremental = true then
        match restore_incremental_log P log m tbr with
        | Except.error e => Except.error e
        | Except.ok r =>
          match prevs with
          | [] => Except.error Fatal.corrupt_chain
          | prev :: older => restore_incremental_chain P prev older r.1 r.2
      else restore_incremental_full P log m tbr := by
  rw [restore_incremental_chain]

theorem chain_walk (P : Platform) (pre : List Ckpt) (blob : Ckpt) (older : List Ckpt)
    (hpre : ∀ l, l ∈ pre → l.state.is_incremental = true) :
    ∀ (log : Ckpt) (prevs : List Ckpt) (st : malloc_state × (Nat → Option (Nat → Bool))),
      log :: prevs = pre ++ blob :: older →
      restore_incremental_chain P log prevs st.1 st.2 =
        match restore_incremental_logs P pre st with
        | Except.error e => Except.error e
        | Except.ok st1 => restore_incremental_chain P blob older st1.1 st1.2 := by
  induction pre with
  | nil =>
    intro log prevs st hchain
    simp only [List.nil_append, List.cons.injEq] at hchain
    rw [hchain.1, hchain.2]
    rfl
  | cons p tl ih =>
    intro log prevs st hchain
    simp only [List.cons_append, List.cons.injEq] at hchain
    obtain ⟨h1, h2⟩ := hchain
    subst h1
    have hi : log.state.is_incremental = true := hpre log (List.mem_cons_self _ _)
    have e : restore_incremental_logs P (log :: tl) st =
        match restore_incremental_log P log st.1 st.2 with
        | Except.error e => Except.error e
        | Except.ok r => restore_incremental_logs P tl r := rfl
    rw [restore_incremental_chain_eq, if_pos hi, e]
    cases hl : restore_incremental_log P log st.1 st.2 with
    | error e => rfl
    | ok r =>
      simp only
      cases hpv : tl ++ blob :: older with
      | nil => simp at hpv
      | cons q qs =>
        rw [hpv] at h2
        subst h2
        simp only
        exact ih (fun l hl2 => hpre l (List.mem_cons_of_mem _ hl2)) q qs r hpv.symm

theorem chain_walk_no_full (P : Platform) (prevs : List Ckpt) :
    ∀ (log : Ckpt) (st : malloc_state × (Nat → Option (Nat → Bool))),
      (∀ l, l ∈ log :: prevs → l.state.is_incremental = true) →
      restore_incremental_chain P log prevs st.1 st.2 =
        match restore_incremental_logs P (log :: prevs) st with
        | Except.error e => Except.error e
        | Except.ok _ => Except.error Fatal.corrupt_chain := by
  induction prevs with
  | nil =>
    intro log st hall
    have hi : log.state.is_incremental = true := hall log (List.mem_cons_self _ _)
    have e : restore_incremental_logs P [log] st =
        match restore_incremental_log P log st.1 st.2 with
        | Except.error e => Except.error e
        | Except.ok r => Except.ok r := by
      unfold restore_incremental_logs
      cases restore_incremental_log P log st.1 st.2 with
      | error e => rfl
      | ok r => rfl
    rw [restore_incremental_chain_eq, if_pos hi, e]
    cases hl : restore_incremental_log P log st.1 st.2 with
    | error e => rfl
    | ok r => rfl
  | cons q qs ih =>
    intro log st hall
    have hi : log.state.is_incremental = true := hall log (List.mem_cons_self _ _)
    rw [restore_incremental_chain_eq, if_pos hi]
    have e : restore_incremental_logs P (log :: q :: qs) st =
        match restore_incremental_log P log st.1 st.2 with
        | Except.error e => Except.error e
        | Except.ok r => restore_incremental_logs P (q :: qs) r := rfl
    rw [e]
    cases hl : restore_incremental_log P log st.1 st.2 with
    | error e => rfl
    | ok r =>
      simp only
      exact ih q r (fun l hl2 => hall l (List.mem_cons_of_mem _ hl2))

theorem chain_split (l : List Ckpt) :
    (∀ b, b ∈ l → b.state.is_incremental = true) ∨
    ∃ incs full older, l = incs ++ full :: older ∧
      (∀ b, b ∈ incs → b.state.is_incremental = true) ∧ full.state.is_incremental = false := by
  induction l with
  | nil => exact Or.inl (fun b hb => by simp at hb)
  | cons a tl ih =>
    by_cases ha : a.state.is_incremental = true
    · rcases ih with h | ⟨incs, full, older, h1, h2, h3⟩
      · left
        intro b hb
        rcases List.mem_cons.1 hb with e | e
        · rw [e]
          exact ha
        · exact h b e
      · right
        refine ⟨a :: incs, full, older, by rw [h1]; rfl, ?_, h3⟩
        intro b hb
        rcases List.mem_cons.1 hb with e | e
        · rw [e]
          exact ha
        · exact h2 b e
    · right
      exact ⟨[], a, tl, rfl, fun b hb => by simp at hb, by simpa using ha⟩

theorem parse_mismatch (P : Platform) (blob : Ckpt) (older : List Ckpt)
    (st : malloc_state × (Nat → Option (Nat → Bool))) (c : IncCursor)
    (hparse : parse_log P blob st.1 st.2 = Except.ok c) (hsize : c.ptr ≠ declared_size blob) :
    restore_incremental_chain P blob older st.1 st.2 = Except.error Fatal.corrupt_layout := by
  unfold parse_log declared_size at hparse
  unfold declared_size at hsize
  rw [restore_incremental_chain_eq]
  by_cases hi : blob.state.is_incremental = true
  · rw [if_pos hi] at hparse hsize ⊢
    simp only [if_pos hi] at hparse
    unfold restore_incremental_log
    simp only
    rw [hparse]
    simp only
    rw [if_pos hsize]
  · rw [if_neg hi] at hparse hsize ⊢
    simp only [if_neg hi] at hparse
    unfold restore_incremental_full
    simp only
    rw [hparse]
    simp only
    rw [if_pos hsize]

/-! ## The first record of an area in the chain -/

theorem head_filter_find_rec (pre : List Rec) (r b0 : Rec) (i : Nat) (hr : r.2.idx = i)
    (hfind : (pre ++ [r]).find? (fun b => decide (b.2.idx = i)) = some b0) :
    ((pre.filter (fun b => decide (b.2.idx = i)) ++ [r]).head (by simp)) = b0 := by
  induction pre with
  | nil =>
    simp only [List.nil_append, List.find?_cons, hr, decide_True] at hfind
    have : r = b0 := Option.some.inj hfind
    subst this
    rfl
  | cons p tl ih =>
    by_cases hp : p.2.idx = i
    · simp only [List.cons_append, List.find?_cons, hp, decide_True] at hfind
      have : p = b0 := Option.some.inj hfind
      subst this
      simp [hp]
    · simp only [List.cons_append, List.find?_cons, hp, decide_False] at hfind
      have := ih hfind
      simp only [hp, decide_False, Bool.false_eq_true, not_false_eq_true,
        List.filter_cons_of_neg]
      exact this

theorem filter_split_first (pre post : List Rec) (r0 : Rec) (i : Nat) (h0 : r0.2.idx = i)
    (hpre : ∀ b, b ∈ pre → b.2.idx ≠ i) :
    (pre ++ r0 :: post).filter (fun r => decide (r.2.idx = i)) =
      r0 :: post.filter (fun r => decide (r.2.idx = i)) := by
  rw [List.filter_append, List.filter_cons_of_pos (by simpa using h0)]
  have : pre.filter (fun r => decide (r.2.idx = i)) = [] := by
    rw [List.filter_eq_nil_iff]
    intro b hb
    simpa using hpre b hb
  rw [this, List.nil_append]

theorem restored_inc_area (P : Platform) (live : lp_struct) (h : malloc_state_hdr)
    (incs : List (List malloc_area)) (frecs : List malloc_area) (i : Nat)
    (hnt : i < h.num_areas ∨ live.m_state.num_areas ≤ i) :
    ∃ nx, (restored_inc P live h incs frecs).areas i =
      { (((chain_recs incs frecs).filter (fun r => decide (r.2.idx = i))).foldl (step_rec P)
          (live.m_state.areas i, none)).1 with next := nx } := by
  unfold restored_inc
  have hnum : (chain_fold P incs frecs
      ({ live.m_state with tomalloc_state_hdr := h }, fun _ => none)).1.num_areas =
      h.num_areas :=
    congrArg malloc_state_hdr.num_areas (chain_fold_hdr P incs frecs _)
  obtain ⟨nx, hnx⟩ := reset_trailing_other P live.m_state.num_areas
    (chain_fold P incs frecs ({ live.m_state with tomalloc_state_hdr := h }, fun _ => none)).1 i
    (by rw [hnum]; exact hnt)
  refine ⟨nx, ?_⟩
  have h1 : ∀ m : malloc_state, (finish_restore P m).areas i = m.areas i := fun _ => rfl
  rw [h1, hnx, chain_fold_eq]
  have h2 := slot_foldl P (chain_recs incs frecs)
    ({ live.m_state with tomalloc_state_hdr := h }, fun _ => none) i
  have h3 := congrArg Prod.fst h2
  simp only [slot] at h3
  rw [h3]

/-! ## The records that `restore_incremental` reads -/

theorem copy_to_area_check_already_suffix (cs : Nat) (xs : List Nat) :
    ∀ (area : Nat → Nat) (tbr : Nat → Bool) (ptr : Nat) (rest : List Item)
      (r : (Nat → Nat) × (Nat → Bool) × Nat × List Item),
      copy_to_area_check_already cs xs area tbr ptr rest = Except.ok r →
      r.2.2.2 <:+ rest ∧ area_records r.2.2.2 = area_records rest := by
  induction xs with
  | nil =>
    intro area tbr ptr rest r h
    unfold copy_to_area_check_already at h
    rw [← Except.ok.inj h]
    exact ⟨List.suffix_refl _, rfl⟩
  | cons x xs ih =>
    intro area tbr ptr rest r h
    unfold copy_to_area_check_already at h
    split at h
    · rename_i l rest1
      split_ifs at h
      · obtain ⟨h1, h2⟩ := ih _ _ _ _ _ h
        exact ⟨h1.trans (List.suffix_cons _ _), h2⟩
      · obtain ⟨h1, h2⟩ := ih _ _ _ _ _ h
        exact ⟨h1.trans (List.suffix_cons _ _), h2⟩
    · cases h

theorem copy_to_area_check_already_error (cs : Nat) (xs : List Nat) :
    ∀ (area : Nat → Nat) (tbr : Nat → Bool) (ptr : Nat) (rest : List Item) (e : Fatal),
      copy_to_area_check_already cs xs area tbr ptr rest = Except.error e →
      e = Fatal.bad_read := by
  induction xs with
  | nil =>
    intro area tbr ptr rest e h
    unfold copy_to_area_check_already at h
    cases h
  | cons x xs ih =>
    intro area tbr ptr rest e h
    unfold copy_to_area_check_already at h
    split at h
    · split_ifs at h
      · exact (Except.error.inj h).symm
      · exact ih _ _ _ _ _ h
      · exact ih _ _ _ _ _ h
    · exact (Except.error.inj h).symm

theorem copy_to_area_log_mode_error (cs : Nat) (l : List Nat) (xs : List Nat) :
    ∀ (area : Nat → Nat) (tbr : Nat → Bool) (e : Fatal),
      copy_to_area_log_mode cs l xs area tbr = Except.error e → e = Fatal.bad_read := by
  induction xs with
  | nil =>
    intro area tbr e h
    unfold copy_to_area_log_mode at h
    cases h
  | cons x xs ih =>
    intro area tbr e h
    unfold copy_to_area_log_mode at h
    split_ifs at h
    · exact ih _ _ _ h
    · exact (Except.error.inj h).symm

theorem area_records_cons_hdr (h : malloc_area_hdr) (tl : List Item) :
    area_records (Item.hdr h :: tl) = h :: area_records tl := rfl

theorem area_records_cons_bitmap (b : List Bool) (tl : List Item) :
    area_records (Item.bitmap b :: tl) = area_records tl := rfl

theorem area_records_cons_bytes (b : List Nat) (tl : List Item) :
    area_records (Item.bytes b :: tl) = area_records tl := rfl

theorem restore_incremental_area_head (P : Platform) (c c1 : IncCursor)
    (h : restore_incremental_area P c = Except.ok c1) :
    ∃ logged a t, area_records c.rest = logged :: area_records c1.rest ∧
      logged.idx < c.m_state.max_num_areas ∧
      c1.m_state = set_area c.m_state logged.idx a ∧
      c1.to_be_restored = Function.update c.to_be_restored logged.idx (some t) := by
  unfold restore_incremental_area at h
  split at h
  · rename_i logged bits rest2 hrest
    simp only at h
    rw [hrest, area_records_cons_hdr, area_records_cons_bitmap]
    split_ifs at h with h1 h2 h3
    · rw [← Except.ok.inj h]
      exact ⟨logged, _, _, rfl, by omega, rfl, rfl⟩
    · split at h
      · rename_i dirty rest3
        split_ifs at h
        split at h
        · cases h
        · rename_i r hr
          rw [← Except.ok.inj h]
          refine ⟨logged, _, _, ?_, by omega, rfl, rfl⟩
          rw [area_records_cons_bitmap]
          exact congrArg _ (copy_to_area_check_already_suffix _ _ _ _ _ _ _ hr).2.symm
      · cases h
  · cases h

theorem restore_incremental_full_area_head (P : Platform) (c c1 : IncCursor)
    (h : restore_incremental_full_area P c = Except.ok c1) :
    ∃ logged a t, area_records c.rest = logged :: area_records c1.rest ∧
      logged.idx < c.m_state.max_num_areas ∧
      c1.m_state = set_area c.m_state logged.idx a ∧
      c1.to_be_restored = Function.update c.to_be_restored logged.idx (some t) := by
  unfold restore_incremental_full_area at h
  split at h
  · rename_i logged bits rest2 hrest
    simp only at h
    rw [hrest, area_records_cons_hdr, area_records_cons_bitmap]
    split_ifs at h with h1 h2 h3
    · split at h
      · rename_i l rest3
        split_ifs at h
        split at h
        · cases h
        · rw [← Except.ok.inj h]
          exact ⟨logged, _, _, rfl, by omega, rfl, rfl⟩
      · cases h
    · split at h
      · cases h
      · rename_i r hr
        rw [← Except.ok.inj h]
        refine ⟨logged, _, _, ?_, by omega, rfl, rfl⟩
        exact congrArg _ (copy_to_area_check_already_suffix _ _ _ _ _ _ _ hr).2.symm
  · cases h

theorem restore_incremental_area_bounds (P : Platform) (c : IncCursor)
    (h : restore_incremental_area P c = Except.error Fatal.out_of_bounds) :
    ∃ logged, logged ∈ area_records c.rest ∧ c.m_state.max_num_areas ≤ logged.idx := by
  unfold restore_incremental_area at h
  split at h
  · rename_i logged bits rest2 hrest
    simp only at h
    rw [hrest, area_records_cons_hdr, area_records_cons_bitmap]
    split_ifs at h with h1 h2 h3
    · exact ⟨logged, List.mem_cons_self _ _, h1⟩
    · cases h
    · split at h
      · split_ifs at h
        · cases h
        · split at h
          · rename_i e he
            have := copy_to_area_check_already_error _ _ _ _ _ _ _ he
            rw [this] at h
            cases h
          · cases h
      · cases h
  · cases h

theorem restore_incremental_full_area_bounds (P : Platform) (c : IncCursor)
    (h : restore_incremental_full_area P c = Except.error Fatal.out_of_bounds) :
    ∃ logged, logged ∈ area_records c.rest ∧ c.m_state.max_num_areas ≤ logged.idx := by
  unfold restore_incremental_full_area at h
  split at h
  · rename_i logged bits rest2 hrest
    simp only at h
    rw [hrest, area_records_cons_hdr, area_records_cons_bitmap]
    split_ifs at h with h1 h2 h3
    · exact ⟨logged, List.mem_cons_self _ _, h1⟩
    · cases h
    · split at h
      · split_ifs at h
        · cases h
        · split at h
          · rename_i e he
            have := copy_to_area_log_mode_error _ _ _ _ _ _ he
            rw [this] at h
            cases h
          · cases h
      · cases h
    · split at h
      · rename_i e he
        have := copy_to_area_check_already_error _ _ _ _ _ _ _ he
        rw [this] at h
        cases h
      · cases h
  · cases h

theorem restore_incremental_loop_head (step : IncCursor → Except Fatal IncCursor)
    (hstep : ∀ c c1, step c = Except.ok c1 →
      ∃ logged a t, area_records c.rest = logged :: area_records c1.rest ∧
        logged.idx < c.m_state.max_num_areas ∧
        c1.m_state = set_area c.m_state logged.idx a ∧
        c1.to_be_restored = Function.update c.to_be_restored logged.idx (some t))
    (size : Nat) (n : Nat) :
    ∀ (c c1 : IncCursor), restore_incremental_loop step size n c = Except.ok c1 →
      c1.m_state.tomalloc_state_hdr = c.m_state.tomalloc_state_hdr ∧
      (∀ i, (∀ a, a ∈ area_records c.rest → a.idx ≠ i) →
        c1.m_state.areas i = c.m_state.areas i ∧ c1.to_be_restored i = c.to_be_restored i) ∧
      (∀ i, c.m_state.max_num_areas ≤ i → c1.to_be_restored i = c.to_be_restored i) := by
  induction n with
  | zero =>
    intro c c1 h
    unfold restore_incremental_loop at h
    rw [← Except.ok.inj h]
    exact ⟨rfl, fun _ _ => ⟨rfl, rfl⟩, fun _ _ => rfl⟩
  | succ n ih =>
    intro c c1 h
    unfold restore_incremental_loop at h
    split_ifs at h with hp
    · rw [← Except.ok.inj h]
      exact ⟨rfl, fun _ _ => ⟨rfl, rfl⟩, fun _ _ => rfl⟩
    · split at h
      · cases h
      · rename_i c2 hc2
        obtain ⟨logged, a, t, hrec, hidx, hm, ht⟩ := hstep c c2 hc2
        obtain ⟨i1, i2, i3⟩ := ih c2 c1 h
        have hhdr : c2.m_state.tomalloc_state_hdr = c.m_state.tomalloc_state_hdr := by
          rw [hm]; rfl
        refine ⟨i1.trans hhdr, ?_, ?_⟩
        · intro i hi
          have hne : i ≠ logged.idx := by
            intro he
            exact hi logged (by rw [hrec]; exact List.mem_cons_self _ _) he.symm
          obtain ⟨j1, j2⟩ := i2 i (fun b hb => hi b (by rw [hrec]; exact List.mem_cons_of_mem _ hb))
          rw [j1, j2, hm, ht]
          exact ⟨by simp only [set_area, Function.update_noteq hne],
            Function.update_noteq hne _ _⟩
        · intro i hi
          have hmax : c2.m_state.max_num_areas = c.m_state.max_num_areas :=
            congrArg malloc_state_hdr.max_num_areas hhdr
          rw [i3 i (by rw [hmax]; exact hi), ht]
          exact Function.update_noteq (by omega) _ _

theorem restore_incremental_loop_bounds (step : IncCursor → Except Fatal IncCursor)
    (hstep : ∀ c c1, step c = Except.ok c1 →
      ∃ logged a t, area_records c.rest = logged :: area_records c1.rest ∧
        logged.idx < c.m_state.max_num_areas ∧
        c1.m_state = set_area c.m_state logged.idx a ∧
        c1.to_be_restored = Function.update c.to_be_restored logged.idx (some t))
    (herr : ∀ c, step c = Except.error Fatal.out_of_bounds →
      ∃ logged, logged ∈ area_records c.rest ∧ c.m_state.max_num_areas ≤ logged.idx)
    (size : Nat) (n : Nat) :
    ∀ (c : IncCursor), (∀ a, a ∈ area_records c.rest → a.idx < c.m_state.max_num_areas) →
      restore_incremental_loop step size n c ≠ Except.error Fatal.out_of_bounds := by
  induction n with
  | zero =>
    intro c _ h
    unfold restore_incremental_loop at h
    cases h
  | succ n ih =>
    intro c hc h
    unfold restore_incremental_loop at h
    split_ifs at h with hp
    split at h
    · rename_i e he
      rw [Except.error.inj h] at he
      obtain ⟨logged, hl, hge⟩ := herr c he
      have := hc logged hl
      omega
    · rename_i c2 hc2
      obtain ⟨logged, a, t, hrec, hidx, hm, ht⟩ := hstep c c2 hc2
      have hmax : c2.m_state.max_num_areas = c.m_state.max_num_areas := by
        rw [hm]; rfl
      refine ih c2 ?_ h
      intro b hb
      rw [hmax]
      exact hc b (by rw [hrec]; exact List.mem_cons_of_mem _ hb)

theorem restore_incremental_log_head (P : Platform) (ckpt : Ckpt) (m : malloc_state)
    (tbr : Nat → Option (Nat → Bool)) (r : malloc_state × (Nat → Option (Nat → Bool)))
    (h : restore_incremental_log P ckpt m tbr = Except.ok r) :
    r.1.tomalloc_state_hdr = m.tomalloc_state_hdr ∧
    (∀ i, (∀ a, a ∈ area_records ckpt.items → a.idx ≠ i) →
      r.1.areas i = m.areas i ∧ r.2 i = tbr i) ∧
    (∀ i, m.max_num_areas ≤ i → r.2 i = tbr i) := by
  unfold restore_incremental_log at h
  simp only at h
  split at h
  · cases h
  · rename_i c hc
    split_ifs at h
    rw [← Except.ok.inj h]
    exact restore_incremental_loop_head _ (restore_incremental_area_head P) _ _ _ c hc

theorem restore_incremental_full_head (P : Platform) (ckpt : Ckpt) (m : malloc_state)
    (tbr : Nat → Option (Nat → Bool)) (r : malloc_state × (Nat → Option (Nat → Bool)))
    (h : restore_incremental_full P ckpt m tbr = Except.ok r) :
    r.1.tomalloc_state_hdr = m.tomalloc_state_hdr ∧
    (∀ i, (∀ a, a ∈ area_records ckpt.items → a.idx ≠ i) →
      r.1.areas i = m.areas i ∧ r.2 i = tbr i) ∧
    (∀ i, m.max_num_areas ≤ i → r.2 i = tbr i) := by
  unfold restore_incremental_full at h
  simp only at h
  split at h
  · cases h
  · rename_i c hc
    split_ifs at h
    rw [← Except.ok.inj h]
    exact restore_incremental_loop_head _ (restore_incremental_full_area_head P) _ _ _ c hc

theorem restore_incremental_log_bounds (P : Platform) (ckpt : Ckpt) (m : malloc_state)
    (tbr : Nat → Option (Nat → Bool))
    (hb : ∀ a, a ∈ area_records ckpt.items → a.idx < m.max_num_areas) :
    restore_incremental_log P ckpt m tbr ≠ Except.error Fatal.out_of_bounds := by
  intro h
  unfold restore_incremental_log at h
  simp only at h
  split at h
  · rename_i e he
    rw [Except.error.inj h] at he
    exact restore_incremental_loop_bounds _ (restore_incremental_area_head P)
      (restore_incremental_area_bounds P) _ _ _ hb he
  · split_ifs at h
    cases h

theorem restore_incremental_full_bounds (P : Platform) (ckpt : Ckpt) (m : malloc_state)
    (tbr : Nat → Option (Nat → Bool))
    (hb : ∀ a, a ∈ area_records ckpt.items → a.idx < m.max_num_areas) :
    restore_incremental_full P ckpt m tbr ≠ Except.error Fatal.out_of_bounds := by
  intro h
  unfold restore_incremental_full at h
  simp only at h
  split at h
  · rename_i e he
    rw [Except.error.inj h] at he
    exact restore_incremental_loop_bounds _ (restore_incremental_full_area_head P)
      (restore_incremental_full_area_bounds P) _ _ _ hb he
  · split_ifs at h
    cases h

theorem blobs_read_cons (log : Ckpt) (prevs : List Ckpt) :
    blobs_read (log :: prevs) =
      if log.state.is_incremental = true then log :: blobs_read prevs else [log] := rfl

theorem restore_incremental_chain_head (P : Platform) (prevs : List Ckpt) :
    ∀ (log : Ckpt) (m : malloc_state) (tbr : Nat → Option (Nat → Bool))
      (r : malloc_state × (Nat → Option (Nat → Bool))),
      restore_incremental_chain P log prevs m tbr = Except.ok r →
      r.1.tomalloc_state_hdr = m.tomalloc_state_hdr ∧
      (∀ i, (∀ blob, blob ∈ blobs_read (log :: prevs) →
          ∀ a, a ∈ area_records blob.items → a.idx ≠ i) →
        r.1.areas i = m.areas i ∧ r.2 i = tbr i) ∧
      (∀ i, m.max_num_areas ≤ i → r.2 i = tbr i) := by
  induction prevs with
  | nil =>
    intro log m tbr r h
    rw [restore_incremental_chain_eq] at h
    rw [blobs_read_cons]
    split_ifs at h with hi
    · cases hl : restore_incremental_log P log m tbr with
      | error e => rw [hl] at h; cases h
      | ok r1 => rw [hl] at h; cases h
    · rw [if_neg hi]
      obtain ⟨i1, i2, i3⟩ := restore_incremental_full_head P log m tbr r h
      exact ⟨i1, fun i hx => i2 i (hx log (List.mem_singleton_self _)), i3⟩
  | cons q qs ih =>
    intro log m tbr r h
    rw [restore_incremental_chain_eq] at h
    rw [blobs_read_cons]
    split_ifs at h with hi
    · rw [if_pos hi]
      cases hl : restore_incremental_log P log m tbr with
      | error e => rw [hl] at h; cases h
      | ok r1 =>
        rw [hl] at h
        simp only at h
        obtain ⟨i1, i2, i3⟩ := restore_incremental_log_head P log m tbr r1 hl
        obtain ⟨j1, j2, j3⟩ := ih q r1.1 r1.2 r h
        have hmax : r1.1.max_num_areas = m.max_num_areas :=
          congrArg malloc_state_hdr.max_num_areas i1
        refine ⟨j1.trans i1, ?_, ?_⟩
        · intro i hx
          obtain ⟨k1, k2⟩ := i2 i (hx log (List.mem_cons_self _ _))
          obtain ⟨k3, k4⟩ := j2 i (fun blob hb => hx blob (List.mem_cons_of_mem _ hb))
          exact ⟨k3.trans k1, k4.trans k2⟩
        · intro i hx
          rw [j3 i (by rw [hmax]; exact hx), i3 i hx]
    · rw [if_neg hi]
      obtain ⟨i1, i2, i3⟩ := restore_incremental_full_head P log m tbr r h
      exact ⟨i1, fun i hx => i2 i (hx log (List.mem_singleton_self _)), i3⟩

theorem restore_incremental_chain_bounds (P : Platform) (prevs : List Ckpt) :
    ∀ (log : Ckpt) (m : malloc_state) (tbr : Nat → Option (Nat → Bool)),
      (∀ blob, blob ∈ blobs_read (log :: prevs) →
        ∀ a, a ∈ area_records blob.items → a.idx < m.max_num_areas) →
      restore_incremental_chain P log prevs m tbr ≠ Except.error Fatal.out_of_bounds := by
  induction prevs with
  | nil =>
    intro log m tbr hb h
    rw [restore_incremental_chain_eq] at h
    rw [blobs_read_cons] at hb
    split_ifs at h with hi
    · rw [if_pos hi] at hb
      cases hl : restore_incremental_log P log m tbr with
      | error e =>
        rw [hl] at h
        simp only at h
        rw [Except.error.inj h] at hl
        exact restore_incremental_log_bounds P log m tbr (hb log (List.mem_cons_self _ _)) hl
      | ok r1 => rw [hl] at h; cases h
    · rw [if_neg hi] at hb
      exact restore_incremental_full_bounds P log m tbr (hb log (List.mem_singleton_self _)) h
  | cons q qs ih =>
    intro log m tbr hb h
    rw [restore_incremental_chain_eq] at h
    rw [blobs_read_cons] at hb
    split_ifs at h with hi
    · rw [if_pos hi] at hb
      cases hl : restore_incremental_log P log m tbr with
      | error e =>
        rw [hl] at h
        simp only at h
        rw [Except.error.inj h] at hl
        exact restore_incremental_log_bounds P log m tbr (hb log (List.mem_cons_self _ _)) hl
      | ok r1 =>
        rw [hl] at h
        simp only at h
        obtain ⟨i1, _, _⟩ := restore_incremental_log_head P log m tbr r1 hl
        have hmax : r1.1.max_num_areas = m.max_num_areas :=
          congrArg malloc_state_hdr.max_num_areas i1
        refine ih q r1.1 r1.2 ?_ h
        intro blob hblob a ha
        rw [hmax]
        exact hb blob (List.mem_cons_of_mem _ hblob) a ha
    · rw [if_neg hi] at hb
      exact restore_incremental_full_bounds P log m tbr (hb log (List.mem_singleton_self _)) h

/-! ## The loop over the trailing areas on two memory maps -/

/-- C7: `log_state` hands back a full log (header `is_incremental = false`,
the result of `log_full`) whenever the force-full flag of the LP is set or
the configured snapshot mode is Full, and an incremental log (header
`is_incremental = true`, the result of `log_incremental`) otherwise; in
every case the force-full flag is false when `log_state` returns. -/
theorem log_state_mode (P : Platform) (snapshot : Snapshot) (lp : lp_struct)
    (r : lp_struct × Ckpt) (h : log_state P snapshot lp = Except.ok r) :
    (lp.state_log_full_forced = true ∨ snapshot = Snapshot.SNAPSHOT_FULL →
      log_full P { lp with state_log_full_forced := false } = Except.ok r ∧
      r.2.state.is_incremental = false) ∧
    (¬ (lp.state_log_full_forced = true ∨ snapshot = Snapshot.SNAPSHOT_FULL) →
      log_incremental P lp = Except.ok r ∧ r.2.state.is_incremental = true) ∧
    r.1.state_log_full_forced = false := by
  rw [log_state_eq] at h
  by_cases hc : lp.state_log_full_forced = true ∨ snapshot = Snapshot.SNAPSHOT_FULL
  · rw [if_pos hc] at h
    obtain ⟨hr, _⟩ := log_full_inv P _ r h
    refine ⟨fun _ => ⟨h, ?_⟩, fun hn => absurd hc hn, ?_⟩
    · rw [hr]; rfl
    · rw [hr]; rfl
  · rw [if_neg hc] at h
    obtain ⟨hr, _⟩ := log_incremental_inv P _ r h
    refine ⟨fun hp => absurd hp hc, fun _ => ⟨h, ?_⟩, ?_⟩
    · rw [hr]; rfl
    · rw [hr]
      simp only [lp_after_inc]
      have hc2 : lp.state_log_full_forced = false ∧ ¬ snapshot = Snapshot.SNAPSHOT_FULL := by
        simpa using hc
      exact hc2.1

/-- Scenario S4: with the force-full flag set and the incremental mode
configured, the checkpoint of the LP of S1 is a full log and the flag is
cleared. -/
theorem log_state_mode_witness :
    (ok_or (log_state plat Snapshot.SNAPSHOT_INCREMENTAL (set_force_full s1_lp))
        (s1_lp, ckpt_full plat s1_lp)).2.state.is_incremental = false ∧
    (ok_or (log_state plat Snapshot.SNAPSHOT_INCREMENTAL (set_force_full s1_lp))
        (s1_lp, ckpt_full plat s1_lp)).1.state_log_full_forced = false :=
  have h := log_state_mode plat Snapshot.SNAPSHOT_INCREMENTAL (set_force_full s1_lp)
    (ok_or (log_state plat Snapshot.SNAPSHOT_INCREMENTAL (set_force_full s1_lp))
        (s1_lp, ckpt_full plat s1_lp)) rfl
  ⟨(h.1 (Or.inl rfl)).2, h.2.2⟩

theorem items_size_flatMap (P : Platform) (f : Nat → List Item) (l : List Nat) :
    items_size P (l.flatMap f) = (l.map (fun i => items_size P (f i))).sum := by
  induction l with
  | nil => rfl
  | cons x l ih => simp [List.flatMap_cons, items_size_append, ih]

theorem full_items_size (P : Platform) (m : malloc_state) (hpop : alloc_is_popcount P m) :
    P.sizeof_malloc_state + items_size P (full_items P m) = full_log_sum P m := by
  unfold full_items full_log_sum
  rw [items_size_flatMap]
  congr 2
  apply List.map_congr_left
  intro i hi
  have hi2 : i < m.num_areas := by simpa using hi
  rw [full_area_items_size, area_full_size, ← hpop i hi2]

theorem log_full_returns (P : Platform) (lp : lp_struct)
    (hpop : alloc_is_popcount P lp.m_state) :
    log_full P lp = Except.ok (lp_after_full P lp, ckpt_full P lp) := by
  rw [log_full_eq2, if_neg]
  rw [full_items_size P lp.m_state hpop]
  simp [get_log_size, full_log_sum]

theorem s1_popcount (t : Nat) :
    alloc_is_popcount plat { s1_state with total_log_size := t } := by
  intro i hi
  have h0 : i = 0 := Nat.lt_one_iff.mp hi
  subst h0
  show s1_area.alloc_chunks = popcount s1_area.use_bitmap (plat.bitmap_required_size 8)
  decide

/-- C8: for every LP in which `alloc_chunks` is the popcount of the use bitmap
in every area, the bytes that `log_full` writes (the cursor it reaches) are
the header size plus, over the areas with `alloc_chunks > 0`, the area header
size, `bitmap_required_size(num_chunks)` and the payload
(`num_chunks * chunk_size` for a LOG_MODE area, `alloc_chunks * chunk_size`
otherwise, with the untagged chunk size); the precomputed size being that
sum, the check at the end passes and `log_full` returns the checkpoint. -/
theorem log_full_size (P : Platform) (lp : lp_struct)
    (hpop : alloc_is_popcount P lp.m_state) :
    log_full P lp = Except.ok (lp_after_full P lp, ckpt_full P lp) ∧
    (ckpt_full P lp).bytes_written P = full_log_sum P lp.m_state := by
  exact ⟨log_full_returns P lp hpop, full_items_size P lp.m_state hpop⟩

/-- Scenario S1: one area of 8 chunks, chunks 0, 2, 4 allocated: the full
log has the header, the area header, the bitmap and 3 chunks. -/
theorem log_full_size_witness :
    log_full plat s1_lp = Except.ok (lp_after_full plat s1_lp, ckpt_full plat s1_lp) ∧
    (ckpt_full plat s1_lp).bytes_written plat = 40 + (48 + 1 + 3 * 16) :=
  log_full_size plat s1_lp (s1_popcount 137)

/-- C9, as stated, fails: `log_incremental` sets `is_incremental` in the
checkpoint only.  After an incremental checkpoint of the LP of S1 the log is
incremental and the live `is_incremental` field is still false. -/
theorem log_state_live_flag_counterexample :
    log_state plat Snapshot.SNAPSHOT_INCREMENTAL s1_lp =
      Except.ok (ok_or (log_state plat Snapshot.SNAPSHOT_INCREMENTAL s1_lp)
        (s1_lp, ckpt_full plat s1_lp)) ∧
    (ok_or (log_state plat Snapshot.SNAPSHOT_INCREMENTAL s1_lp)
        (s1_lp, ckpt_full plat s1_lp)).2.state.is_incremental = true ∧
    (ok_or (log_state plat Snapshot.SNAPSHOT_INCREMENTAL s1_lp)
        (s1_lp, ckpt_full plat s1_lp)).1.m_state.is_incremental = false :=
  ⟨rfl, rfl, rfl⟩

/-- C9, amended: after a checkpoint returns, the live `is_incremental` field
is false if the log just produced is a full log and has the value it had
before the checkpoint if the log is incremental (the flag of an incremental
log is set in the header of the checkpoint only). -/
theorem log_state_live_flag (P : Platform) (snapshot : Snapshot) (lp : lp_struct)
    (r : lp_struct × Ckpt) (h : log_state P snapshot lp = Except.ok r) :
    (r.2.state.is_incremental = false → r.1.m_state.is_incremental = false) ∧
    (r.2.state.is_incremental = true →
      r.1.m_state.is_incremental = lp.m_state.is_incremental) := by
  rw [log_state_eq] at h
  split_ifs at h with hc
  · obtain ⟨hr, _⟩ := log_full_inv P _ r h
    subst hr
    exact ⟨fun _ => rfl, fun hi => absurd hi (by simp [ckpt_full])⟩
  · obtain ⟨hr, _⟩ := log_incremental_inv P _ r h
    subst hr
    exact ⟨fun hi => absurd hi (by simp [ckpt_inc]), fun _ => rfl⟩

/-- Scenario S1: a full checkpoint leaves the live flag false. -/
theorem log_state_live_flag_witness :
    (lp_after_full plat s1_lp).m_state.is_incremental = false :=
  (log_state_live_flag plat Snapshot.SNAPSHOT_FULL s1_lp
    (lp_after_full plat s1_lp, ckpt_full plat s1_lp)
    (by rw [log_state_eq, if_pos (Or.inr rfl)]; exact log_full_returns plat _ (s1_popcount 137))).1
    rfl

/-! ## Claims on the restore functions -/

/-- C10 on the code: a full log is taken when the LP has 3 areas
(`max_num_areas = 3`); the LP then grows to 5 areas (`max_num_areas = 5`) and
is rolled back to that log.  `restore_full` copies the header of the log,
`max_num_areas` included, and then puts `num_areas` back to 5: it returns
with `max_num_areas = 3 < 5 = num_areas`, although `max_num_areas ≥ num_areas`
held in the live map and in the header of the log.  `restore_incremental`
does the same on an incremental log taken right after the full one. -/
theorem restore_shrinks_max_num_areas :
    log_full plat (empty_lp 3) =
      Except.ok (lp_after_full plat (empty_lp 3), ckpt_full plat (empty_lp 3)) ∧
    (empty_lp 5).m_state.num_areas ≤ (empty_lp 5).m_state.max_num_areas ∧
    (ckpt_full plat (empty_lp 3)).state.num_areas ≤
      (ckpt_full plat (empty_lp 3)).state.max_num_areas ∧
    restore_full plat (empty_lp 5) (ckpt_full plat (empty_lp 3)) =
      Except.ok (ok_or (restore_full plat (empty_lp 5) (ckpt_full plat (empty_lp 3))) (empty_lp 0)) ∧
    (ok_or (restore_full plat (empty_lp 5) (ckpt_full plat (empty_lp 3)))
      (empty_lp 0)).m_state.num_areas = 5 ∧
    (ok_or (restore_full plat (empty_lp 5) (ckpt_full plat (empty_lp 3)))
      (empty_lp 0)).m_state.max_num_areas = 3 ∧
    log_incremental plat (lp_after_full plat (empty_lp 3)) =
      Except.ok (lp_after_inc plat (lp_after_full plat (empty_lp 3)),
        ckpt_inc plat (lp_after_full plat (empty_lp 3))) ∧
    restore_incremental plat (empty_lp 5) (ckpt_inc plat (lp_after_full plat (empty_lp 3)))
        [ckpt_full plat (empty_lp 3)] =
      Except.ok (ok_or (restore_incremental plat (empty_lp 5)
        (ckpt_inc plat (lp_after_full plat (empty_lp 3))) [ckpt_full plat (empty_lp 3)])
        (empty_lp 0)) ∧
    (ok_or (restore_incremental plat (empty_lp 5)
        (ckpt_inc plat (lp_after_full plat (empty_lp 3))) [ckpt_full plat (empty_lp 3)])
        (empty_lp 0)).m_state.num_areas = 5 ∧
    (ok_or (restore_incremental plat (empty_lp 5)
        (ckpt_inc plat (lp_after_full plat (empty_lp 3))) [ckpt_full plat (empty_lp 3)])
        (empty_lp 0)).m_state.max_num_areas = 3 := by
  refine ⟨?_, by decide, by decide, rfl, rfl, rfl, ?_, rfl, rfl, rfl⟩
  · rw [log_full_eq2, if_neg]
    · decide
  · rw [log_incremental_eq, if_neg, if_neg]
    · decide
    · rintro ⟨j, hj, hb⟩
      exact absurd hb.2 (by simp [lp_after_full, clean_upto, clean_area, empty_lp, empty_area])

theorem popcount_zero (u : Nat → Bool) (n x : Nat) (h : popcount u n = 0) (hx : x < 8 * n) :
    u x = false := by
  unfold popcount at h
  have hnil : bitmap_set_bits u n = [] := List.length_eq_zero.mp h
  by_contra hne
  have hm : x ∈ bitmap_set_bits u n := (mem_bitmap_set_bits u n x).2 ⟨hx, by simpa using hne⟩
  rw [hnil] at hm
  exact absurd hm (List.not_mem_nil x)

theorem restore_one_unlogged (P : Platform) (s live : malloc_area) (t : Int)
    (h0 : s.alloc_chunks = 0) :
    (restore_one P s live t).alloc_chunks = 0 ∧ (restore_one P s live t).next_chunk = 0 ∧
    (restore_one P s live t).log_mode = false ∧ (restore_one P s live t).area_lock = false ∧
    (restore_one P s live t).dirty_chunks = 0 ∧ (restore_one P s live t).state_changed = 0 ∧
    (restore_one P s live t).last_access = t ∧
    (restore_one P s live t).num_chunks = live.num_chunks ∧
    (restore_one P s live t).chunk_size = live.chunk_size ∧
    (restore_one P s live t).has_bitmap = live.has_bitmap ∧
    (restore_one P s live t).area = live.area ∧
    (restore_one P s live t).use_bitmap =
      (if live.has_bitmap then
        bitmap_memset0 live.use_bitmap (P.bitmap_required_size live.num_chunks)
       else live.use_bitmap) := by
  unfold restore_one
  rw [if_pos h0]
  unfold reset_unlogged clean_area
  by_cases hb : live.has_bitmap = true <;> simp [hb]

theorem restore_one_logged (P : Platform) (s live : malloc_area) (t : Int)
    (h0 : s.alloc_chunks ≠ 0) :
    (restore_one P s live t).tomalloc_area_hdr =
      { s.tomalloc_area_hdr with state_changed := 0, dirty_chunks := 0 } ∧
    (∀ x, x < 8 * P.bitmap_required_size s.num_chunks →
      (restore_one P s live t).use_bitmap x = s.use_bitmap x) ∧
    (∀ x, allocated P s x → chunk P (restore_one P s live t) x = chunk P s x) := by
  unfold restore_one
  rw [if_neg h0]
  exact ⟨rfl, fun x hx => restore_logged_area_use P s live x hx,
    fun x hx => restore_logged_area_chunk P s live x hx⟩

/-- C1: full round trip.  For every LP in which each area slot `i` has
`idx = i` and `alloc_chunks` is the popcount of the use bitmap, the live
`total_log_size` field being the size that `get_log_size` returns for the
full log, `log_full` returns a checkpoint and `restore_full` of that
checkpoint, applied at once, returns and leaves the payload of every
allocated chunk byte-identical to what it was before the checkpoint, and
every area's use bitmap and `alloc_chunks` unchanged. -/
theorem full_round_trip (P : Platform) (lp : lp_struct)
    (hidx : idx_is_slot lp.m_state) (hpop : alloc_is_popcount P lp.m_state)
    (hsize : lp.m_state.total_log_size = get_log_size P lp.m_state) :
    log_full P lp = Except.ok (lp_after_full P lp, ckpt_full P lp) ∧
    restore_full P (lp_after_full P lp) (ckpt_full P lp) =
      Except.ok { lp_after_full P lp with
        m_state := restored_full P lp (lp_after_full P lp) } ∧
    (restored_full P lp (lp_after_full P lp)).num_areas = lp.m_state.num_areas ∧
    ∀ i, i < lp.m_state.num_areas →
      ((restored_full P lp (lp_after_full P lp)).areas i).alloc_chunks =
        (lp.m_state.areas i).alloc_chunks ∧
      (∀ x, x < 8 * P.bitmap_required_size (lp.m_state.areas i).num_chunks →
        ((restored_full P lp (lp_after_full P lp)).areas i).use_bitmap x =
          (lp.m_state.areas i).use_bitmap x) ∧
      (∀ x, allocated P (lp.m_state.areas i) x →
        chunk P ((restored_full P lp (lp_after_full P lp)).areas i) x =
          chunk P (lp.m_state.areas i) x) := by
  have hlog := log_full_returns P lp hpop
  have hsz : lp.m_state.total_log_size =
      P.sizeof_malloc_state + items_size P (full_items P lp.m_state) := by
    rw [hsize, (log_full_inv P lp _ hlog).2]
  have hlive : ∀ j, j < lp.m_state.num_areas →
      (lp_after_full P lp).m_state.areas j = clean_area P (lp.m_state.areas j) := by
    intro j hj
    simp [lp_after_full, clean_upto, hj]
  have hle : (lp_after_full P lp).m_state.num_areas ≤ lp.m_state.num_areas := Nat.le_refl _
  refine ⟨hlog, ?_, ?_, ?_⟩
  · apply restore_full_of_log_full P lp (lp_after_full P lp) hsz hidx
    · intro j hj
      rw [hlive j hj]
      exact hidx j hj
    · intro j hj
      rw [hlive j hj]
      rfl
  · rw [show (restored_full P lp (lp_after_full P lp)).num_areas =
      (restored_full P lp (lp_after_full P lp)).tomalloc_state_hdr.num_areas from rfl,
      restored_full_hdr P lp _ hle]
  · intro i hi
    rw [restored_full_area P lp _ hle i hi, hlive i hi]
    by_cases h0 : (lp.m_state.areas i).alloc_chunks = 0
    · obtain ⟨e1, -, -, -, -, -, -, -, e9, -, e11, e12⟩ :=
        restore_one_unlogged P (lp.m_state.areas i) (clean_area P (lp.m_state.areas i)) lp.lvt h0
      have hz : popcount (lp.m_state.areas i).use_bitmap
          (P.bitmap_required_size (lp.m_state.areas i).num_chunks) = 0 := by
        rw [← hpop i hi, h0]
      refine ⟨by rw [e1, h0], ?_, ?_⟩
      · intro x hx
        rw [e12]
        have hxf := popcount_zero _ _ x hz hx
        by_cases hb : (clean_area P (lp.m_state.areas i)).has_bitmap = true
        · rw [if_pos hb]
          have hx2 : x < 8 * P.bitmap_required_size
              (clean_area P (lp.m_state.areas i)).num_chunks := hx
          simp only [bitmap_memset0, hx2, if_true]
          exact hxf.symm
        · rw [if_neg hb]
          rfl
      · intro x _
        unfold chunk
        rw [e9, e11]
        rfl
    · obtain ⟨e1, e2, e3⟩ :=
        restore_one_logged P (lp.m_state.areas i) (clean_area P (lp.m_state.areas i)) lp.lvt h0
      refine ⟨?_, e2, e3⟩
      show (restore_one P (lp.m_state.areas i) (clean_area P (lp.m_state.areas i))
        lp.lvt).tomalloc_area_hdr.alloc_chunks = _
      rw [e1]

/-- Scenario S1: full checkpoint and restore at once; chunks 0, 2, 4 stay
allocated and chunk 2 is still filled with `0xAA`. -/
theorem full_round_trip_witness :
    ((restored_full plat s1_lp (lp_after_full plat s1_lp)).areas 0).alloc_chunks = 3 ∧
    chunk plat ((restored_full plat s1_lp (lp_after_full plat s1_lp)).areas 0) 2 =
      List.replicate 16 170 :=
  have h := (full_round_trip plat s1_lp
    (fun i hi => by
      have h0 : i = 0 := Nat.lt_one_iff.mp hi
      subst h0
      rfl)
    (s1_popcount 137) (by decide)).2.2.2 0 (by decide)
  ⟨h.1, (h.2.2 2 (by decide)).trans (by decide)⟩

/-- C2, as stated, fails on an area without allocated chunks: `log_full`
leaves it out of the log and `restore_full` resets what it finds in that
slot.  The LP has one area with `alloc_chunks = 0` and `next_chunk = 1`; it
is checkpointed and right away rolled back to that checkpoint: the area ends
with `next_chunk = 0`, not with the `next_chunk = 1` it had. -/
theorem full_rollback_counterexample :
    log_full plat freed_lp = Except.ok (lp_after_full plat freed_lp, ckpt_full plat freed_lp) ∧
    freed_lp.m_state.total_log_size = get_log_size plat freed_lp.m_state ∧
    restore_full plat (lp_after_full plat freed_lp) (ckpt_full plat freed_lp) =
      Except.ok (ok_or (restore_full plat (lp_after_full plat freed_lp)
        (ckpt_full plat freed_lp)) s1_lp) ∧
    (freed_lp.m_state.areas 0).next_chunk = 1 ∧
    ((ok_or (restore_full plat (lp_after_full plat freed_lp)
        (ckpt_full plat freed_lp)) s1_lp).m_state.areas 0).next_chunk = 0 := by
  refine ⟨?_, by decide, rfl, rfl, rfl⟩
  apply log_full_returns
  intro i hi
  have h0 : i = 0 := Nat.lt_one_iff.mp hi
  subst h0
  show freed_area.alloc_chunks = popcount freed_area.use_bitmap (plat.bitmap_required_size 8)
  decide

/-- C2, amended: let `ckpt` be the checkpoint `log_full` produced from the LP
`s`, in which each slot `i` holds the area of index `i` and the live
`total_log_size` field held the size of the full log, and let `live` be any
state of the LP with the same number of areas and, per slot, the same `idx`
and `num_chunks`.  Then `restore_full` of `ckpt` into `live` returns, and
in the state it leaves every area that had `alloc_chunks > 0` in `s` has the
use bitmap, `alloc_chunks`, `next_chunk` and flags it had in `s` and every
chunk allocated in `s` holds the bytes it held in `s`, while an area that had
`alloc_chunks = 0` in `s` is empty: `alloc_chunks = 0`, `next_chunk = 0`,
LOG_MODE and AREA_LOCK cleared, use bitmap all-zero, payload as in `live`. -/
theorem full_rollback (P : Platform) (s live s1 : lp_struct) (ckpt : Ckpt)
    (hlog : log_full P s = Except.ok (s1, ckpt))
    (hidx : idx_is_slot s.m_state)
    (hsize : s.m_state.total_log_size = get_log_size P s.m_state)
    (hn : live.m_state.num_areas = s.m_state.num_areas)
    (hlay : ∀ i, i < s.m_state.num_areas →
      (live.m_state.areas i).idx = (s.m_state.areas i).idx ∧
      (live.m_state.areas i).num_chunks = (s.m_state.areas i).num_chunks) :
    restore_full P live ckpt = Except.ok { live with m_state := restored_full P s live } ∧
    ∀ i, i < s.m_state.num_areas →
      ((s.m_state.areas i).alloc_chunks ≠ 0 →
        ((restored_full P s live).areas i).alloc_chunks = (s.m_state.areas i).alloc_chunks ∧
        ((restored_full P s live).areas i).next_chunk = (s.m_state.areas i).next_chunk ∧
        ((restored_full P s live).areas i).log_mode = (s.m_state.areas i).log_mode ∧
        ((restored_full P s live).areas i).area_lock = (s.m_state.areas i).area_lock ∧
        (∀ x, x < 8 * P.bitmap_required_size (s.m_state.areas i).num_chunks →
          ((restored_full P s live).areas i).use_bitmap x = (s.m_state.areas i).use_bitmap x) ∧
        (∀ x, allocated P (s.m_state.areas i) x →
          chunk P ((restored_full P s live).areas i) x = chunk P (s.m_state.areas i) x)) ∧
      ((s.m_state.areas i).alloc_chunks = 0 →
        ((restored_full P s live).areas i).alloc_chunks = 0 ∧
        ((restored_full P s live).areas i).next_chunk = 0 ∧
        ((restored_full P s live).areas i).log_mode = false ∧
        ((restored_full P s live).areas i).area_lock = false ∧
        use_bitmap_zero P ((restored_full P s live).areas i) ∧
        ((restored_full P s live).areas i).area = (live.m_state.areas i).area) := by
  obtain ⟨hr, hgs⟩ := log_full_inv P s _ hlog
  have hck : ckpt = ckpt_full P s := (Prod.mk.inj hr).2
  subst hck
  have hsz : s.m_state.total_log_size =
      P.sizeof_malloc_state + items_size P (full_items P s.m_state) := by
    rw [hsize, hgs]
  have hle : live.m_state.num_areas ≤ s.m_state.num_areas := by omega
  refine ⟨?_, ?_⟩
  · apply restore_full_of_log_full P s live hsz hidx
    · intro j hj
      rw [(hlay j hj).1]
      exact hidx j hj
    · intro j hj
      exact (hlay j hj).2
  · intro i hi
    rw [restored_full_area P s live hle i hi]
    constructor
    · intro h0
      obtain ⟨e1, e2, e3⟩ :=
        restore_one_logged P (s.m_state.areas i) (live.m_state.areas i) s.lvt h0
      have ha : (restore_one P (s.m_state.areas i) (live.m_state.areas i) s.lvt).alloc_chunks =
          (s.m_state.areas i).alloc_chunks := by
        show (restore_one P (s.m_state.areas i) (live.m_state.areas i)
          s.lvt).tomalloc_area_hdr.alloc_chunks = _
        rw [e1]
      have hb : (restore_one P (s.m_state.areas i) (live.m_state.areas i) s.lvt).next_chunk =
          (s.m_state.areas i).next_chunk := by
        show (restore_one P (s.m_state.areas i) (live.m_state.areas i)
          s.lvt).tomalloc_area_hdr.next_chunk = _
        rw [e1]
      have hc : (restore_one P (s.m_state.areas i) (live.m_state.areas i) s.lvt).log_mode =
          (s.m_state.areas i).log_mode := by
        show (restore_one P (s.m_state.areas i) (live.m_state.areas i)
          s.lvt).tomalloc_area_hdr.log_mode = _
        rw [e1]
      have hd : (restore_one P (s.m_state.areas i) (live.m_state.areas i) s.lvt).area_lock =
          (s.m_state.areas i).area_lock := by
        show (restore_one P (s.m_state.areas i) (live.m_state.areas i)
          s.lvt).tomalloc_area_hdr.area_lock = _
        rw [e1]
      exact ⟨ha, hb, hc, hd, e2, e3⟩
    · intro h0
      obtain ⟨e1, e2, e3, e4, -, -, -, e8, -, e10, e11, e12⟩ :=
        restore_one_unlogged P (s.m_state.areas i) (live.m_state.areas i) s.lvt h0
      refine ⟨e1, e2, e3, e4, ?_, e11⟩
      intro hb x hx
      rw [e10] at hb
      rw [e8] at hx
      rw [e12, if_pos hb]
      simp [bitmap_memset0, hx]

/-- Scenario S1: after the full checkpoint chunk 2 is overwritten with `0xBB`
and chunk 0 is freed; the rollback to the checkpoint brings back the three
allocated chunks and the `0xAA` bytes of chunk 2. -/
theorem full_rollback_witness :
    ((restored_full plat s1_lp s1_lp_later).areas 0).alloc_chunks = 3 ∧
    ((restored_full plat s1_lp s1_lp_later).areas 0).use_bitmap 0 = true ∧
    chunk plat ((restored_full plat s1_lp s1_lp_later).areas 0) 2 = List.replicate 16 170 :=
  have h := ((full_rollback plat s1_lp s1_lp_later (lp_after_full plat s1_lp)
    (ckpt_full plat s1_lp) (log_full_returns plat s1_lp (s1_popcount 137))
    (fun i hi => by
      have h0 : i = 0 := Nat.lt_one_iff.mp hi
      subst h0
      rfl)
    (by decide) rfl
    (fun i _ => ⟨rfl, rfl⟩)).2 0 (by decide)).1 (by decide)
  ⟨h.1, (h.2.2.2.2.1 0 (by decide)).trans (by decide),
    (h.2.2.2.2.2 2 (by decide)).trans (by decide)⟩

theorem chain_recs_split (incs : List (List malloc_area)) (frecs pre post : List malloc_area)
    (a : malloc_area) (hsplit : incs.flatten = pre ++ a :: post) (i : Nat) (hidx : a.idx = i) :
    (chain_recs incs frecs).filter (fun r => decide (r.2.idx = i)) =
      (pre.map (fun b => ((false, b) : Rec))).filter (fun r => decide (r.2.idx = i)) ++
        ((false, a) : Rec) ::
          ((post.map (fun b => ((false, b) : Rec)) ++
            frecs.map (fun b => ((true, b) : Rec))).filter (fun r => decide (r.2.idx = i))) := by
  unfold chain_recs
  rw [hsplit]
  simp [List.filter_append, hidx]

/-- C4: newest wins.  The chain is the incremental logs `incs` (newest
first) and the full log `full`, each holding records that fit the map being
restored; `a` is a record of an incremental log for the area `i` in which
chunk `c` is dirty, `pre` are the records that `restore_incremental` reads
before it (those of newer logs), and in none of them that is for area `i`
chunk `c` is dirty; `b0` is the first record for area `i` that is read (the
one of the newest log that mentions the area), and bit `c` of its use bitmap
is set.  Then `restore_incremental` returns and chunk `c` of the area holds
the payload that `a` stores for it, whatever the older incremental logs and
the full log store for `c`. -/
theorem newest_wins (P : Platform) (nc : Nat → Nat) (lp : lp_struct)
    (incs : List (Ckpt × List malloc_area)) (full : Ckpt) (frecs : List malloc_area)
    (older : List Ckpt) (node : Ckpt) (prevs : List Ckpt)
    (hchain : node :: prevs = incs.map Prod.fst ++ full :: older)
    (hincs : ∀ p, p ∈ incs → is_inc_log P p.1 p.2 ∧ recs_fit P nc node.state p.2)
    (hfull : is_full_log P full frecs) (hfit : recs_fit P nc node.state frecs)
    (i c cs : Nat) (pre post : List malloc_area) (a b0 : malloc_area)
    (hsplit : (incs.map Prod.snd).flatten = pre ++ a :: post)
    (hidx : a.idx = i) (hdirty : offers P (false, a) c)
    (hnewest : ∀ b, b ∈ pre → b.idx = i → ¬ offers P (false, b) c)
    (hfirst : (pre ++ [a]).find? (fun b => decide (b.idx = i)) = some b0)
    (huse : use_bit P b0 c = true)
    (hcs : ∀ r, r ∈ chain_recs (incs.map Prod.snd) frecs → r.2.idx = i →
      P.untagged_chunk_size r.2.chunk_size = cs) :
    restore_incremental P lp node prevs =
      Except.ok { lp with
        m_state := restored_inc P lp node.state (incs.map Prod.snd) frecs } ∧
    read_bytes ((restored_inc P lp node.state (incs.map Prod.snd) frecs).areas i).area
        (c * cs) cs = chunk P a c := by
  refine ⟨restore_incremental_spec P nc lp incs full frecs older node prevs hchain hincs hfull
    hfit, ?_⟩
  have hcsa : P.untagged_chunk_size a.chunk_size = cs := by
    apply hcs (false, a) _ hidx
    unfold chain_recs
    rw [hsplit]
    simp
  unfold chunk
  rw [hcsa]
  apply read_bytes_congr
  intro j hj
  have hfilter := chain_recs_split (incs.map Prod.snd) frecs pre post a hsplit i hidx
  rw [restored_inc_bytes, hfilter]
  apply foldl_step_newest P _ _ (false, a) _ c cs
  · intro r hr
    have hmem : r ∈ (chain_recs (incs.map Prod.snd) frecs).filter
        (fun r => decide (r.2.idx = i)) := by
      rw [hfilter]
      exact hr
    rw [List.mem_filter] at hmem
    exact hcs r hmem.1 (by simpa using hmem.2)
  · intro r hr
    rw [List.mem_filter, List.mem_map] at hr
    obtain ⟨⟨b, hb, hbr⟩, hri⟩ := hr
    subst hbr
    exact hnewest b hb (by simpa using hri)
  · exact hdirty
  · rw [head_filter_find pre a b0 i hidx hfirst]
    exact huse
  · omega
  · omega

theorem s5_inc_log (lp : lp_struct) (a : malloc_area)
    (h1 : (ckpt_inc plat lp).items = inc_area_items plat a)
    (h2 : (ckpt_inc plat lp).state.total_inc_size =
      plat.sizeof_malloc_state + items_size plat (ckpt_inc plat lp).items)
    (h3 : a.state_changed ≠ 0) : is_inc_log plat (ckpt_inc plat lp) [a] := by
  refine ⟨rfl, ?_, h2, ?_⟩
  · rw [h1]
    simp
  · intro b hb
    have : b = a := by simpa using hb
    rw [this]
    exact h3

theorem s5_fit (h : malloc_state_hdr) (a : malloc_area) (hn : 1 ≤ h.num_areas)
    (hok : rec_ok plat (fun _ => 8) h.max_num_areas a) : recs_fit plat (fun _ => 8) h [a] := by
  refine ⟨hn, ?_⟩
  intro b hb
  have : b = a := by simpa using hb
  rw [this]
  exact hok

theorem s1_rec_ok (u : Nat → Nat) (d : Nat → Bool) :
    rec_ok plat (fun _ => 8) 1 { s1_area with area := u, dirty_bitmap := d } := by
  refine ⟨Nat.zero_lt_one, rfl, ?_⟩
  intro x hx _
  have h8 : 8 * plat.bitmap_required_size 8 = 8 := by decide
  have hx8 : x < 8 * plat.bitmap_required_size 8 := hx
  rw [h8] at hx8
  exact hx8

/-- Scenario S5: a chain of a full log and two incremental logs that both
hold chunk 2 of area 0, filled with `0xBB` in the older and with `0xCC` in
the newer one; the restore at the newer log leaves `0xCC` in chunk 2. -/
theorem newest_wins_witness :
    read_bytes ((restored_inc plat s1_lp_later (ckpt_inc plat s5_lp2).state
        [[s5_area2], [s5_area1]] [s1_area]).areas 0).area (2 * 16) 16 =
      List.replicate 16 204 :=
  ((newest_wins plat (fun _ => 8) s1_lp_later
    [(ckpt_inc plat s5_lp2, [s5_area2]), (ckpt_inc plat s5_lp1, [s5_area1])]
    (ckpt_full plat s1_lp) [s1_area] [] (ckpt_inc plat s5_lp2)
    [ckpt_inc plat s5_lp1, ckpt_full plat s1_lp] rfl
    (by
      intro p hp
      simp only [List.mem_cons, List.mem_singleton, List.not_mem_nil, or_false] at hp
      rcases hp with h | h
      · rw [h]
        exact ⟨s5_inc_log s5_lp2 s5_area2 rfl (by decide) (by decide),
          s5_fit _ _ (by decide) (s1_rec_ok _ _)⟩
      · rw [h]
        exact ⟨s5_inc_log s5_lp1 s5_area1 rfl (by decide) (by decide),
          s5_fit _ _ (by decide) (s1_rec_ok _ _)⟩)
    ⟨rfl, rfl, by decide, by
      intro b hb
      have : b = s1_area := by simpa using hb
      rw [this]
      decide⟩
    (s5_fit _ _ (by decide) (s1_rec_ok _ _))
    0 2 16 [] [s5_area1] s5_area2 s5_area2 rfl rfl (by decide)
    (by intro b hb; simp at hb) rfl (by decide)
    (by
      intro r hr _
      simp only [chain_recs, List.map_cons, List.map_nil, List.flatten_cons, List.flatten_nil,
        List.singleton_append, List.cons_append, List.nil_append, List.mem_cons,
        List.mem_singleton, List.not_mem_nil, or_false] at hr
      rcases hr with h | h | h <;> rw [h] <;> rfl)).2).trans (by decide)

theorem run_well_formed (s : lp_struct) (hn : s.m_state.num_areas = 1)
    (hidx : (s.m_state.areas 0).idx = 0) (hnc : (s.m_state.areas 0).num_chunks = 8) :
    well_formed plat 1 s := by
  refine ⟨hn, ?_, ?_⟩
  · intro i hi
    rw [hn] at hi
    have h0 : i = 0 := Nat.lt_one_iff.mp hi
    subst h0
    exact hidx
  · intro i hi x hx _
    have h0 : i = 0 := Nat.lt_one_iff.mp hi
    subst h0
    rw [hnc] at hx ⊢
    have h8 : 8 * plat.bitmap_required_size 8 = 8 := by decide
    rw [h8] at hx
    exact hx

theorem run_log_incremental (a : malloc_area) (t : Int) (hsc : a.state_changed ≠ 0)
    (hsize : plat.sizeof_malloc_state + items_size plat (inc_area_items plat a) = 106) :
    log_incremental plat { m_state := { s1_state with areas := fun _ => a },
                           state_log_full_forced := false, lvt := t } =
      Except.ok (lp_after_inc plat { m_state := { s1_state with areas := fun _ => a },
                                     state_log_full_forced := false, lvt := t },
        ckpt_inc plat { m_state := { s1_state with areas := fun _ => a },
                        state_log_full_forced := false, lvt := t }) := by
  rw [log_incremental_eq, if_neg, if_neg]
  · intro h
    apply h
    show plat.sizeof_malloc_state + items_size plat (inc_area_items plat a ++ []) = 106
    rw [List.append_nil]
    exact hsize
  · rintro ⟨j, _, hb⟩
    exact hsc hb.1

theorem run_log_full (a : malloc_area) (t : Int)
    (hpop : a.alloc_chunks = popcount a.use_bitmap (plat.bitmap_required_size a.num_chunks)) :
    log_full plat { m_state := { s1_state with areas := fun _ => a },
                    state_log_full_forced := false, lvt := t } =
      Except.ok (lp_after_full plat { m_state := { s1_state with areas := fun _ => a },
                                      state_log_full_forced := false, lvt := t },
        ckpt_full plat { m_state := { s1_state with areas := fun _ => a },
                         state_log_full_forced := false, lvt := t }) := by
  apply log_full_returns
  intro i _
  exact hpop

set_option maxRecDepth 100000

/-- C18: `log_incremental` stops with the fatal error "State unchanged and
dirty chunks" (`invariant_violation`) if and only if some area among the
first `num_areas` has `state_changed = 0` while `dirty_chunks ≠ 0`; hence it
never raises that error on a memory map in which `dirty_chunks > 0` implies
`state_changed = 1` for every area. -/
theorem log_incremental_invariant (P : Platform) (lp : lp_struct) :
    (log_incremental P lp = Except.error Fatal.invariant_violation ↔
      ∃ j, j < lp.m_state.num_areas ∧ (lp.m_state.areas j).state_changed = 0 ∧
        (lp.m_state.areas j).dirty_chunks ≠ 0) ∧
    ((∀ j, j < lp.m_state.num_areas → (lp.m_state.areas j).dirty_chunks > 0 →
        (lp.m_state.areas j).state_changed = 1) →
      log_incremental P lp ≠ Except.error Fatal.invariant_violation) := by
  have hiff : log_incremental P lp = Except.error Fatal.invariant_violation ↔
      ∃ j, j < lp.m_state.num_areas ∧ (lp.m_state.areas j).state_changed = 0 ∧
        (lp.m_state.areas j).dirty_chunks ≠ 0 := by
    rw [log_incremental_eq]
    constructor
    · intro h
      split_ifs at h with h1 h2
      · exact h1
      · cases h
    · intro h
      have h2 : ∃ j, j < lp.m_state.num_areas ∧ inc_bad (lp.m_state.areas j) := h
      rw [if_pos h2]
  refine ⟨hiff, ?_⟩
  intro hinv h
  obtain ⟨j, hj, hsc, hdc⟩ := hiff.1 h
  have h1 := hinv j hj (Nat.pos_of_ne_zero hdc)
  rw [hsc] at h1
  exact absurd h1 (by decide)

/-- The area `stale_area` has `state_changed = 0` and `dirty_chunks = 0`, so
the incremental checkpoint of its LP does not stop on the invariant. -/
theorem log_incremental_invariant_witness :
    log_incremental plat stale_lp ≠ Except.error Fatal.invariant_violation :=
  (log_incremental_invariant plat stale_lp).2 (by
    intro j _ hd
    exact absurd (show (0 : Nat) > 0 from hd) (by decide))

/-- C20: a checkpoint does not alter the allocation state or the contents.
When `log_full` or `log_incremental` returns, the memory map has the header
fields it had, `is_incremental` and `total_inc_size` apart (so `num_areas`
and `max_num_areas` are unchanged), and every area has the header fields it
had, `state_changed` and `dirty_chunks` apart (so `idx`, `num_chunks`,
`alloc_chunks`, `next_chunk`, `chunk_size` and the flags LOG_MODE and
AREA_LOCK are unchanged), the use bitmap it had and the bytes it had; the
other fields of the LP are unchanged too. -/
theorem checkpoint_frame (P : Platform) (lp : lp_struct) (r : lp_struct × Ckpt)
    (h : log_full P lp = Except.ok r ∨ log_incremental P lp = Except.ok r) :
    ({ r.1.m_state.tomalloc_state_hdr with is_incremental := false, total_inc_size := 0 } :
        malloc_state_hdr) =
      { lp.m_state.tomalloc_state_hdr with is_incremental := false, total_inc_size := 0 } ∧
    r.1.lvt = lp.lvt ∧ r.1.state_log_full_forced = lp.state_log_full_forced ∧
    ∀ i, cl (r.1.m_state.areas i).tomalloc_area_hdr = cl (lp.m_state.areas i).tomalloc_area_hdr ∧
      (r.1.m_state.areas i).log_mode = (lp.m_state.areas i).log_mode ∧
      (r.1.m_state.areas i).use_bitmap = (lp.m_state.areas i).use_bitmap ∧
      (r.1.m_state.areas i).area = (lp.m_state.areas i).area := by
  rcases h with h | h
  · obtain ⟨hr, _⟩ := log_full_inv P lp r h
    subst hr
    refine ⟨rfl, rfl, rfl, ?_⟩
    intro i
    simp only [lp_after_full, clean_upto]
    by_cases hi : i < lp.m_state.num_areas
    · rw [if_pos hi]
      exact ⟨rfl, rfl, rfl, rfl⟩
    · rw [if_neg hi]
      exact ⟨rfl, rfl, rfl, rfl⟩
  · obtain ⟨hr, _⟩ := log_incremental_inv P lp r h
    subst hr
    refine ⟨rfl, rfl, rfl, ?_⟩
    intro i
    simp only [lp_after_inc, inc_clean_range]
    by_cases hi : 0 ≤ i ∧ i < 0 + lp.m_state.num_areas
    · rw [if_pos hi]
      unfold inc_clean_area
      split_ifs <;> exact ⟨rfl, rfl, rfl, rfl⟩
    · rw [if_neg hi]
      exact ⟨rfl, rfl, rfl, rfl⟩

/-- Scenario S1: the full checkpoint leaves the three allocated chunks, the
LOG_MODE bit and the `0xAA` of chunk 2 as they were. -/
theorem checkpoint_frame_witness :
    ((lp_after_full plat s1_lp).m_state.areas 0).log_mode = s1_area.log_mode ∧
    ((lp_after_full plat s1_lp).m_state.areas 0).use_bitmap = s1_area.use_bitmap ∧
    ((lp_after_full plat s1_lp).m_state.areas 0).area = s1_area.area :=
  ((checkpoint_frame plat s1_lp (lp_after_full plat s1_lp, ckpt_full plat s1_lp)
    (Or.inl (log_full_returns plat s1_lp (s1_popcount 137)))).2.2.2 0).2

/-! ## Claims on the state that a restore leaves -/

/-- C11: trailing areas.  When the live map has more areas than the header of
the log says (`original_num_areas > num_areas` of the log), then after
`restore_full` or `restore_incremental` returns `num_areas` is
`original_num_areas` again and every area slot from the `num_areas` of the
log up to `original_num_areas` is empty: `alloc_chunks`, `next_chunk`,
`dirty_chunks` and `state_changed` are 0, LOG_MODE and AREA_LOCK are cleared,
no bit is set in the use bitmap and in the dirty bitmap, and `last_access` is
the timestamp of the log. -/
theorem trailing_areas (P : Platform) (lp : lp_struct) (blob : Ckpt) (prevs : List Ckpt)
    (r : lp_struct) (hgt : blob.state.num_areas < lp.m_state.num_areas)
    (h : restore_full P lp blob = Except.ok r ∨
      restore_incremental P lp blob prevs = Except.ok r) :
    r.m_state.num_areas = lp.m_state.num_areas ∧
    ∀ i, blob.state.num_areas ≤ i → i < lp.m_state.num_areas →
      emptied P blob.state.timestamp (r.m_state.areas i) := by
  obtain ⟨m, hm, hr⟩ := restore_result P lp blob prevs r h
  have hn : m.num_areas = blob.state.num_areas := congrArg malloc_state_hdr.num_areas hm
  have hts : m.timestamp = blob.state.timestamp := congrArg malloc_state_hdr.timestamp hm
  obtain ⟨h1, h2⟩ := reset_trailing_spec P lp.m_state.num_areas m (by rw [hn]; exact hgt)
  subst hr
  constructor
  · show (reset_trailing P lp.m_state.num_areas m).tomalloc_state_hdr.num_areas = _
    rw [h1]
  · intro i hi1 hi2
    have h3 := h2 i (by rw [hn]; exact hi1) hi2
    rw [hts] at h3
    exact h3

/-- The LP has two areas when the full log of S1, which has one, is restored:
the LP has two areas afterwards and the second one is empty, with the
timestamp 9 of the log as `last_access`. -/
theorem trailing_areas_witness :
    (ok_or (restore_full plat two_lp (ckpt_full plat s1_lp)) s1_lp).m_state.num_areas = 2 ∧
    emptied plat 9 ((ok_or (restore_full plat two_lp (ckpt_full plat s1_lp)) s1_lp).m_state.areas 1) :=
  have h := trailing_areas plat two_lp (ckpt_full plat s1_lp) []
    (ok_or (restore_full plat two_lp (ckpt_full plat s1_lp)) s1_lp) (by decide) (Or.inl rfl)
  ⟨h.1, h.2 1 (by decide) (by decide)⟩

/-- C13: the header after a restore.  `log_restore` goes through
`restore_full` when the header of the log has `is_incremental = false` and
through `restore_incremental` otherwise, and when it returns the live map has
`timestamp = -1`, `is_incremental = false` and
`total_inc_size = sizeof(malloc_state)`; the other fields of the LP are the
ones it had, and the array of areas is the live one: a log holds no array
of areas, and every slot beyond the `num_areas` and `max_num_areas` of the
log and the `num_areas` of the live map holds the area it held (up to the
field `next`, which the loop over the trailing areas writes through `prev`). -/
theorem log_restore_header (P : Platform) (lp : lp_struct) (node : Ckpt) (prevs : List Ckpt)
    (r : lp_struct) (h : log_restore P lp node prevs = Except.ok r) :
    (node.state.is_incremental = false → restore_full P lp node = Except.ok r) ∧
    (node.state.is_incremental = true → restore_incremental P lp node prevs = Except.ok r) ∧
    r.m_state.timestamp = -1 ∧ r.m_state.is_incremental = false ∧
    r.m_state.total_inc_size = P.sizeof_malloc_state ∧
    r.lvt = lp.lvt ∧ r.state_log_full_forced = lp.state_log_full_forced ∧
    ∀ i, node.state.num_areas ≤ i → node.state.max_num_areas ≤ i → lp.m_state.num_areas ≤ i →
      ∃ nx, r.m_state.areas i = { lp.m_state.areas i with next := nx } := by
  unfold log_restore at h
  have hres : restore_full P lp node = Except.ok r ∨
      restore_incremental P lp node prevs = Except.ok r := by
    split_ifs at h
    · exact Or.inr h
    · exact Or.inl h
  obtain ⟨m, _, hr⟩ := restore_result P lp node prevs r hres
  refine ⟨?_, ?_, ?_⟩
  · intro hi
    rw [if_neg (by rw [hi]; simp)] at h
    exact h
  · intro hi
    rw [if_pos hi] at h
    exact h
  · refine ⟨?_, ?_, ?_, ?_, ?_, ?_⟩
    · rw [hr]
      rfl
    · rw [hr]
      rfl
    · rw [hr]
      rfl
    · rw [hr]
    · rw [hr]
    · intro i h1 h2 h3
      exact restore_result_frame P lp node prevs r hres i h1 h2 h3

/-- Scenario S1: the rollback of the later state of the LP to the full
checkpoint leaves the sentinel timestamp, the flag `is_incremental` false and
`total_inc_size` at the 40 bytes of the header. -/
theorem log_restore_header_witness :
    (ok_or (log_restore plat s1_lp_later (ckpt_full plat s1_lp) []) s1_lp).m_state.timestamp = -1 ∧
    (ok_or (log_restore plat s1_lp_later (ckpt_full plat s1_lp) []) s1_lp).m_state.is_incremental =
      false ∧
    (ok_or (log_restore plat s1_lp_later (ckpt_full plat s1_lp) []) s1_lp).m_state.total_inc_size =
      40 :=
  have h := log_restore_header plat s1_lp_later (ckpt_full plat s1_lp) []
    (ok_or (log_restore plat s1_lp_later (ckpt_full plat s1_lp) []) s1_lp) rfl
  ⟨h.2.2.1, h.2.2.2.1, h.2.2.2.2.1⟩

/-- C12: an area that the log does not hold, in a full restore.  First part:
`restore_full` returns `r`, and when its loop reaches the slot `i` (below
the `num_areas` of the log) with the cursor `c`, the log is exhausted
(`c.ptr` has reached `total_log_size`) or the next record is for another
`idx` than that of the live area.  Then the area ends empty (`emptied`:
`alloc_chunks = 0`, `next_chunk = 0`, LOG_MODE and AREA_LOCK cleared, use
bitmap all-zero, dirty tracking cleared, `last_access` at the timestamp of
the log), its bytes are those of the live area, and the loop goes on to the
slot `i + 1` with the cursor where it was.  Second part: for a state `s` in
which every slot `i` holds the area of index `i` and whose full log declares
its size, `log_full` writes no record for an area with `alloc_chunks = 0`,
and `restore_full` of that log into a state `live` with the same slots
returns and leaves the bytes of that area as they are in `live`. -/
theorem unlogged_area (P : Platform) :
    (∀ (lp : lp_struct) (blob : Ckpt) (r : lp_struct) (i : Nat) (c : RestoreCursor),
      restore_full P lp blob = Except.ok r → i < blob.state.num_areas →
      restore_full_loop P blob.state.total_log_size i 0
        { m_state := { lp.m_state with tomalloc_state_hdr := blob.state },
          ptr := P.sizeof_malloc_state, rest := blob.items } = Except.ok c →
      (c.ptr ≥ blob.state.total_log_size ∨
        ∃ logged tl, c.rest = Item.hdr logged :: tl ∧ (lp.m_state.areas i).idx ≠ logged.idx) →
      emptied P blob.state.timestamp (r.m_state.areas i) ∧
      (r.m_state.areas i).area = (lp.m_state.areas i).area ∧
      ∃ c1, restore_full_loop P blob.state.total_log_size (i + 1) 0
          { m_state := { lp.m_state with tomalloc_state_hdr := blob.state },
            ptr := P.sizeof_malloc_state, rest := blob.items } = Except.ok c1 ∧
        c1.ptr = c.ptr ∧ c1.rest = c.rest) ∧
    (∀ (s live s1 : lp_struct) (ckpt : Ckpt) (i : Nat),
      log_full P s = Except.ok (s1, ckpt) → idx_is_slot s.m_state →
      s.m_state.total_log_size = get_log_size P s.m_state →
      i < s.m_state.num_areas → (s.m_state.areas i).alloc_chunks = 0 →
      (∀ j, j < s.m_state.num_areas → (live.m_state.areas j).idx = j ∧
        (live.m_state.areas j).num_chunks = (s.m_state.areas j).num_chunks) →
      (∀ h, Item.hdr h ∈ ckpt.items → h.idx ≠ i) ∧
      ∃ r, restore_full P live ckpt = Except.ok r ∧
        (r.m_state.areas i).area = (live.m_state.areas i).area) := by
  constructor
  · intro lp blob r i c hret hi hc hun
    obtain ⟨cf, hcf, hr⟩ := restore_full_inv P lp blob r hret
    obtain ⟨hch, hcframe⟩ := restore_full_loop_frame P _ _ 0 _ c hc
    have hci : c.m_state.areas i = lp.m_state.areas i := hcframe i (Or.inr (by omega))
    have hun2 : c.ptr ≥ blob.state.total_log_size ∨
        ∃ h tl, c.rest = Item.hdr h :: tl ∧ (c.m_state.areas i).idx ≠ h.idx := by
      rw [hci]
      exact hun
    have hstep := restore_full_area_unlogged P blob.state.total_log_size c i hun2
    have hsplit := restore_full_loop_split P blob.state.total_log_size i
      (blob.state.num_areas - i) 0
      { m_state := { lp.m_state with tomalloc_state_hdr := blob.state },
        ptr := P.sizeof_malloc_state, rest := blob.items }
    rw [show i + (blob.state.num_areas - i) = blob.state.num_areas by omega, hc, hcf] at hsplit
    simp only [Nat.zero_add] at hsplit
    obtain ⟨k, hk⟩ : ∃ k, blob.state.num_areas - i = k + 1 := ⟨blob.state.num_areas - i - 1, by omega⟩
    rw [hk] at hsplit
    have e1 : restore_full_loop P blob.state.total_log_size (k + 1) i c =
        match restore_full_area P blob.state.total_log_size c i with
        | Except.error e => Except.error e
        | Except.ok c1 => restore_full_loop P blob.state.total_log_size k (i + 1) c1 := rfl
    rw [e1, hstep] at hsplit
    simp only at hsplit
    obtain ⟨hfh, hfframe⟩ := restore_full_loop_frame P _ _ _ _ cf hsplit.symm
    have hcfi : cf.m_state.areas i =
        reset_unlogged (clean_area P (lp.m_state.areas i))
          (P.bitmap_required_size (lp.m_state.areas i).num_chunks) blob.state.timestamp := by
      rw [hfframe i (Or.inl (Nat.lt_succ_self i))]
      simp only [set_area, Function.update_same]
      rw [hci]
      have hts : c.m_state.timestamp = blob.state.timestamp :=
        congrArg malloc_state_hdr.timestamp hch
      rw [hts]
    have hcfts : cf.m_state.timestamp = blob.state.timestamp := by
      have h1 : cf.m_state.tomalloc_state_hdr = c.m_state.tomalloc_state_hdr := hfh
      have h2 := congrArg malloc_state_hdr.timestamp (h1.trans hch)
      exact h2
    refine ⟨?_, ?_, ?_⟩
    · subst hr
      show emptied P blob.state.timestamp
        ((reset_trailing P lp.m_state.num_areas cf.m_state).areas i)
      rw [← hcfts]
      apply reset_trailing_keeps_emptied
      rw [hcfts, hcfi]
      exact reset_unlogged_emptied P _ _
    · subst hr
      show ((reset_trailing P lp.m_state.num_areas cf.m_state).areas i).area = _
      rw [reset_trailing_bytes, hcfi, reset_unlogged_area]
    · have hsplit2 := restore_full_loop_split P blob.state.total_log_size i 1 0
        { m_state := { lp.m_state with tomalloc_state_hdr := blob.state },
          ptr := P.sizeof_malloc_state, rest := blob.items }
      rw [hc] at hsplit2
      simp only [Nat.zero_add] at hsplit2
      have e2 : restore_full_loop P blob.state.total_log_size 1 i c =
          match restore_full_area P blob.state.total_log_size c i with
          | Except.error e => Except.error e
          | Except.ok c1 => Except.ok c1 := by
        unfold restore_full_loop
        cases restore_full_area P blob.state.total_log_size c i with
        | error e => rfl
        | ok c2 => rfl
      rw [e2, hstep] at hsplit2
      exact ⟨_, hsplit2, rfl, rfl⟩
  · intro s live s1 ckpt i hlog hidx hsize hi h0 hlay
    obtain ⟨hr, hinv⟩ := log_full_inv P s _ hlog
    have hck : ckpt = ckpt_full P s := congrArg Prod.snd hr
    subst hck
    constructor
    · intro h hm
      have hm2 : Item.hdr h ∈ (List.range s.m_state.num_areas).flatMap
          (fun j => full_area_items P (s.m_state.areas j)) := hm
      rw [List.mem_flatMap] at hm2
      obtain ⟨j, hj, hjm⟩ := hm2
      obtain ⟨hne, hid⟩ := hdr_item_of_area P _ h hjm
      rw [List.mem_range] at hj
      rw [hid, hidx j hj]
      intro hji
      rw [hji] at hne
      exact hne h0
    · have hres := restore_full_of_log_full P s live (by rw [hsize]; exact hinv) hidx
        (fun j hj => (hlay j hj).1) (fun j hj => (hlay j hj).2)
      refine ⟨_, hres, ?_⟩
      show ((restored_full P s live).areas i).area = _
      unfold restored_full
      have h1 : ∀ m : malloc_state, ((finish_restore P m).areas i).area = (m.areas i).area :=
        fun _ => rfl
      rw [h1, reset_trailing_bytes]
      simp only [restored_range]
      rw [if_pos ⟨Nat.zero_le i, by omega⟩]
      exact (restore_one_unlogged P _ _ _ h0).2.2.2.2.2.2.2.2.2.2.1

/-- The later state of scenario S1 is rolled back to the full log of an LP
whose only area was empty at the checkpoint: the log is exhausted when the
loop reaches slot 0, the area ends empty and its bytes are those of the live
state. -/
theorem unlogged_area_witness :
    emptied plat 1 ((ok_or (restore_full plat s1_lp_later (ckpt_full plat freed_lp))
      s1_lp).m_state.areas 0) ∧
    ((ok_or (restore_full plat s1_lp_later (ckpt_full plat freed_lp)) s1_lp).m_state.areas 0).area =
      (s1_lp_later.m_state.areas 0).area :=
  have h := (unlogged_area plat).1 s1_lp_later (ckpt_full plat freed_lp)
    (ok_or (restore_full plat s1_lp_later (ckpt_full plat freed_lp)) s1_lp) 0
    { m_state := { s1_lp_later.m_state with tomalloc_state_hdr := (ckpt_full plat freed_lp).state },
      ptr := plat.sizeof_malloc_state, rest := (ckpt_full plat freed_lp).items }
    rfl (by decide) rfl (Or.inl (by decide))
  ⟨h.1, h.2.1⟩

/-! ## Claims on the errors of the restore -/

/-- C16, as stated, fails for `restore_full`, which has no sanity check on the
cursor.  The header of the full log of S1 is made to declare 1000 bytes; the
loop of `restore_full` reads the only record and ends with the cursor at
offset 137, and `restore_full` returns. -/
theorem corrupt_layout_counterexample :
    declared_size oversized_full = 1000 ∧
    restore_full_loop plat 1000 1 0
        { m_state := { s1_lp_later.m_state with tomalloc_state_hdr := oversized_full.state },
          ptr := plat.sizeof_malloc_state, rest := oversized_full.items } =
      Except.ok (ok_or (restore_full_loop plat 1000 1 0
        { m_state := { s1_lp_later.m_state with tomalloc_state_hdr := oversized_full.state },
          ptr := plat.sizeof_malloc_state, rest := oversized_full.items })
        { m_state := s1_state, ptr := 0, rest := [] }) ∧
    (ok_or (restore_full_loop plat 1000 1 0
        { m_state := { s1_lp_later.m_state with tomalloc_state_hdr := oversized_full.state },
          ptr := plat.sizeof_malloc_state, rest := oversized_full.items })
        { m_state := s1_state, ptr := 0, rest := [] }).ptr = 137 ∧
    restore_full plat s1_lp_later oversized_full =
      Except.ok (ok_or (restore_full plat s1_lp_later oversized_full) s1_lp) :=
  ⟨by decide, rfl, by decide, rfl⟩

/-- C16, amended: the sanity check of `restore_incremental`.  The walk starts
at the log `node`; the logs `pre` before `blob` in reading order are
incremental and pass; the loop over the records of `blob` (the loop for an
incremental log or the one for the full log) ends with the cursor `c`, and
`c.ptr` is not the size that the header of `blob` declares (`total_inc_size`
for an incremental log, `total_log_size` for the full log).  Then
`restore_incremental` stops with the fatal error `corrupt_layout`. -/
theorem corrupt_layout_chain (P : Platform) (lp : lp_struct) (node : Ckpt) (prevs : List Ckpt)
    (pre : List Ckpt) (blob : Ckpt) (older : List Ckpt)
    (st : malloc_state × (Nat → Option (Nat → Bool))) (c : IncCursor)
    (hchain : node :: prevs = pre ++ blob :: older)
    (hpre : ∀ l, l ∈ pre → l.state.is_incremental = true)
    (hwalk : restore_incremental_logs P pre
      ({ lp.m_state with tomalloc_state_hdr := node.state }, fun _ => none) = Except.ok st)
    (hparse : parse_log P blob st.1 st.2 = Except.ok c)
    (hsize : c.ptr ≠ declared_size blob) :
    restore_incremental P lp node prevs = Except.error Fatal.corrupt_layout := by
  have h1 := chain_walk P pre blob older hpre node prevs
    ({ lp.m_state with tomalloc_state_hdr := node.state }, fun _ => none) hchain
  rw [hwalk] at h1
  simp only at h1
  rw [parse_mismatch P blob older st c hparse hsize] at h1
  unfold restore_incremental
  simp only
  rw [h1]

/-- The newest incremental log of scenario S5 declares 200 bytes and holds
106: the restore stops with `corrupt_layout`. -/
theorem corrupt_layout_chain_witness :
    restore_incremental plat s1_lp_later oversized_inc
      [ckpt_inc plat s5_lp1, ckpt_full plat s1_lp] = Except.error Fatal.corrupt_layout :=
  corrupt_layout_chain plat s1_lp_later oversized_inc
    [ckpt_inc plat s5_lp1, ckpt_full plat s1_lp] [] oversized_inc
    [ckpt_inc plat s5_lp1, ckpt_full plat s1_lp]
    ({ s1_lp_later.m_state with tomalloc_state_hdr := oversized_inc.state }, fun _ => none)
    (ok_or (parse_log plat oversized_inc
        { s1_lp_later.m_state with tomalloc_state_hdr := oversized_inc.state } (fun _ => none))
      { m_state := s1_state, to_be_restored := fun _ => none, ptr := 0, rest := [] })
    rfl (fun l hl => by simp at hl) rfl rfl (by decide)

/-- C17: the walk along the queue.  `restore_incremental` is given the log of
the node and the finite list `prevs` of the logs before it, and it reads
them one after the other, each at most once.  Either every log of the queue
from the node back is incremental: then `restore_incremental` does not
return, and it stops with `corrupt_chain` when all the logs pass their
sanity checks.  Or the queue is `incs ++ full :: older` with `incs`
incremental and `full` the nearest full log: then the result is the one of
the passes over `incs` followed by the pass over `full`
(`restore_at_full`), whatever the logs `older` are. -/
theorem chain_walk_ends (P : Platform) (lp : lp_struct) (node : Ckpt) (prevs : List Ckpt) :
    ((∀ b, b ∈ node :: prevs → b.state.is_incremental = true) ∨
      ∃ incs full older, node :: prevs = incs ++ full :: older ∧
        (∀ b, b ∈ incs → b.state.is_incremental = true) ∧
        full.state.is_incremental = false) ∧
    ((∀ b, b ∈ node :: prevs → b.state.is_incremental = true) →
      (∀ r, restore_incremental P lp node prevs ≠ Except.ok r) ∧
      ∀ st, restore_incremental_logs P (node :: prevs)
          ({ lp.m_state with tomalloc_state_hdr := node.state }, fun _ => none) =
            Except.ok st →
        restore_incremental P lp node prevs = Except.error Fatal.corrupt_chain) ∧
    (∀ incs full older, node :: prevs = incs ++ full :: older →
      (∀ b, b ∈ incs → b.state.is_incremental = true) → full.state.is_incremental = false →
      restore_incremental P lp node prevs = restore_at_full P lp node.state incs full) := by
  refine ⟨chain_split (node :: prevs), ?_, ?_⟩
  · intro hall
    have h1 := chain_walk_no_full P prevs node
      ({ lp.m_state with tomalloc_state_hdr := node.state }, fun _ => none) hall
    constructor
    · intro r hr
      unfold restore_incremental at hr
      simp only at hr
      rw [h1] at hr
      cases hw : restore_incremental_logs P (node :: prevs)
          ({ lp.m_state with tomalloc_state_hdr := node.state }, fun _ => none) with
      | error e =>
        rw [hw] at hr
        cases hr
      | ok st =>
        rw [hw] at hr
        cases hr
    · intro st hst
      unfold restore_incremental
      simp only
      rw [h1, hst]
  · intro incs full older hchain hincs hfull
    have h1 := chain_walk P incs full older hincs node prevs
      ({ lp.m_state with tomalloc_state_hdr := node.state }, fun _ => none) hchain
    unfold restore_incremental restore_at_full
    simp only
    rw [h1]
    cases hw : restore_incremental_logs P incs
        ({ lp.m_state with tomalloc_state_hdr := node.state }, fun _ => none) with
    | error e => rfl
    | ok st =>
      simp only
      rw [restore_incremental_chain_eq, if_neg (by rw [hfull]; simp)]

/-- Scenario S5 without its full log: both logs of the queue are incremental
and pass, and the restore stops with `corrupt_chain`. -/
theorem chain_walk_ends_witness :
    restore_incremental plat s1_lp_later (ckpt_inc plat s5_lp2) [ckpt_inc plat s5_lp1] =
      Except.error Fatal.corrupt_chain :=
  ((chain_walk_ends plat s1_lp_later (ckpt_inc plat s5_lp2) [ckpt_inc plat s5_lp1]).2.1
    (by
      intro b hb
      simp only [List.mem_cons, List.mem_singleton, List.not_mem_nil, or_false] at hb
      rcases hb with h | h <;> rw [h] <;> rfl)).2
    (ok_or (restore_incremental_logs plat [ckpt_inc plat s5_lp2, ckpt_inc plat s5_lp1]
        ({ s1_lp_later.m_state with tomalloc_state_hdr := (ckpt_inc plat s5_lp2).state },
          fun _ => none))
      (s1_state, fun _ => none)) rfl

/-- C19: wholesale round trip.  In the state `s` every slot holds the area of
its index and the full log declares its size; the area in slot `i` has the
LOG_MODE bit set and `alloc_chunks > 0`.  Then the log that `log_full`
returns holds, as one payload, all the `num_chunks * chunk_size` bytes of
the area, and `restore_full` of that log into any state `live` with the same
slots returns and brings every byte of the area, and so every chunk whether
its use bit is set or not, back to what it was in `s`. -/
theorem wholesale_round_trip (P : Platform) (s live s1 : lp_struct) (ckpt : Ckpt) (i : Nat)
    (hlog : log_full P s = Except.ok (s1, ckpt)) (hidx : idx_is_slot s.m_state)
    (hsize : s.m_state.total_log_size = get_log_size P s.m_state)
    (hi : i < s.m_state.num_areas) (hlm : (s.m_state.areas i).log_mode = true)
    (h0 : (s.m_state.areas i).alloc_chunks ≠ 0)
    (hlay : ∀ j, j < s.m_state.num_areas → (live.m_state.areas j).idx = j ∧
      (live.m_state.areas j).num_chunks = (s.m_state.areas j).num_chunks) :
    Item.bytes (read_bytes (s.m_state.areas i).area 0
        ((s.m_state.areas i).num_chunks *
          P.untagged_chunk_size (s.m_state.areas i).chunk_size)) ∈ ckpt.items ∧
    ∃ r, restore_full P live ckpt = Except.ok r ∧
      (∀ b, b < (s.m_state.areas i).num_chunks *
          P.untagged_chunk_size (s.m_state.areas i).chunk_size →
        (r.m_state.areas i).area b = (s.m_state.areas i).area b) ∧
      ∀ c, c < (s.m_state.areas i).num_chunks →
        chunk P (r.m_state.areas i) c = chunk P (s.m_state.areas i) c := by
  obtain ⟨hr, hinv⟩ := log_full_inv P s _ hlog
  have hck : ckpt = ckpt_full P s := congrArg Prod.snd hr
  subst hck
  constructor
  · show _ ∈ (List.range s.m_state.num_areas).flatMap
      (fun j => full_area_items P (s.m_state.areas j))
    rw [List.mem_flatMap]
    refine ⟨i, List.mem_range.2 hi, ?_⟩
    unfold full_area_items
    rw [if_neg h0, if_pos hlm]
    simp
  · have hres := restore_full_of_log_full P s live (by rw [hsize]; exact hinv) hidx
      (fun j hj => (hlay j hj).1) (fun j hj => (hlay j hj).2)
    have harea : ((restored_full P s live).areas i).area =
        fun a => if 0 ≤ a ∧ a < 0 + (s.m_state.areas i).num_chunks *
            P.untagged_chunk_size (s.m_state.areas i).chunk_size
          then (s.m_state.areas i).area a else (live.m_state.areas i).area a := by
      unfold restored_full
      have h1 : ∀ m : malloc_state, ((finish_restore P m).areas i).area = (m.areas i).area :=
        fun _ => rfl
      rw [h1, reset_trailing_bytes]
      simp only [restored_range]
      rw [if_pos ⟨Nat.zero_le i, by omega⟩]
      unfold restore_one
      rw [if_neg h0]
      simp only [restore_logged_area, hlm, if_true]
      rw [write_bytes_read_bytes]
    have hcs : ((restored_full P s live).areas i).chunk_size = (s.m_state.areas i).chunk_size := by
      unfold restored_full
      have h1 : ∀ m : malloc_state, ((finish_restore P m).areas i) = (m.areas i) :=
        fun _ => rfl
      rw [h1]
      obtain ⟨nx, hnx⟩ := reset_trailing_other P live.m_state.num_areas
        (restored_range P s.m_state
          { live.m_state with tomalloc_state_hdr := (ckpt_full P s).state } 0
          s.m_state.num_areas) i (Or.inl hi)
      rw [hnx]
      show (((restored_range P s.m_state
          { live.m_state with tomalloc_state_hdr := (ckpt_full P s).state } 0
          s.m_state.num_areas).areas i)).chunk_size = _
      simp only [restored_range]
      rw [if_pos ⟨Nat.zero_le i, by omega⟩]
      unfold restore_one
      rw [if_neg h0]
      rfl
    refine ⟨_, hres, ?_, ?_⟩
    · intro b hb
      show ((restored_full P s live).areas i).area b = _
      rw [harea]
      simp only
      rw [if_pos ⟨Nat.zero_le b, by omega⟩]
    · intro c hc
      show chunk P ((restored_full P s live).areas i) c = _
      unfold chunk
      rw [hcs]
      apply read_bytes_congr
      intro j hj
      rw [harea]
      simp only
      rw [if_pos]
      refine ⟨Nat.zero_le _, ?_⟩
      have := Nat.mul_le_mul_right (P.untagged_chunk_size (s.m_state.areas i).chunk_size)
        (Nat.succ_le_of_lt hc)
      rw [Nat.succ_mul] at this
      omega

/-- Scenario S3: area 1 has 2 chunks of 64 bytes and LOG_MODE set; after the
full checkpoint every byte of it is overwritten; the restore brings back
chunk 1, which was not allocated at the checkpoint, to the bytes it held. -/
theorem wholesale_round_trip_witness :
    ∃ r, restore_full plat s3_live (ckpt_full plat s3_lp) = Except.ok r ∧
      chunk plat (r.m_state.areas 1) 1 = chunk plat s3_area1 1 := by
  obtain ⟨-, r, h1, -, h3⟩ := wholesale_round_trip plat s3_lp s3_live (lp_after_full plat s3_lp)
    (ckpt_full plat s3_lp) 1
    (log_full_returns plat s3_lp (by
      intro i hi
      have h2 : i = 0 ∨ i = 1 := by
        have : i < 2 := hi
        omega
      rcases h2 with h | h <;> subst h <;> decide))
    (by
      intro i hi
      have h2 : i = 0 ∨ i = 1 := by
        have : i < 2 := hi
        omega
      rcases h2 with h | h <;> subst h <;> rfl)
    (by decide) (by decide) rfl (by decide)
    (by
      intro j hj
      have h2 : j = 0 ∨ j = 1 := by
        have : j < 2 := hj
        omega
      rcases h2 with h | h <;> subst h <;> exact ⟨rfl, rfl⟩)
  exact ⟨r, h1, h3 1 (by decide)⟩

/-! ## Claims on what the chain decides for an area -/

/-- C14, as stated, fails for an area that a log of the chain mentions but
that lies at or beyond the `num_areas` of the newest log while the live map
still has it: the loop over the trailing areas empties it.  The newest log is
the incremental log of a state with one area in two slots and has no record;
the full log before it has a record for the area of index 1 with three
allocated chunks; the live map has two areas.  `restore_incremental` returns
and area 1 ends with `alloc_chunks = 0`, not with the 3 of the record. -/
theorem authoritative_membership_counterexample :
    log_incremental plat near_lp = Except.ok (lp_after_inc plat near_lp, ckpt_inc plat near_lp) ∧
    (ckpt_inc plat near_lp).items = [] ∧
    (ckpt_full plat far_lp).items.head? =
      some (Item.hdr (cl (far_lp.m_state.areas 1).tomalloc_area_hdr)) ∧
    (far_lp.m_state.areas 1).idx = 1 ∧ (far_lp.m_state.areas 1).alloc_chunks = 3 ∧
    restore_incremental plat two_lp (ckpt_inc plat near_lp) [ckpt_full plat far_lp] =
      Except.ok (ok_or (restore_incremental plat two_lp (ckpt_inc plat near_lp)
        [ckpt_full plat far_lp]) s1_lp) ∧
    ((ok_or (restore_incremental plat two_lp (ckpt_inc plat near_lp)
        [ckpt_full plat far_lp]) s1_lp).m_state.areas 1).alloc_chunks = 0 := by
  refine ⟨?_, rfl, rfl, rfl, rfl, rfl, by decide⟩
  rw [log_incremental_eq, if_neg, if_neg]
  · decide
  · rintro ⟨j, _, hb⟩
    exact hb.2 rfl

/-- C14, amended: authoritative membership.  The chain is the incremental
logs `incs` (newest first) and the full log `full`, each holding records that
fit the map being restored; `r0` is the first record for the area `i` in
reading order (the record of the newest log that mentions the area), and the
area is not a trailing one: `i` is below the `num_areas` of the newest log,
or the live map has no area `i`.  Then `restore_incremental` returns, and the
area `i` has the `alloc_chunks`, `next_chunk`, `num_chunks`, `chunk_size`,
flags and `last_access` of `r0`, `state_changed = 0`, `dirty_chunks = 0`, the
use bitmap of `r0` and no bit set in the dirty bitmap. -/
theorem authoritative_membership (P : Platform) (nc : Nat → Nat) (lp : lp_struct)
    (incs : List (Ckpt × List malloc_area)) (full : Ckpt) (frecs : List malloc_area)
    (older : List Ckpt) (node : Ckpt) (prevs : List Ckpt)
    (hchain : node :: prevs = incs.map Prod.fst ++ full :: older)
    (hincs : ∀ p, p ∈ incs → is_inc_log P p.1 p.2 ∧ recs_fit P nc node.state p.2)
    (hfull : is_full_log P full frecs) (hfit : recs_fit P nc node.state frecs)
    (i : Nat) (pre post : List Rec) (r0 : Rec)
    (hsplit : chain_recs (incs.map Prod.snd) frecs = pre ++ r0 :: post)
    (hidx : r0.2.idx = i) (hfirst : ∀ b, b ∈ pre → b.2.idx ≠ i)
    (hnt : i < node.state.num_areas ∨ lp.m_state.num_areas ≤ i) :
    ∃ A, restore_incremental P lp node prevs = Except.ok A ∧
      (A.m_state.areas i).alloc_chunks = r0.2.alloc_chunks ∧
      (A.m_state.areas i).next_chunk = r0.2.next_chunk ∧
      (A.m_state.areas i).num_chunks = r0.2.num_chunks ∧
      (A.m_state.areas i).chunk_size = r0.2.chunk_size ∧
      (A.m_state.areas i).log_mode = r0.2.log_mode ∧
      (A.m_state.areas i).area_lock = r0.2.area_lock ∧
      (A.m_state.areas i).last_access = r0.2.last_access ∧
      (A.m_state.areas i).state_changed = 0 ∧ (A.m_state.areas i).dirty_chunks = 0 ∧
      ∀ c, c < 8 * P.bitmap_required_size r0.2.num_chunks →
        (A.m_state.areas i).use_bitmap c = r0.2.use_bitmap c ∧
        (A.m_state.areas i).dirty_bitmap c = false := by
  refine ⟨_, restore_incremental_spec P nc lp incs full frecs older node prevs hchain hincs
    hfull hfit, ?_⟩
  obtain ⟨nx, hnx⟩ := restored_inc_area P lp node.state (incs.map Prod.snd) frecs i hnt
  have hA : ∀ X : malloc_state, ({ lp with m_state := X } : lp_struct).m_state = X :=
    fun _ => rfl
  rw [hA, hnx, hsplit, filter_split_first pre post r0 i hidx hfirst]
  obtain ⟨e1, e2, e3⟩ := foldl_step_first P r0
    (post.filter (fun r => decide (r.2.idx = i))) (lp.m_state.areas i, none) rfl
  refine ⟨?_, ?_, ?_, ?_, ?_, ?_, ?_, ?_, ?_, ?_⟩
  · have h := congrArg malloc_area_hdr.alloc_chunks e1
    exact h
  · have h := congrArg malloc_area_hdr.next_chunk e1
    exact h
  · have h := congrArg malloc_area_hdr.num_chunks e1
    exact h
  · have h := congrArg malloc_area_hdr.chunk_size e1
    exact h
  · have h := congrArg malloc_area_hdr.log_mode e1
    exact h
  · have h := congrArg malloc_area_hdr.area_lock e1
    exact h
  · have h := congrArg malloc_area_hdr.last_access e1
    exact h
  · have h := congrArg malloc_area_hdr.state_changed e1
    exact h
  · have h := congrArg malloc_area_hdr.dirty_chunks e1
    exact h
  · intro c hc
    constructor
    · show (List.foldl (step_rec P) (lp.m_state.areas i, none)
        (r0 :: post.filter (fun r => decide (r.2.idx = i)))).1.use_bitmap c = _
      rw [e2, write_read_bitmap, if_pos hc]
    · show (List.foldl (step_rec P) (lp.m_state.areas i, none)
        (r0 :: post.filter (fun r => decide (r.2.idx = i)))).1.dirty_bitmap c = _
      rw [e3]
      simp only [bitmap_memset0]
      rw [if_pos hc]

theorem s2_rec_ok (h : malloc_area_hdr) (u : Nat → Nat) (b d : Nat → Bool)
    (hidx : h.idx = 0) (hnc : h.num_chunks = 8) :
    rec_ok plat (fun _ => 8) 1
      { tomalloc_area_hdr := h, use_bitmap := b, dirty_bitmap := d, area := u } := by
  refine ⟨by rw [hidx]; exact Nat.zero_lt_one, hnc, ?_⟩
  intro x hx _
  have hx8 : x < 8 * plat.bitmap_required_size h.num_chunks := hx
  rw [hnc] at hx8
  have h8 : 8 * plat.bitmap_required_size 8 = 8 := by decide
  rw [h8] at hx8
  show x < h.num_chunks
  rw [hnc]
  exact hx8

/-- Scenario S2: the full log of S1 has chunks 0, 2, 4 allocated, the
incremental log is taken after chunk 0 was freed and chunk 6 allocated; the
restore at the incremental log leaves three chunks allocated, 2, 4 and 6,
and chunk 0 free. -/
theorem authoritative_membership_witness :
    ∃ A, restore_incremental plat s2_live (ckpt_inc plat s2_lp) [ckpt_full plat s1_lp] =
        Except.ok A ∧
      (A.m_state.areas 0).alloc_chunks = 3 ∧
      (A.m_state.areas 0).use_bitmap 0 = false ∧ (A.m_state.areas 0).use_bitmap 2 = true ∧
      (A.m_state.areas 0).use_bitmap 4 = true ∧ (A.m_state.areas 0).use_bitmap 6 = true := by
  obtain ⟨A, h1, h2, -, -, -, -, -, -, -, -, h3⟩ :=
    authoritative_membership plat (fun _ => 8) s2_live
      [(ckpt_inc plat s2_lp, [s2_area])] (ckpt_full plat s1_lp) [s1_area] []
      (ckpt_inc plat s2_lp) [ckpt_full plat s1_lp] rfl
      (by
        intro p hp
        simp only [List.mem_singleton] at hp
        rw [hp]
        exact ⟨s5_inc_log s2_lp s2_area rfl (by decide) (by decide),
          s5_fit _ _ (by decide) (s2_rec_ok _ _ _ _ rfl rfl)⟩)
      ⟨rfl, rfl, by decide, by
        intro b hb
        have : b = s1_area := by simpa using hb
        rw [this]
        decide⟩
      (s5_fit _ _ (by decide) (s2_rec_ok _ _ _ _ rfl rfl))
      0 [] [(true, s1_area)] (false, s2_area) rfl rfl (by intro b hb; simp at hb)
      (Or.inl (by decide))
  exact ⟨A, h1, h2, (h3 0 (by decide)).1, (h3 2 (by decide)).1, (h3 4 (by decide)).1,
    (h3 6 (by decide)).1⟩

/-- C15, as stated, fails in its last part for an area that is logged in the
full log, is mentioned by no incremental log, and lies at or beyond the
`num_areas` of the newest log while the live map still has it.  In the chain
of the incremental log of `near_lp` and the full log of `far_lp`, bit 2 of
the use bitmap of area 1 is set in the full log, and after
`restore_incremental` it is not set. -/
theorem full_log_baseline_counterexample :
    (ckpt_inc plat near_lp).items = [] ∧
    (ckpt_full plat far_lp).items.head? =
      some (Item.hdr (cl (far_lp.m_state.areas 1).tomalloc_area_hdr)) ∧
    (far_lp.m_state.areas 1).idx = 1 ∧ (far_lp.m_state.areas 1).use_bitmap 2 = true ∧
    restore_incremental plat two_lp (ckpt_inc plat near_lp) [ckpt_full plat far_lp] =
      Except.ok (ok_or (restore_incremental plat two_lp (ckpt_inc plat near_lp)
        [ckpt_full plat far_lp]) s1_lp) ∧
    ((ok_or (restore_incremental plat two_lp (ckpt_inc plat near_lp)
        [ckpt_full plat far_lp]) s1_lp).m_state.areas 1).use_bitmap 2 = false :=
  ⟨rfl, rfl, rfl, by decide, rfl, by decide⟩

/-- C15, amended: the baseline from the full log.  The chain is the
incremental logs `incs` (newest first) and the full log `full`, each holding
records that fit the map being restored; `a` is a record of the full log for
the area `i` that stores chunk `c` (the chunk is in use in `a`, or `a` has
LOG_MODE set); no record read before it that is for area `i` holds a payload
for `c` (the chunk is dirty in no incremental log); `b0` is the first record
for area `i` that is read and bit `c` of its use bitmap is set.  Then
`restore_incremental` returns and chunk `c` holds the payload that `a`
stores for it.  If moreover no record read before `a` is for area `i` (no
incremental log mentions the area) and the area is not a trailing one, the
area has the use bitmap of `a`. -/
theorem full_log_baseline (P : Platform) (nc : Nat → Nat) (lp : lp_struct)
    (incs : List (Ckpt × List malloc_area)) (full : Ckpt) (frecs : List malloc_area)
    (older : List Ckpt) (node : Ckpt) (prevs : List Ckpt)
    (hchain : node :: prevs = incs.map Prod.fst ++ full :: older)
    (hincs : ∀ p, p ∈ incs → is_inc_log P p.1 p.2 ∧ recs_fit P nc node.state p.2)
    (hfull : is_full_log P full frecs) (hfit : recs_fit P nc node.state frecs)
    (i c cs : Nat) (pre post : List Rec) (a : malloc_area) (b0 : Rec)
    (hsplit : chain_recs (incs.map Prod.snd) frecs = pre ++ (true, a) :: post)
    (hidx : a.idx = i) (hstored : offers P (true, a) c)
    (hnewest : ∀ r, r ∈ pre → r.2.idx = i → ¬ offers P r c)
    (hfirst : (pre ++ [((true, a) : Rec)]).find? (fun r => decide (r.2.idx = i)) = some b0)
    (huse : use_bit P b0.2 c = true)
    (hcs : ∀ r, r ∈ chain_recs (incs.map Prod.snd) frecs → r.2.idx = i →
      P.untagged_chunk_size r.2.chunk_size = cs) :
    ∃ A, restore_incremental P lp node prevs = Except.ok A ∧
      read_bytes (A.m_state.areas i).area (c * cs) cs = chunk P a c ∧
      ((∀ r, r ∈ pre → r.2.idx ≠ i) →
        (i < node.state.num_areas ∨ lp.m_state.num_areas ≤ i) →
        ∀ x, x < 8 * P.bitmap_required_size a.num_chunks →
          (A.m_state.areas i).use_bitmap x = a.use_bitmap x) := by
  refine ⟨_, restore_incremental_spec P nc lp incs full frecs older node prevs hchain hincs
    hfull hfit, ?_, ?_⟩
  · have hcsa : P.untagged_chunk_size a.chunk_size = cs := by
      apply hcs (true, a) _ hidx
      rw [hsplit]
      simp
    unfold chunk
    rw [hcsa]
    apply read_bytes_congr
    intro j hj
    have hA : ∀ X : malloc_state, ({ lp with m_state := X } : lp_struct).m_state = X :=
      fun _ => rfl
    rw [hA, restored_inc_bytes, hsplit, List.filter_append,
      List.filter_cons_of_pos (by simpa using hidx)]
    apply foldl_step_newest P _ _ (true, a) _ c cs
    · intro r hr
      have hmem : r ∈ (pre ++ (true, a) :: post).filter (fun r => decide (r.2.idx = i)) := by
        rw [List.filter_append, List.filter_cons_of_pos (by simpa using hidx)]
        exact hr
      rw [List.mem_filter] at hmem
      apply hcs r _ (by simpa using hmem.2)
      rw [hsplit]
      exact hmem.1
    · intro r hr
      rw [List.mem_filter] at hr
      exact hnewest r hr.1 (by simpa using hr.2)
    · exact hstored
    · rw [head_filter_find_rec pre (true, a) b0 i hidx hfirst]
      exact huse
    · omega
    · omega
  · intro hnone hnt x hx
    obtain ⟨nx, hnx⟩ := restored_inc_area P lp node.state (incs.map Prod.snd) frecs i hnt
    have hA : ∀ X : malloc_state, ({ lp with m_state := X } : lp_struct).m_state = X :=
      fun _ => rfl
    rw [hA, hnx, hsplit, filter_split_first pre post (true, a) i hidx hnone]
    obtain ⟨-, e2, -⟩ := foldl_step_first P (true, a)
      (post.filter (fun r => decide (r.2.idx = i))) (lp.m_state.areas i, none) rfl
    show (List.foldl (step_rec P) (lp.m_state.areas i, none)
      ((true, a) :: post.filter (fun r => decide (r.2.idx = i)))).1.use_bitmap x = _
    rw [e2, write_read_bitmap, if_pos hx]

theorem s6_well_formed (s : lp_struct) (hn : s.m_state.num_areas = 5)
    (hidx : ∀ j, (s.m_state.areas j).idx = j) (hnc : ∀ j, (s.m_state.areas j).num_chunks = 8) :
    well_formed plat 5 s := by
  refine ⟨hn, fun i _ => hidx i, ?_⟩
  intro i _ x hx _
  rw [hnc i] at hx ⊢
  have h8 : 8 * plat.bitmap_required_size 8 = 8 := by decide
  rw [h8] at hx
  exact hx

/-- Scenario S6: the full log has 5 areas, the incremental log lists only
area 2; after the restore at the incremental log chunk 2 of area 0 holds the
`0xAA` of the full log and area 0 has the use bitmap of the full log. -/
theorem full_log_baseline_witness :
    ∃ A, restore_incremental plat s6_live (ckpt_inc plat s6_lp1) [ckpt_full plat s6_lp] =
        Except.ok A ∧
      read_bytes (A.m_state.areas 0).area (2 * 16) 16 = List.replicate 16 170 ∧
      (A.m_state.areas 0).use_bitmap 4 = true ∧ (A.m_state.areas 0).use_bitmap 6 = false := by
  have hnc1 : ∀ j, (s6_lp1.m_state.areas j).num_chunks = 8 := by
    intro j
    show (if j = 2 then _ else _ : malloc_area).num_chunks = 8
    split_ifs <;> rfl
  have hidx1 : ∀ j, (s6_lp1.m_state.areas j).idx = j := by
    intro j
    show (if j = 2 then _ else _ : malloc_area).idx = j
    split_ifs with h
    · rw [h]
      rfl
    · rfl
  obtain ⟨A, h1, h2, h3⟩ :=
    full_log_baseline plat (fun _ => 8) s6_live
      [(ckpt_inc plat s6_lp1, inc_recs s6_lp1)] (ckpt_full plat s6_lp) (full_recs s6_lp) []
      (ckpt_inc plat s6_lp1) [ckpt_full plat s6_lp] rfl
      (by
        intro p hp
        simp only [List.mem_singleton] at hp
        rw [hp]
        exact ⟨ckpt_inc_is_inc_log plat s6_lp1 (by decide),
          range_recs_fit plat 5 (fun _ => 8) (ckpt_inc plat s6_lp1).state s6_lp1
            (fun a => decide (a.state_changed ≠ 0)) (s6_well_formed s6_lp1 rfl hidx1 hnc1)
            (by decide) (by decide) (fun j _ => hnc1 j)⟩)
      (ckpt_full_is_full_log plat s6_lp (by decide))
      (range_recs_fit plat 5 (fun _ => 8) (ckpt_inc plat s6_lp1).state s6_lp
        (fun a => decide (a.alloc_chunks ≠ 0))
        (s6_well_formed s6_lp rfl (fun _ => rfl) (fun _ => rfl))
        (by decide) (by decide) (fun _ _ => rfl))
      0 2 16 [((false, s6_lp1.m_state.areas 2) : Rec)]
      [(true, s6_area 1), (true, s6_area 2), (true, s6_area 3), (true, s6_area 4)]
      (s6_area 0) (true, s6_area 0) rfl rfl (by decide)
      (by
        intro r hr hi
        simp only [List.mem_singleton] at hr
        rw [hr] at hi
        exact absurd hi (by decide))
      rfl (by decide)
      (by
        intro r hr _
        have hr2 : r ∈ [((false, s6_lp1.m_state.areas 2) : Rec), (true, s6_area 0),
            (true, s6_area 1), (true, s6_area 2), (true, s6_area 3), (true, s6_area 4)] := hr
        simp only [List.mem_cons, List.mem_singleton, List.not_mem_nil, or_false] at hr2
        rcases hr2 with h | h | h | h | h | h <;> rw [h] <;> rfl)
  have h4 := h3 (by
      intro r hr
      simp only [List.mem_singleton] at hr
      rw [hr]
      decide) (Or.inl (by decide))
  exact ⟨A, h1, h2.trans (by decide), (h4 4 (by decide)).trans (by decide),
    (h4 6 (by decide)).trans (by decide)⟩

/-! ## Claims on the contents of the logs -/

theorem clean_state_inc (P : Platform) (lp : lp_struct)
    (hclean : ∀ j, j < lp.m_state.num_areas →
      (lp.m_state.areas j).state_changed = 0 ∧ (lp.m_state.areas j).dirty_chunks = 0)
    (hsize : lp.m_state.total_inc_size = P.sizeof_malloc_state) :
    log_incremental P lp = Except.ok (lp_after_inc P lp, ckpt_inc P lp) ∧
    (ckpt_inc P lp).items = [] := by
  have hitems : inc_items P lp.m_state = [] := by
    unfold inc_items
    rw [List.flatMap_eq_nil_iff]
    intro j hj
    rw [← List.range_eq_range', List.mem_range] at hj
    unfold inc_area_items
    rw [if_pos (hclean j hj).1]
  refine ⟨?_, hitems⟩
  rw [log_incremental_eq, if_neg, if_neg]
  · rw [hitems, hsize]
    simp [items_size_nil]
  · rintro ⟨j, hj, hb⟩
    exact hb.2 (hclean j hj).2

/-- C26: back-to-back checkpoints.  When `log_full` or `log_incremental`
returns, leaving the LP `r.1`, an incremental checkpoint of `r.1` taken at
once returns too, and its log has no area record: it is `sizeof(malloc_state)`
bytes long, which is also the `total_inc_size` that its header declares. -/
theorem back_to_back (P : Platform) (lp : lp_struct) (r : lp_struct × Ckpt)
    (h : log_full P lp = Except.ok r ∨ log_incremental P lp = Except.ok r) :
    ∃ r2, log_incremental P r.1 = Except.ok r2 ∧ r2.2.items = [] ∧
      r2.2.bytes_written P = P.sizeof_malloc_state ∧
      r2.2.state.is_incremental = true ∧
      r2.2.state.total_inc_size = P.sizeof_malloc_state := by
  have key : (∀ j, j < r.1.m_state.num_areas →
      (r.1.m_state.areas j).state_changed = 0 ∧ (r.1.m_state.areas j).dirty_chunks = 0) ∧
      r.1.m_state.total_inc_size = P.sizeof_malloc_state := by
    rcases h with h | h
    · obtain ⟨hr, _⟩ := log_full_inv P lp r h
      subst hr
      refine ⟨?_, rfl⟩
      intro j hj
      have hj2 : j < lp.m_state.num_areas := hj
      simp only [lp_after_full, clean_upto]
      rw [if_pos hj2]
      exact ⟨rfl, rfl⟩
    · obtain ⟨hr, hbad, _⟩ := log_incremental_inv P lp r h
      subst hr
      refine ⟨?_, rfl⟩
      intro j hj
      have hj2 : j < lp.m_state.num_areas := hj
      simp only [lp_after_inc, inc_clean_range]
      rw [if_pos ⟨Nat.zero_le j, by omega⟩]
      unfold inc_clean_area
      split_ifs with h1 h2
      · refine ⟨h1, ?_⟩
        by_contra hd
        exact hbad j hj2 ⟨h1, hd⟩
      · exact ⟨rfl, h2⟩
      · exact ⟨rfl, rfl⟩
  obtain ⟨h1, h2⟩ := clean_state_inc P r.1 key.1 key.2
  refine ⟨_, h1, h2, ?_, rfl, key.2⟩
  unfold Ckpt.bytes_written
  rw [h2]
  simp [items_size_nil]

/-- Scenario S1: an incremental checkpoint right after the full checkpoint
has no record and is 40 bytes long. -/
theorem back_to_back_witness :
    ∃ r2, log_incremental plat (lp_after_full plat s1_lp) = Except.ok r2 ∧
      r2.2.items = [] ∧ r2.2.bytes_written plat = 40 := by
  obtain ⟨r2, h1, h2, h3, -, -⟩ := back_to_back plat s1_lp
    (lp_after_full plat s1_lp, ckpt_full plat s1_lp)
    (Or.inl (log_full_returns plat s1_lp (s1_popcount 137)))
  exact ⟨r2, h1, h2, h3⟩

theorem items_size_flatMap_gen {α : Type} (P : Platform) (f : α → List Item) (l : List α) :
    items_size P (l.flatMap f) = (l.map (fun a => items_size P (f a))).sum := by
  induction l with
  | nil => rfl
  | cons x l ih => simp [List.flatMap_cons, items_size_append, ih]

theorem bitmap_set_bits_sorted (b : Nat → Bool) (n : Nat) :
    List.Pairwise (fun x y => x < y) (bitmap_set_bits b n) := by
  unfold bitmap_set_bits
  exact List.Pairwise.filter _ (List.pairwise_lt_range _)

/-- C22: the contents of an incremental log.  When `log_incremental` returns
on the LP `lp`, the log is the header of the memory map (stamped with
`lvt(lp)` and `is_incremental = true`) followed, for the areas with
`state_changed ≠ 0` in ascending slot order (`inc_recs lp`), by the area
header as it is in the live map (with the live `dirty_chunks`), the use
bitmap and, only when `dirty_chunks ≠ 0`, the dirty bitmap and the bytes of
each chunk whose dirty bit is set, in ascending chunk order.  The bytes
written are therefore the header plus, per changed area, the area header,
the bitmap and, when `dirty_chunks ≠ 0`, the bitmap again and as many chunks
as the dirty bitmap has set bits; this is the `total_inc_size` of the live
map. -/
theorem incremental_contents (P : Platform) (lp : lp_struct) (r : lp_struct × Ckpt)
    (h : log_incremental P lp = Except.ok r) :
    r.2.state =
      { lp.m_state.tomalloc_state_hdr with timestamp := lp.lvt, is_incremental := true } ∧
    r.2.items = (inc_recs lp).flatMap (fun a =>
      Item.hdr a.tomalloc_area_hdr ::
      Item.bitmap (read_bitmap a.use_bitmap (P.bitmap_required_size a.num_chunks)) ::
      (if a.dirty_chunks = 0 then []
       else
        Item.bitmap (read_bitmap a.dirty_bitmap (P.bitmap_required_size a.num_chunks)) ::
        (bitmap_set_bits a.dirty_bitmap (P.bitmap_required_size a.num_chunks)).map
          (fun x => Item.bytes (chunk P a x)))) ∧
    (∀ a : malloc_area, List.Pairwise (fun x y => x < y)
      (bitmap_set_bits a.dirty_bitmap (P.bitmap_required_size a.num_chunks))) ∧
    r.2.bytes_written P = P.sizeof_malloc_state +
      ((inc_recs lp).map (fun a =>
        P.sizeof_malloc_area + P.bitmap_required_size a.num_chunks +
          (if a.dirty_chunks = 0 then 0
           else P.bitmap_required_size a.num_chunks +
             popcount a.dirty_bitmap (P.bitmap_required_size a.num_chunks) *
               P.untagged_chunk_size a.chunk_size))).sum ∧
    r.2.bytes_written P = lp.m_state.total_inc_size := by
  obtain ⟨hr, _, hsize⟩ := log_incremental_inv P lp r h
  subst hr
  obtain ⟨_, hitems, _, hsc⟩ := ckpt_inc_is_inc_log P lp hsize
  refine ⟨rfl, ?_, fun a => bitmap_set_bits_sorted _ _, ?_, hsize⟩
  · show (ckpt_inc P lp).items = _
    rw [hitems]
    apply List.flatMap_congr
    intro a ha
    unfold inc_area_items
    rw [if_neg (hsc a ha)]
    rfl
  · unfold Ckpt.bytes_written
    show _ + items_size P (ckpt_inc P lp).items = _
    rw [hitems, items_size_flatMap_gen]
    congr 2
    apply List.map_congr_left
    intro a ha
    rw [inc_area_items_size, if_neg (hsc a ha)]

/-- Scenario S5: the first incremental log holds the record of area 0 with
its dirty bitmap and the 16 bytes `0xBB` of chunk 2, 106 bytes in all. -/
theorem incremental_contents_witness :
    (ckpt_inc plat s5_lp1).items =
      [Item.hdr s5_area1.tomalloc_area_hdr,
       Item.bitmap [true, false, true, false, true, false, false, false],
       Item.bitmap [false, false, true, false, false, false, false, false],
       Item.bytes (List.replicate 16 187)] ∧
    (ckpt_inc plat s5_lp1).bytes_written plat = 106 :=
  have h := incremental_contents plat s5_lp1 (lp_after_inc plat s5_lp1, ckpt_inc plat s5_lp1)
    (run_log_incremental s5_area1 10 (by decide) (by decide))
  ⟨h.2.1.trans rfl, h.2.2.2.2.trans (by decide)⟩

theorem area_records_bytes (f : Nat → List Nat) (xs : List Nat) :
    area_records (xs.map (fun x => Item.bytes (f x))) = [] := by
  unfold area_records
  induction xs with
  | nil => rfl
  | cons x tl ih =>
    rw [List.map_cons, List.filterMap_cons]
    exact ih

theorem area_records_full (P : Platform) (a : malloc_area) :
    area_records (full_area_items P a) =
      if a.alloc_chunks ≠ 0 then
        [{ a.tomalloc_area_hdr with state_changed := 0, dirty_chunks := 0 }]
      else [] := by
  unfold full_area_items
  by_cases h0 : a.alloc_chunks = 0
  · rw [if_pos h0, if_neg (by simpa using h0)]
    rfl
  · rw [if_neg h0, if_pos h0]
    by_cases hlm : a.log_mode = true
    · rw [if_pos hlm]
      rfl
    · rw [if_neg hlm]
      have h := area_records_bytes
        (fun x => read_bytes a.area (x * P.untagged_chunk_size a.chunk_size)
          (P.untagged_chunk_size a.chunk_size))
        (bitmap_set_bits a.use_bitmap (P.bitmap_required_size a.num_chunks))
      unfold area_records at h ⊢
      rw [List.filterMap_cons, List.filterMap_cons]
      simp only
      rw [h]

theorem area_records_inc (P : Platform) (a : malloc_area) :
    area_records (inc_area_items P a) =
      if a.state_changed ≠ 0 then [a.tomalloc_area_hdr] else [] := by
  unfold inc_area_items
  by_cases h0 : a.state_changed = 0
  · rw [if_pos h0, if_neg (by simpa using h0)]
    rfl
  · rw [if_neg h0, if_pos h0]
    by_cases hd : a.dirty_chunks = 0
    · rw [if_pos hd]
      rfl
    · rw [if_neg hd]
      have h := area_records_bytes
        (fun x => read_bytes a.area (x * P.untagged_chunk_size a.chunk_size)
          (P.untagged_chunk_size a.chunk_size))
        (bitmap_set_bits a.dirty_bitmap (P.bitmap_required_size a.num_chunks))
      unfold area_records at h ⊢
      rw [List.filterMap_cons, List.filterMap_cons, List.filterMap_cons]
      simp only
      rw [h]

theorem flatMap_ite_singleton {β : Type} (l : List Nat) (p : Nat → Prop) [DecidablePred p]
    (g : Nat → β) :
    l.flatMap (fun j => if p j then [g j] else []) =
      (l.filter (fun j => decide (p j))).map g := by
  induction l with
  | nil => rfl
  | cons x tl ih =>
    rw [List.flatMap_cons, ih]
    by_cases hp : p x
    · rw [if_pos hp, List.filter_cons_of_pos (by simpa using hp)]
      rfl
    · rw [if_neg hp, List.filter_cons_of_neg (by simpa using hp)]
      rfl

theorem range_records_order (n : Nat) (p : Nat → Prop) [DecidablePred p]
    (g : Nat → malloc_area_hdr) (hg : ∀ j, j < n → (g j).idx = j) :
    List.Pairwise (fun a b : malloc_area_hdr => a.idx < b.idx)
      ((List.range n).flatMap (fun j => if p j then [g j] else [])) ∧
    ∀ a, a ∈ (List.range n).flatMap (fun j => if p j then [g j] else []) →
      ∃ j, j < n ∧ p j ∧ a = g j := by
  rw [flatMap_ite_singleton]
  constructor
  · rw [List.pairwise_map]
    apply List.Pairwise.imp_of_mem _
      (List.Pairwise.filter _ (List.pairwise_lt_range n))
    intro a b ha hb hab
    rw [List.mem_filter, List.mem_range] at ha hb
    rw [hg a ha.1, hg b hb.1]
    exact hab
  · intro a ha
    rw [List.mem_map] at ha
    obtain ⟨j, hj, hja⟩ := ha
    rw [List.mem_filter, List.mem_range] at hj
    exact ⟨j, hj.1, by simpa using hj.2, hja.symm⟩

/-- C21: the order of the areas in a log.  In the LP every slot `i` holds the
area of index `i`.  Then in the log that `log_full` or `log_incremental`
returns the area records come in strictly ascending order of `idx` (so no
`idx` comes twice), every `idx` is below the `num_areas` of the header, and
in a full log every area record has `dirty_chunks = 0`. -/
theorem area_order (P : Platform) (lp : lp_struct) (r : lp_struct × Ckpt)
    (hidx : idx_is_slot lp.m_state)
    (h : log_full P lp = Except.ok r ∨ log_incremental P lp = Except.ok r) :
    List.Pairwise (fun a b : malloc_area_hdr => a.idx < b.idx) (area_records r.2.items) ∧
    (∀ a, a ∈ area_records r.2.items → a.idx < r.2.state.num_areas) ∧
    (r.2.state.is_incremental = false →
      ∀ a, a ∈ area_records r.2.items → a.dirty_chunks = 0) := by
  rcases h with h | h
  · obtain ⟨hr, _⟩ := log_full_inv P lp r h
    subst hr
    have hrec : area_records (ckpt_full P lp).items =
        (List.range lp.m_state.num_areas).flatMap (fun j =>
          if (lp.m_state.areas j).alloc_chunks ≠ 0 then
            [{ (lp.m_state.areas j).tomalloc_area_hdr with
                state_changed := 0, dirty_chunks := 0 }]
          else []) := by
      show area_records ((List.range lp.m_state.num_areas).flatMap
        (fun j => full_area_items P (lp.m_state.areas j))) = _
      unfold area_records
      rw [List.filterMap_flatMap]
      apply List.flatMap_congr
      intro j _
      exact area_records_full P (lp.m_state.areas j)
    obtain ⟨h1, h2⟩ := range_records_order lp.m_state.num_areas
      (fun j => (lp.m_state.areas j).alloc_chunks ≠ 0)
      (fun j => { (lp.m_state.areas j).tomalloc_area_hdr with
        state_changed := 0, dirty_chunks := 0 })
      (fun j hj => hidx j hj)
    rw [hrec]
    refine ⟨h1, ?_, ?_⟩
    · intro a ha
      obtain ⟨j, hj, _, hja⟩ := h2 a ha
      rw [hja]
      show (lp.m_state.areas j).idx < lp.m_state.num_areas
      rw [hidx j hj]
      exact hj
    · intro _ a ha
      obtain ⟨j, _, _, hja⟩ := h2 a ha
      rw [hja]
  · obtain ⟨hr, _, _⟩ := log_incremental_inv P lp r h
    subst hr
    have hrec : area_records (ckpt_inc P lp).items =
        (List.range lp.m_state.num_areas).flatMap (fun j =>
          if (lp.m_state.areas j).state_changed ≠ 0 then
            [(lp.m_state.areas j).tomalloc_area_hdr]
          else []) := by
      show area_records ((List.range' 0 lp.m_state.num_areas).flatMap
        (fun j => inc_area_items P (lp.m_state.areas j))) = _
      rw [← List.range_eq_range']
      unfold area_records
      rw [List.filterMap_flatMap]
      apply List.flatMap_congr
      intro j _
      exact area_records_inc P (lp.m_state.areas j)
    obtain ⟨h1, h2⟩ := range_records_order lp.m_state.num_areas
      (fun j => (lp.m_state.areas j).state_changed ≠ 0)
      (fun j => (lp.m_state.areas j).tomalloc_area_hdr)
      (fun j hj => hidx j hj)
    rw [hrec]
    refine ⟨h1, ?_, ?_⟩
    · intro a ha
      obtain ⟨j, hj, _, hja⟩ := h2 a ha
      rw [hja]
      show (lp.m_state.areas j).idx < lp.m_state.num_areas
      rw [hidx j hj]
      exact hj
    · intro hinc
      exact absurd hinc (by simp [ckpt_inc])

/-- Scenario S6: the full log of the LP with 5 areas has its records in the
order 0, 1, 2, 3, 4 of the slots. -/
theorem area_order_witness :
    (area_records (ckpt_full plat s6_lp).items).map malloc_area_hdr.idx = [0, 1, 2, 3, 4] ∧
    List.Pairwise (fun a b : malloc_area_hdr => a.idx < b.idx)
      (area_records (ckpt_full plat s6_lp).items) :=
  ⟨by decide, (area_order plat s6_lp (lp_after_full plat s6_lp, ckpt_full plat s6_lp)
    (fun _ _ => rfl)
    (Or.inl (log_full_returns plat s6_lp (by
      intro i _
      show s1_area.alloc_chunks = popcount s1_area.use_bitmap (plat.bitmap_required_size 8)
      decide)))).1⟩

/-! ## C28: the sample-id invariant of the sampler -/

/-- The invariant of the sampler. -/
theorem sampler_inv_step (s : Sampler) (c : SamplerCall)
    (h : (s.sampling_enabled = 0 ∧ s.current_sample_id = 0 ∨
          s.sampling_enabled = 1 ∧ s.current_sample_id = s.last_sample_id) ∧
         s.current_executed_events < 2 ^ 32) :
    ((s.step c).sampling_enabled = 0 ∧ (s.step c).current_sample_id = 0 ∨
      (s.step c).sampling_enabled = 1 ∧
        (s.step c).current_sample_id = (s.step c).last_sample_id) ∧
      (s.step c).current_executed_events < 2 ^ 32 := by
  obtain ⟨h1, h2⟩ := h
  have hu : ∀ x, u32 x < 2 ^ 32 := fun x => Nat.mod_lt _ (by norm_num)
  cases c with
  | SamplingPeriodBegin => exact ⟨Or.inr ⟨rfl, rfl⟩, by norm_num [Sampler.step, OnSamplingPeriodBegin]⟩
  | SamplingPeriodEnd => exact ⟨Or.inl ⟨rfl, rfl⟩, h2⟩
  | process_event_forward => exact ⟨h1, hu _⟩
  | log_state => exact ⟨h1, by norm_num [Sampler.step, on_log_state]⟩
  | log_restore =>
    simp only [Sampler.step, on_log_restore]
    split <;> exact ⟨h1, by norm_num⟩
  | log_discarded sid ee =>
    simp only [Sampler.step, on_log_discarded]
    split <;> exact ⟨h1, h2⟩
  | process_event_silent sid =>
    simp only [Sampler.step, on_process_event_silent]
    split
    · exact ⟨h1, hu _⟩
    · exact ⟨h1, h2⟩

theorem sampler_inv_foldl (calls : List SamplerCall) : ∀ (s : Sampler),
    ((s.sampling_enabled = 0 ∧ s.current_sample_id = 0 ∨
          s.sampling_enabled = 1 ∧ s.current_sample_id = s.last_sample_id) ∧
         s.current_executed_events < 2 ^ 32) →
    (((calls.foldl Sampler.step s).sampling_enabled = 0 ∧
        (calls.foldl Sampler.step s).current_sample_id = 0 ∨
      (calls.foldl Sampler.step s).sampling_enabled = 1 ∧
        (calls.foldl Sampler.step s).current_sample_id =
          (calls.foldl Sampler.step s).last_sample_id) ∧
      (calls.foldl Sampler.step s).current_executed_events < 2 ^ 32) := by
  induction calls with
  | nil => intro s h; exact h
  | cons c cs ih => intro s h; exact ih _ (sampler_inv_step s c h)

/-- C28: the sample-id invariant of the sampler.  In every state that a
sequence of calls of the seven functions reaches from the initial state,
`sampling_enabled` is 0 or 1, `current_sample_id` is `last_sample_id` when
`sampling_enabled` is 1 and 0 when it is 0; `on_process_event_forward` then
stamps the event with 0 and leaves `current_executed_events` as it is outside
a sampling period, and inside a period stamps it with `last_sample_id` and
adds 1 to `current_executed_events` in the arithmetic of `unsigned int`,
which is the sum itself below `2^32 - 1`. -/
theorem sampler_sample_id_invariant (calls : List SamplerCall) :
    ((Sampler.run calls).sampling_enabled = 0 ∨ (Sampler.run calls).sampling_enabled = 1) ∧
    ((Sampler.run calls).sampling_enabled = 1 →
      (Sampler.run calls).current_sample_id = (Sampler.run calls).last_sample_id) ∧
    ((Sampler.run calls).sampling_enabled = 0 → (Sampler.run calls).current_sample_id = 0) ∧
    ((Sampler.run calls).sampling_enabled = 0 →
      (on_process_event_forward (Sampler.run calls)).2 = 0 ∧
      (on_process_event_forward (Sampler.run calls)).1 = Sampler.run calls) ∧
    ((Sampler.run calls).sampling_enabled = 1 →
      (on_process_event_forward (Sampler.run calls)).2 = (Sampler.run calls).last_sample_id ∧
      (on_process_event_forward (Sampler.run calls)).1 =
        { Sampler.run calls with
          current_executed_events :=
            ((Sampler.run calls).current_executed_events + 1) % 2 ^ 32 } ∧
      ((Sampler.run calls).current_executed_events + 1 < 2 ^ 32 →
        (on_process_event_forward (Sampler.run calls)).1.current_executed_events =
          (Sampler.run calls).current_executed_events + 1)) := by
  have h : ((Sampler.run calls).sampling_enabled = 0 ∧
        (Sampler.run calls).current_sample_id = 0 ∨
      (Sampler.run calls).sampling_enabled = 1 ∧
        (Sampler.run calls).current_sample_id = (Sampler.run calls).last_sample_id) ∧
      (Sampler.run calls).current_executed_events < 2 ^ 32 :=
    sampler_inv_foldl calls Sampler.init ⟨Or.inl ⟨rfl, rfl⟩, by decide⟩
  generalize Sampler.run calls = s at h ⊢
  obtain ⟨h1, h2⟩ := h
  refine ⟨?_, ?_, ?_, ?_, ?_⟩
  · rcases h1 with h | h
    · exact Or.inl h.1
    · exact Or.inr h.1
  · intro he
    rcases h1 with h | h
    · rw [h.1] at he; cases he
    · exact h.2
  · intro he
    rcases h1 with h | h
    · exact h.2
    · rw [h.1] at he; cases he
  · intro he
    rcases h1 with h | h
    · refine ⟨h.2, ?_⟩
      have e : u32 (s.current_executed_events + s.sampling_enabled) =
          s.current_executed_events := by
        rw [he, Nat.add_zero, u32, Nat.mod_eq_of_lt h2]
      unfold on_process_event_forward
      rw [e]
    · rw [h.1] at he; cases he
  · intro he
    rcases h1 with h | h
    · rw [h.1] at he; cases he
    · refine ⟨h.2, ?_, ?_⟩
      · simp only [on_process_event_forward, he, u32]
      · intro hlt
        simp only [on_process_event_forward, he, u32, Nat.mod_eq_of_lt hlt]

/-! ## C29: the drain of the PEBS buffer -/

/-- The loop of `write_buffer` with enough iterations: of the records from
`pebs` up to `end_` the first ones are copied to `buffer_sample` from index
`user_index_written` on, as many as there is room below `MAX_BUFFER_SIZE`. -/
theorem write_buffer_loop_spec (MAX end_ : Nat) : ∀ (fuel pebs : Nat) (st : Pebs),
    end_ - pebs ≤ fuel → st.user_index_written ≤ MAX →
    (write_buffer_loop MAX end_ fuel pebs st).user_index_written =
      st.user_index_written +
        min ((end_ - pebs + 199) / 200) (MAX - st.user_index_written) ∧
    (write_buffer_loop MAX end_ fuel pebs st).ds = st.ds ∧
    (write_buffer_loop MAX end_ fuel pebs st).pebs_mem = st.pebs_mem ∧
    (write_buffer_loop MAX end_ fuel pebs st).nRecords_module = st.nRecords_module ∧
    (write_buffer_loop MAX end_ fuel pebs st).nRecords_pebs = st.nRecords_pebs ∧
    (write_buffer_loop MAX end_ fuel pebs st).capacity = st.capacity ∧
    (write_buffer_loop MAX end_ fuel pebs st).allocated_bytes = st.allocated_bytes ∧
    (∀ i, (write_buffer_loop MAX end_ fuel pebs st).buffer_sample i =
      if st.user_index_written ≤ i ∧
          i < st.user_index_written +
            min ((end_ - pebs + 199) / 200) (MAX - st.user_index_written) then
        st.pebs_mem (pebs + 200 * (i - st.user_index_written))
      else st.buffer_sample i) ∧
    (write_buffer_loop MAX end_ fuel pebs st).written =
      ((List.range (min ((end_ - pebs + 199) / 200) (MAX - st.user_index_written))).map
        (fun k => st.user_index_written + k)).reverse ++ st.written := by
  intro fuel
  induction fuel with
  | zero =>
    intro pebs st hf hm
    have h0 : (end_ - pebs + 199) / 200 = 0 := by omega
    simp only [write_buffer_loop, h0, Nat.zero_min, Nat.add_zero, List.range_zero, List.map_nil,
      List.reverse_nil, List.nil_append, true_and, and_true]
    intro i
    rw [if_neg (by omega)]
  | succ fuel ih =>
    intro pebs st hf hm
    by_cases hlt : pebs < end_
    · have hp : (end_ - pebs + 199) / 200 = (end_ - (pebs + 200) + 199) / 200 + 1 := by omega
      by_cases hg : st.user_index_written < MAX
      · have e : write_buffer_loop MAX end_ (fuel + 1) pebs st =
            write_buffer_loop MAX end_ fuel (pebs + PEBS_STRUCT_SIZE)
              { st with
                buffer_sample :=
                  Function.update st.buffer_sample st.user_index_written (st.pebs_mem pebs),
                written := st.user_index_written :: st.written,
                user_index_written := st.user_index_written + 1 } := by
          rw [write_buffer_loop, if_pos hlt, if_pos hg]
        obtain ⟨i1, i2, i3, i4, i5, i6, i7, i8, i9⟩ := ih (pebs + PEBS_STRUCT_SIZE)
          { st with
            buffer_sample :=
              Function.update st.buffer_sample st.user_index_written (st.pebs_mem pebs),
            written := st.user_index_written :: st.written,
            user_index_written := st.user_index_written + 1 }
          (by simp only [PEBS_STRUCT_SIZE]; omega) (by show st.user_index_written + 1 ≤ MAX; omega)
        rw [e]
        simp only [PEBS_STRUCT_SIZE] at i1 i8 i9 ⊢
        have hmin : min ((end_ - pebs + 199) / 200) (MAX - st.user_index_written) =
            min ((end_ - (pebs + 200) + 199) / 200) (MAX - (st.user_index_written + 1)) + 1 := by
          rw [hp]; omega
        refine ⟨by rw [i1, hmin]; omega, i2, i3, i4, i5, i6, i7, ?_, ?_⟩
        · intro i
          rw [i8 i, hmin]
          by_cases hi : i = st.user_index_written
          · subst hi
            rw [if_neg (by omega), if_pos (by omega), Function.update_same, Nat.sub_self,
              Nat.mul_zero, Nat.add_zero]
          · rw [Function.update_noteq hi]
            by_cases hin : st.user_index_written + 1 ≤ i ∧
                i < st.user_index_written + 1 +
                  min ((end_ - (pebs + 200) + 199) / 200) (MAX - (st.user_index_written + 1))
            · rw [if_pos hin, if_pos (by omega)]
              congr 1
              omega
            · rw [if_neg hin, if_neg (by omega)]
        · rw [i9, hmin, List.range_succ_eq_map, List.map_cons, List.reverse_cons,
            List.append_assoc, List.map_map]
          congr 1
          congr 1
          apply List.map_congr_left
          intro k _
          show st.user_index_written + 1 + k = st.user_index_written + (k + 1)
          omega
      · have e : write_buffer_loop MAX end_ (fuel + 1) pebs st =
            write_buffer_loop MAX end_ fuel (pebs + PEBS_STRUCT_SIZE) st := by
          rw [write_buffer_loop, if_pos hlt, if_neg hg]
        obtain ⟨i1, i2, i3, i4, i5, i6, i7, i8, i9⟩ := ih (pebs + PEBS_STRUCT_SIZE) st
          (by simp only [PEBS_STRUCT_SIZE]; omega) hm
        rw [e]
        have hmin : ∀ x, min x (MAX - st.user_index_written) = 0 := by intro x; omega
        rw [hmin] at i1 i9 ⊢
        refine ⟨i1, i2, i3, i4, i5, i6, i7, ?_, i9⟩
        intro i
        rw [i8 i, hmin, if_neg (by omega), if_neg (by omega)]
    · have h0 : (end_ - pebs + 199) / 200 = 0 := by omega
      have e : write_buffer_loop MAX end_ (fuel + 1) pebs st = st := by
        rw [write_buffer_loop, if_neg hlt]
      rw [e]
      simp only [h0, Nat.zero_min, Nat.add_zero, List.range_zero, List.map_nil,
        List.reverse_nil, List.nil_append, true_and, and_true]
      intro i
      rw [if_neg (by omega)]

/-- The function `write_buffer` on a state with room: the first pending
records are appended to `buffer_sample` in the order of the PEBS buffer, as
many as there is room below `MAX_BUFFER_SIZE`, the rest is dropped, and
`pebs_index` is back at the base. -/
theorem write_buffer_drain (MAX : Nat) (st : Pebs)
    (hu : st.user_index_written ≤ MAX) :
    (write_buffer MAX st).user_index_written =
      st.user_index_written + min (pending_records st) (MAX - st.user_index_written) ∧
    (write_buffer MAX st).user_index_written ≤ MAX ∧
    (write_buffer MAX st).ds.pebs_index = st.ds.pebs_buffer_base ∧
    (write_buffer MAX st).ds.pebs_buffer_base = st.ds.pebs_buffer_base ∧
    (write_buffer MAX st).nRecords_module = st.nRecords_module ∧
    (write_buffer MAX st).capacity = st.capacity ∧
    (write_buffer MAX st).allocated_bytes = st.allocated_bytes ∧
    (∀ i, (write_buffer MAX st).buffer_sample i =
      if st.user_index_written ≤ i ∧
          i < st.user_index_written + min (pending_records st) (MAX - st.user_index_written) then
        st.pebs_mem (st.ds.pebs_buffer_base + PEBS_STRUCT_SIZE * (i - st.user_index_written))
      else st.buffer_sample i) ∧
    (write_buffer MAX st).written =
      ((List.range (min (pending_records st) (MAX - st.user_index_written))).map
        (fun k => st.user_index_written + k)).reverse ++ st.written := by
  obtain ⟨i1, i2, i3, i4, i5, i6, i7, i8, i9⟩ := write_buffer_loop_spec MAX st.ds.pebs_index
    (st.ds.pebs_index - st.ds.pebs_buffer_base) st.ds.pebs_buffer_base st (Nat.le_refl _) hu
  have hp : pending_records st = (st.ds.pebs_index - st.ds.pebs_buffer_base + 199) / 200 := rfl
  rw [hp]
  refine ⟨i1, ?_, ?_, ?_, i4, i6, i7, i8, i9⟩
  · show (write_buffer_loop MAX st.ds.pebs_index
      (st.ds.pebs_index - st.ds.pebs_buffer_base) st.ds.pebs_buffer_base st).user_index_written
        ≤ MAX
    rw [i1]; omega
  · show (write_buffer_loop MAX st.ds.pebs_index
      (st.ds.pebs_index - st.ds.pebs_buffer_base) st.ds.pebs_buffer_base st).ds.pebs_buffer_base
        = st.ds.pebs_buffer_base
    rw [i2]
  · show (write_buffer_loop MAX st.ds.pebs_index
      (st.ds.pebs_index - st.ds.pebs_buffer_base) st.ds.pebs_buffer_base st).ds.pebs_buffer_base
        = st.ds.pebs_buffer_base
    rw [i2]

/-- C29: the drain of the PEBS buffer writes beyond the configured capacity.
After `pebs_init` configured `n` records for `buffer_sample`, with
`0 < n < MAX_BUFFER_SIZE`, and the hardware stored `n + 1` records,
`write_buffer` appends all of them, at the indices `0` to `n`, and leaves
`user_index_written = n + 1 ≤ MAX_BUFFER_SIZE` and `pebs_index` at the base:
the index `n` that it writes is not below `nRecords_module = n`, with which
`buffer_sample` was allocated, and the record of index `n` ends beyond the
allocation when the `n + 1` records of `sizeof(struct pebs_user)` bytes take
more than `PEBS_STRUCT_SIZE * n` bytes. -/
theorem write_buffer_overrun (MAX n ppebs : Nat) (hn : 0 < n) (hlt : n < MAX) :
    (drain_configured MAX n ppebs).nRecords_module = n ∧
    (drain_configured MAX n ppebs).capacity = n ∧
    (drain_configured MAX n ppebs).allocated_bytes = PEBS_STRUCT_SIZE * n ∧
    (drain_configured MAX n ppebs).user_index_written = n + 1 ∧
    (drain_configured MAX n ppebs).user_index_written ≤ MAX ∧
    (drain_configured MAX n ppebs).ds.pebs_index = ppebs ∧
    (drain_configured MAX n ppebs).written = (List.range (n + 1)).reverse ∧
    n ∈ (drain_configured MAX n ppebs).written ∧
    ¬ (∀ i, i ∈ (drain_configured MAX n ppebs).written →
        i < (drain_configured MAX n ppebs).nRecords_module) ∧
    (∀ sz, PEBS_STRUCT_SIZE * n < (n + 1) * sz →
      ¬ record_in_bounds sz (drain_configured MAX n ppebs) n) := by
  have hst : pebs_stored (n + 1) (pebs_init (n + 2 : Nat) (n : Nat) ppebs (Pebs.init MAX)) =
      { nRecords_pebs := n + 2, nRecords_module := n, user_index_written := 0,
        ds := { pebs_buffer_base := ppebs, pebs_index := ppebs + (n + 1) * PEBS_STRUCT_SIZE,
                pebs_absolute_maximum := ppebs + (n + 2 - 1) * PEBS_STRUCT_SIZE,
                pebs_interrupt_threshold := ppebs + PEBS_STRUCT_SIZE },
        pebs_mem := fun _ => 0, buffer_sample := fun _ => 0, capacity := n,
        allocated_bytes := PEBS_STRUCT_SIZE * n, written := [] } := by
    have h1 : ((n + 2 : Nat) : Int) > 0 := by omega
    have h2 : ((n : Nat) : Int) > 0 := by omega
    simp only [pebs_stored, pebs_init, if_pos h1, if_pos h2, allocate_buffer, Pebs.init,
      Int.toNat_ofNat]
  have hd : drain_configured MAX n ppebs = write_buffer MAX
      (pebs_stored (n + 1) (pebs_init (n + 2 : Nat) (n : Nat) ppebs (Pebs.init MAX))) := rfl
  rw [hd]
  generalize pebs_stored (n + 1) (pebs_init (n + 2 : Nat) (n : Nat) ppebs (Pebs.init MAX)) = S
    at hst ⊢
  have s1 : S.user_index_written = 0 := by rw [hst]
  have s2 : S.nRecords_module = n := by rw [hst]
  have s3 : S.capacity = n := by rw [hst]
  have s4 : S.allocated_bytes = PEBS_STRUCT_SIZE * n := by rw [hst]
  have s5 : S.ds.pebs_buffer_base = ppebs := by rw [hst]
  have s6 : S.written = [] := by rw [hst]
  have hp : pending_records S = n + 1 := by
    rw [hst]
    simp only [pending_records, PEBS_STRUCT_SIZE]
    omega
  obtain ⟨i1, i2, i3, _, i4, i6, i7, _, i9⟩ := write_buffer_drain MAX S
    (by rw [s1]; exact Nat.zero_le _)
  have hmin : min (n + 1) (MAX - 0) = n + 1 := by omega
  rw [hp, s1, hmin] at i1 i9
  rw [s6, List.append_nil] at i9
  rw [Nat.zero_add] at i1
  have hw : (write_buffer MAX S).written = (List.range (n + 1)).reverse := by
    rw [i9]
    congr 1
    have hf : (fun k : Nat => 0 + k) = id := by funext k; exact Nat.zero_add k
    rw [hf, List.map_id]
  have hmem : n ∈ (write_buffer MAX S).written := by
    rw [hw, List.mem_reverse, List.mem_range]; omega
  refine ⟨i4.trans s2, i6.trans s3, i7.trans s4, i1, ?_, i3.trans s5, hw, hmem, ?_, ?_⟩
  · rw [i1]; omega
  · intro h
    have := h n hmem
    rw [i4, s2] at this
    omega
  · intro sz hsz hb
    unfold record_in_bounds at hb
    rw [i7, s4] at hb
    omega

/-- C29, at `MAX_BUFFER_SIZE = 2` with one record configured: the two
pending records are written at the indices 0 and 1. -/
theorem write_buffer_overrun_witness :
    0 < 1 ∧ 1 < 2 ∧ (drain_configured 2 1 4096).nRecords_module = 1 ∧
      (drain_configured 2 1 4096).written = [1, 0] ∧
      ¬ (∀ i, i ∈ (drain_configured 2 1 4096).written →
        i < (drain_configured 2 1 4096).nRecords_module) :=
  ⟨by decide, by decide, (write_buffer_overrun 2 1 4096 (by decide) (by decide)).1,
    (write_buffer_overrun 2 1 4096 (by decide) (by decide)).2.2.2.2.2.2.1,
    (write_buffer_overrun 2 1 4096 (by decide) (by decide)).2.2.2.2.2.2.2.2.1⟩

/-! ## C24: an area logged wholesale in a chain -/

theorem list_eq_read_bytes (l : List Nat) :
    read_bytes (fun i => l.getD i 0) 0 l.length = l := by
  apply List.ext_getElem
  · rw [read_bytes_length]
  · intro i h1 h2
    simp only [read_bytes, List.getElem_map, List.getElem_range, Nat.zero_add]
    rw [List.getD_eq_getElem _ _ h2]

/-- The body of the loop over the full log in `restore_incremental` on a
record with `LOG_MODE` set. -/
theorem restore_incremental_full_area_log_mode (P : Platform) (c : IncCursor)
    (logged : malloc_area_hdr) (bits : List Bool) (l : List Nat) (rest : List Item)
    (hrest : c.rest = Item.hdr logged :: Item.bitmap bits :: Item.bytes l :: rest)
    (hlm : logged.log_mode = true)
    (hidx : logged.idx < c.m_state.max_num_areas)
    (hbits : bits.length = 8 * P.bitmap_required_size logged.num_chunks)
    (hl : l.length = P.untagged_chunk_size logged.chunk_size * logged.num_chunks)
    (hin : ∀ k, k < 8 * P.bitmap_required_size logged.num_chunks →
      still_to_restore c logged bits k = true → k < logged.num_chunks) :
    ∃ base : malloc_area, base.area = (c.m_state.areas logged.idx).area ∧
    restore_incremental_full_area P c =
      Except.ok
        { m_state :=
            set_area c.m_state logged.idx
              { base with
                area :=
                  copied (P.untagged_chunk_size logged.chunk_size)
                    (bitmap_set_bits (still_to_restore c logged bits)
                      (P.bitmap_required_size logged.num_chunks))
                    (fun i => l.getD i 0) base.area },
          to_be_restored :=
            Function.update c.to_be_restored logged.idx
              (some (reset_bits
                (bitmap_set_bits (still_to_restore c logged bits)
                  (P.bitmap_required_size logged.num_chunks))
                (still_to_restore c logged bits))),
          ptr :=
            c.ptr + P.sizeof_malloc_area + P.bitmap_required_size logged.num_chunks +
              P.untagged_chunk_size logged.chunk_size * logged.num_chunks,
          rest := rest } := by
  have hx : ∀ x, x ∈ bitmap_set_bits (still_to_restore c logged bits)
      (P.bitmap_required_size logged.num_chunks) → x < logged.num_chunks := by
    intro x hx
    rw [mem_bitmap_set_bits] at hx
    exact hin x hx.1 hx.2
  have hl2 : l = read_bytes (fun i => l.getD i 0) 0
      (logged.num_chunks * P.untagged_chunk_size logged.chunk_size) := by
    rw [Nat.mul_comm, ← hl, list_eq_read_bytes]
  have hnidx : ¬ logged.idx ≥ c.m_state.max_num_areas := by omega
  have hcopy : ∀ (xs : List Nat) (dst : Nat → Nat) (t : Nat → Bool),
      (∀ x, x ∈ xs → x < logged.num_chunks) →
      copy_to_area_log_mode (P.untagged_chunk_size logged.chunk_size) l xs dst t =
        Except.ok (copied (P.untagged_chunk_size logged.chunk_size) xs (fun i => l.getD i 0) dst,
          reset_bits xs t) := by
    intro xs dst t h
    have := copy_to_area_log_mode_spec (P.untagged_chunk_size logged.chunk_size)
      logged.num_chunks xs (fun i => l.getD i 0) dst t h
    rw [← hl2] at this
    exact this
  unfold restore_incremental_full_area
  rw [hrest]
  simp only [hnidx, if_false, hbits, ne_eq, not_true_eq_false, hlm, if_true, hl]
  unfold still_to_restore at hx ⊢
  cases ht : c.to_be_restored logged.idx
  · simp only [ht] at hx ⊢
    rw [hcopy _ _ _ hx]
    exact ⟨restore_logged_hdr (c.m_state.areas logged.idx) logged bits
      (P.bitmap_required_size logged.num_chunks), rfl, rfl⟩
  · simp only [ht] at hx ⊢
    rw [hcopy _ _ _ hx]
    exact ⟨c.m_state.areas logged.idx, rfl, rfl⟩

theorem read_bytes_eq_replicate (m : Nat → Nat) (off n v : Nat)
    (h : ∀ j, j < n → m (off + j) = v) : read_bytes m off n = List.replicate n v := by
  apply List.ext_getElem
  · rw [read_bytes_length, List.length_replicate]
  · intro i h1 h2
    rw [read_bytes_length] at h1
    simp only [read_bytes, List.getElem_map, List.getElem_range, List.getElem_replicate]
    exact h i h1

/-- C24: an area logged wholesale in a chain.  When the loop of
`restore_incremental` over the full log meets a record with `LOG_MODE` set
(header, use bitmap and the payload `l` of `num_chunks` chunks), the set bits
of `to_be_restored[idx]` being bits of chunks of the area, the body returns;
every chunk `k` whose bit is set in `to_be_restored[idx]` gets the bytes of
the payload from offset `k * chunk_size` on and its bit is cleared, every
other chunk keeps its bytes and its bit, and the cursor is
`num_chunks * chunk_size` after the start of the payload, which is one header
and one bitmap after the start of the record. -/
theorem wholesale_in_chain (P : Platform) (c : IncCursor)
    (logged : malloc_area_hdr) (bits : List Bool) (l : List Nat) (rest : List Item)
    (hrest : c.rest = Item.hdr logged :: Item.bitmap bits :: Item.bytes l :: rest)
    (hlm : logged.log_mode = true)
    (hidx : logged.idx < c.m_state.max_num_areas)
    (hbits : bits.length = 8 * P.bitmap_required_size logged.num_chunks)
    (hl : l.length = P.untagged_chunk_size logged.chunk_size * logged.num_chunks)
    (hin : ∀ k, k < 8 * P.bitmap_required_size logged.num_chunks →
      still_to_restore c logged bits k = true → k < logged.num_chunks) :
    ∃ c1 t1, restore_incremental_full_area P c = Except.ok c1 ∧
      c1.ptr = c.ptr + P.sizeof_malloc_area + P.bitmap_required_size logged.num_chunks +
        logged.num_chunks * P.untagged_chunk_size logged.chunk_size ∧
      c1.rest = rest ∧
      c1.to_be_restored logged.idx = some t1 ∧
      (∀ k, k < 8 * P.bitmap_required_size logged.num_chunks →
        still_to_restore c logged bits k = true →
        t1 k = false ∧
        ∀ j, j < P.untagged_chunk_size logged.chunk_size →
          (c1.m_state.areas logged.idx).area (k * P.untagged_chunk_size logged.chunk_size + j) =
            l.getD (k * P.untagged_chunk_size logged.chunk_size + j) 0) ∧
      (∀ k, ¬ (k < 8 * P.bitmap_required_size logged.num_chunks ∧
          still_to_restore c logged bits k = true) →
        t1 k = still_to_restore c logged bits k ∧
        ∀ j, j < P.untagged_chunk_size logged.chunk_size →
          (c1.m_state.areas logged.idx).area (k * P.untagged_chunk_size logged.chunk_size + j) =
            (c.m_state.areas logged.idx).area
              (k * P.untagged_chunk_size logged.chunk_size + j)) := by
  obtain ⟨base, hbase, hres⟩ :=
    restore_incremental_full_area_log_mode P c logged bits l rest hrest hlm hidx hbits hl hin
  refine ⟨_, reset_bits
    (bitmap_set_bits (still_to_restore c logged bits) (P.bitmap_required_size logged.num_chunks))
    (still_to_restore c logged bits), hres, ?_, rfl, ?_, ?_, ?_⟩
  · show _ + _ = _ + _
    rw [Nat.mul_comm logged.num_chunks]
  · show Function.update c.to_be_restored logged.idx _ logged.idx = _
    rw [Function.update_same]
  · intro k hk hs
    refine ⟨?_, ?_⟩
    · unfold reset_bits
      rw [if_pos ((mem_bitmap_set_bits _ _ _).2 ⟨hk, hs⟩)]
    · intro j hj
      show ((set_area c.m_state logged.idx _).areas logged.idx).area _ = _
      simp only [set_area, Function.update_same]
      rw [copied_of_mem _ _ _ _ k _ ((mem_bitmap_set_bits _ _ _).2 ⟨hk, hs⟩)
        (Nat.le_add_right _ _) (by omega)]
  · intro k hk
    refine ⟨?_, ?_⟩
    · unfold reset_bits
      rw [if_neg (fun h => hk ((mem_bitmap_set_bits _ _ _).1 h))]
    · intro j hj
      show ((set_area c.m_state logged.idx _).areas logged.idx).area _ = _
      simp only [set_area, Function.update_same]
      rw [copied_of_not_mem, hbase]
      intro x hx hr
      have := chunk_range_unique _ x k _ hr.1 hr.2 (Nat.le_add_right _ _) (by omega)
      subst this
      exact hk ((mem_bitmap_set_bits _ _ _).1 hx)

theorem read_bytes_getD (m : Nat → Nat) (n i : Nat) (h : i < n) :
    (read_bytes m 0 n).getD i 0 = m i := by
  rw [List.getD_eq_getElem _ _ (by rw [read_bytes_length]; exact h)]
  simp only [read_bytes, List.getElem_map, List.getElem_range, Nat.zero_add]

theorem s7_rest : s7_cursor.rest =
    Item.hdr s7_area.tomalloc_area_hdr ::
      Item.bitmap (read_bitmap s7_area.use_bitmap 1) ::
      Item.bytes (read_bytes s7_area.area 0 128) :: [] := rfl

theorem s7_kept : ∀ j, j < 16 →
    (s7_cursor.m_state.areas 0).area (0 * 16 + j) = 170 ∧
    (s7_cursor.m_state.areas 0).area (2 * 16 + j) = 170 ∧
    (s7_cursor.m_state.areas 0).area (4 * 16 + j) = 170 ∧
    (s7_cursor.m_state.areas 0).area (5 * 16 + j) = 255 := by
  decide

/-- Scenario S7: a full log of an area logged wholesale, then an incremental
log that holds the chunks 0, 2 and 4.  When the restore at the incremental log
reaches the record of the full log, the chunks 1 and 3, still to be restored,
are taken from the payload (`0x11`), the chunks 0, 2 and 4 keep the bytes of
the incremental log (`0xAA`), chunk 5, not allocated, keeps the bytes of the
live area (`0xFF`), and the cursor is at the end of the log. -/
theorem wholesale_in_chain_witness :
    ∃ c1 t1, restore_incremental_full_area plat s7_cursor = Except.ok c1 ∧
      c1.ptr = 217 ∧ c1.rest = [] ∧ c1.to_be_restored 0 = some t1 ∧
      t1 1 = false ∧ t1 3 = false ∧
      read_bytes (c1.m_state.areas 0).area (1 * 16) 16 = List.replicate 16 17 ∧
      read_bytes (c1.m_state.areas 0).area (3 * 16) 16 = List.replicate 16 17 ∧
      read_bytes (c1.m_state.areas 0).area (0 * 16) 16 = List.replicate 16 170 ∧
      read_bytes (c1.m_state.areas 0).area (2 * 16) 16 = List.replicate 16 170 ∧
      read_bytes (c1.m_state.areas 0).area (4 * 16) 16 = List.replicate 16 170 ∧
      read_bytes (c1.m_state.areas 0).area (5 * 16) 16 = List.replicate 16 255 := by
  obtain ⟨c1, t1, h1, h2, h3, h4, h5, h6⟩ :=
    wholesale_in_chain plat s7_cursor s7_area.tomalloc_area_hdr
      (read_bitmap s7_area.use_bitmap 1) (read_bytes s7_area.area 0 128) [] s7_rest rfl
      (by decide) (read_bitmap_length _ _) (read_bytes_length _ _ _) (fun k hk _ => hk)
  have hp : ∀ k j, k < 5 → j < 16 →
      (read_bytes s7_area.area 0 128).getD (k * 16 + j) 0 = 17 := by
    intro k j hk hj
    rw [read_bytes_getD _ _ _ (by omega)]
    show (if k * 16 + j < 80 then 17 else 0) = 17
    rw [if_pos (by omega)]
  refine ⟨c1, t1, h1, h2, h3, h4, (h5 1 (by decide) rfl).1, (h5 3 (by decide) rfl).1,
    ?_, ?_, ?_, ?_, ?_, ?_⟩
  · exact read_bytes_eq_replicate _ _ _ _ (fun j hj =>
      ((h5 1 (by decide) rfl).2 j hj).trans (hp 1 j (by decide) hj))
  · exact read_bytes_eq_replicate _ _ _ _ (fun j hj =>
      ((h5 3 (by decide) rfl).2 j hj).trans (hp 3 j (by decide) hj))
  · exact read_bytes_eq_replicate _ _ _ _ (fun j hj =>
      ((h6 0 (by decide)).2 j hj).trans (s7_kept j hj).1)
  · exact read_bytes_eq_replicate _ _ _ _ (fun j hj =>
      ((h6 2 (by decide)).2 j hj).trans (s7_kept j hj).2.1)
  · exact read_bytes_eq_replicate _ _ _ _ (fun j hj =>
      ((h6 4 (by decide)).2 j hj).trans (s7_kept j hj).2.2.1)
  · exact read_bytes_eq_replicate _ _ _ _ (fun j hj =>
      ((h6 5 (by decide)).2 j hj).trans (s7_kept j hj).2.2.2)

/-! ## C25 and C27: the slots that an incremental restore addresses -/

set_option maxRecDepth 100000

theorem records_all (blobs : List Ckpt) (p : malloc_area_hdr → Bool)
    (h : (blobs.all fun b => (area_records b.items).all p) = true) :
    ∀ blob, blob ∈ blobs → ∀ a, a ∈ area_records blob.items → p a = true := by
  intro blob hb a ha
  rw [List.all_eq_true] at h
  have := h blob hb
  rw [List.all_eq_true] at this
  exact this a ha

/-- C25: the size of `to_be_restored`.  The function `restore_incremental`
starts its walk with the header of the log to restore in the memory map and
with every entry of `to_be_restored` absent; the entries from
`max_num_areas` of that header on are never set; and when every area record
of every log that the walk reads has `idx` below that `max_num_areas`, the
restore does not access `to_be_restored` out of bounds. -/
theorem to_be_restored_bounds (P : Platform) (lp : lp_struct) (node : Ckpt) (prevs : List Ckpt)
    (hpre : ∀ blob, blob ∈ blobs_read (node :: prevs) →
      ∀ a, a ∈ area_records blob.items → a.idx < node.state.max_num_areas) :
    restore_incremental P lp node prevs ≠ Except.error Fatal.out_of_bounds ∧
    (∀ r, restore_incremental_chain P node prevs
        { lp.m_state with tomalloc_state_hdr := node.state } (fun _ => none) = Except.ok r →
      ∀ i, node.state.max_num_areas ≤ i → r.2 i = none) := by
  refine ⟨?_, ?_⟩
  · intro h
    unfold restore_incremental at h
    simp only at h
    split at h
    · rename_i e he
      rw [Except.error.inj h] at he
      exact restore_incremental_chain_bounds P prevs node _ _ hpre he
    · cases h
  · intro r hr i hi
    exact (restore_incremental_chain_head P prevs node _ _ r hr).2.2 i hi

/-- Scenario S7, whose logs have one area in a map with room for 4: the
records of the two logs have `idx` 0 and the restore returns. -/
theorem to_be_restored_bounds_witness :
    s7_inc.state.num_areas = 1 ∧ s7_inc.state.max_num_areas = 4 ∧
    restore_incremental plat s7_live s7_inc [s7_full] ≠ Except.error Fatal.out_of_bounds ∧
    restore_incremental plat s7_live s7_inc [s7_full] =
      Except.ok (ok_or (restore_incremental plat s7_live s7_inc [s7_full]) s7_live) :=
  ⟨rfl, rfl,
    (to_be_restored_bounds plat s7_live s7_inc [s7_full]
      (fun blob hb a ha => of_decide_eq_true
        (records_all [s7_inc, s7_full] (fun a => decide (a.idx < 4)) rfl blob hb a ha))).1,
    rfl⟩

/-- C27: the areas absent from the whole chain.  When `restore_incremental`
returns, a slot below the `num_areas` of the restored log that no area
record names, in any of the logs that the walk reads, holds the area that it
held before the restore: the header fields, the use bitmap, the dirty
tracking and the bytes are the same; only the link `next` may differ. -/
theorem absent_area_untouched (P : Platform) (lp : lp_struct) (node : Ckpt) (prevs : List Ckpt)
    (r : lp_struct) (h : restore_incremental P lp node prevs = Except.ok r)
    (i : Nat) (hi : i < node.state.num_areas)
    (habs : ∀ blob, blob ∈ blobs_read (node :: prevs) →
      ∀ a, a ∈ area_records blob.items → a.idx ≠ i) :
    ∃ nx, r.m_state.areas i = { lp.m_state.areas i with next := nx } := by
  unfold restore_incremental at h
  simp only at h
  split at h
  · cases h
  · rename_i r1 hr1
    rw [← Except.ok.inj h]
    obtain ⟨i1, i2, _⟩ := restore_incremental_chain_head P prevs node _ _ r1 hr1
    have hn : r1.1.num_areas = node.state.num_areas :=
      congrArg malloc_state_hdr.num_areas i1
    obtain ⟨nx, hnx⟩ := reset_trailing_other P lp.m_state.num_areas r1.1 i
      (Or.inl (by rw [hn]; exact hi))
    refine ⟨nx, ?_⟩
    show (reset_trailing P lp.m_state.num_areas r1.1).areas i = _
    rw [hnx, (i2 i habs).1]

/-- Scenario S8: the full log has no record for area 0, which was unused, and
the incremental log holds area 1 only; the restore leaves in slot 0 the area,
in use by then, that the LP held when the restore was asked for. -/
theorem absent_area_untouched_witness :
    ∃ nx, (ok_or (restore_incremental plat s8_live s8_inc [s8_full]) s8_live).m_state.areas 0 =
      { s8_live.m_state.areas 0 with next := nx } :=
  absent_area_untouched plat s8_live s8_inc [s8_full]
    (ok_or (restore_incremental plat s8_live s8_inc [s8_full]) s8_live) rfl 0 (by decide)
    (fun blob hb a ha => of_decide_eq_true
      (records_all [s8_inc, s8_full] (fun a => decide (a.idx ≠ 0)) rfl blob hb a ha))

/-! ## C23: the writers and the reader of a chain agree on the sizes -/

theorem parse_inc_log (P : Platform) (nc : Nat → Nat) (blob : Ckpt) (recs : List malloc_area)
    (m : malloc_state) (tbr : Nat → Option (Nat → Bool))
    (hlog : is_inc_log P blob recs) (hfit : recs_fit P nc m.tomalloc_state_hdr recs) :
    ∃ c, parse_log P blob m tbr = Except.ok c ∧ c.ptr = declared_size blob ∧ c.rest = [] := by
  obtain ⟨hinc, hitems, hsize, hsc⟩ := hlog
  unfold parse_log declared_size
  rw [hinc]
  simp only [if_true]
  rw [inc_loop_spec P recs m.num_areas _ _ hitems (by rw [hsize, hitems]) hfit.1
    (fun a ha => ⟨hsc a ha, (hfit.2 a ha).1⟩)]
  exact ⟨_, rfl, rfl, rfl⟩

theorem parse_full_log (P : Platform) (nc : Nat → Nat) (blob : Ckpt) (recs : List malloc_area)
    (m : malloc_state) (tbr : Nat → Option (Nat → Bool))
    (hlog : is_full_log P blob recs) (hfit : recs_fit P nc m.tomalloc_state_hdr recs)
    (hinv : tbr_in_range nc tbr) :
    ∃ c, parse_log P blob m tbr = Except.ok c ∧ c.ptr = declared_size blob ∧ c.rest = [] := by
  obtain ⟨hinc, hitems, hsize, hac⟩ := hlog
  unfold parse_log declared_size
  rw [hinc]
  simp only [Bool.false_eq_true, if_false]
  rw [full_loop_spec P nc recs m.num_areas _ _ hitems (by rw [hsize, hitems]) hfit.1
    (fun a ha => ⟨hac a ha, hfit.2 a ha⟩) hinv]
  exact ⟨_, rfl, rfl, rfl⟩

/-- C23: the writers and the reader agree on the sizes along a chain.  The
LP has `n` well formed areas with a fixed number of chunks; `s0` is its state
when the full log F is taken, the live `total_log_size` field being the size
that `get_log_size` returns for the full log, and `rest` and `sk` its states
when the incremental logs are taken (`sk` the newest); every one of these
checkpoints returns.  Then `restore_incremental` at the newest
incremental log returns, for every live state; and in every state that the
walk can be in, the loop over the records of an incremental log of the chain
ends with the cursor at the `total_inc_size` of the log, and the loop over
the records of F ends with the cursor at the `total_log_size` of F, no record
being left in either case. -/
theorem chain_parse (P : Platform) (n : Nat) (s0 sk : lp_struct) (rest : List lp_struct)
    (live : lp_struct) (older : List Ckpt)
    (hwf : ∀ s, s ∈ s0 :: sk :: rest → well_formed P n s)
    (hlay : ∀ s, s ∈ s0 :: rest → ∀ i, i < n →
      (s.m_state.areas i).num_chunks = (sk.m_state.areas i).num_chunks)
    (hF : log_full P s0 = Except.ok (lp_after_full P s0, ckpt_full P s0))
    (hFsize : s0.m_state.total_log_size = get_log_size P s0.m_state)
    (hI : ∀ s, s ∈ sk :: rest →
      log_incremental P s = Except.ok (lp_after_inc P s, ckpt_inc P s))
    (hmax : n ≤ sk.m_state.max_num_areas) :
    (∃ A, restore_incremental P live (ckpt_inc P sk)
      (rest.map (ckpt_inc P) ++ ckpt_full P s0 :: older) = Except.ok A) ∧
    (∀ s, s ∈ sk :: rest → ∀ (m : malloc_state) (tbr : Nat → Option (Nat → Bool)),
      m.tomalloc_state_hdr = (ckpt_inc P sk).state →
      ∃ c, parse_log P (ckpt_inc P s) m tbr = Except.ok c ∧
        c.ptr = (ckpt_inc P s).state.total_inc_size ∧ c.rest = []) ∧
    (∀ (m : malloc_state) (tbr : Nat → Option (Nat → Bool)),
      m.tomalloc_state_hdr = (ckpt_inc P sk).state →
      tbr_in_range (fun i => (sk.m_state.areas i).num_chunks) tbr →
      ∃ c, parse_log P (ckpt_full P s0) m tbr = Except.ok c ∧
        c.ptr = (ckpt_full P s0).state.total_log_size ∧ c.rest = []) := by
  have hwk : well_formed P n sk := hwf sk (by simp)
  have hw0 : well_formed P n s0 := hwf s0 (by simp)
  have hnk : sk.m_state.num_areas = n := hwk.1
  have hlayk : ∀ s, s ∈ sk :: rest → ∀ i, i < n →
      (s.m_state.areas i).num_chunks = (sk.m_state.areas i).num_chunks := by
    intro s hs i hi
    rcases List.mem_cons.1 hs with h | h
    · rw [h]
    · exact hlay s (List.mem_cons_of_mem _ h) i hi
  have hlay0 : ∀ i, i < n →
      (s0.m_state.areas i).num_chunks = (sk.m_state.areas i).num_chunks :=
    fun i hi => hlay s0 (List.mem_cons_self _ _) i hi
  have hFinv := (log_full_inv P s0 _ hF).2
  have hinc : ∀ s, s ∈ sk :: rest → is_inc_log P (ckpt_inc P s) (inc_recs s) ∧
      recs_fit P (fun i => (sk.m_state.areas i).num_chunks) (ckpt_inc P sk).state (inc_recs s) := by
    intro s hs
    refine ⟨ckpt_inc_is_inc_log P s (log_incremental_inv P s _ (hI s hs)).2.2, ?_⟩
    exact range_recs_fit P n _ _ s _ (hwf s (List.mem_cons_of_mem _ hs))
      (le_of_eq hnk.symm) hmax (hlayk s hs)
  have hfull : is_full_log P (ckpt_full P s0) (full_recs s0) :=
    ckpt_full_is_full_log P s0 (by rw [hFsize]; exact hFinv)
  have hffit : recs_fit P (fun i => (sk.m_state.areas i).num_chunks) (ckpt_inc P sk).state
      (full_recs s0) :=
    range_recs_fit P n _ _ s0 _ hw0 (le_of_eq hnk.symm) hmax hlay0
  have hspec := restore_incremental_spec P (fun i => (sk.m_state.areas i).num_chunks) live
    ((sk :: rest).map (fun s => (ckpt_inc P s, inc_recs s))) (ckpt_full P s0) (full_recs s0)
    older (ckpt_inc P sk) (rest.map (ckpt_inc P) ++ ckpt_full P s0 :: older)
    (by simp [List.map_map, Function.comp_def])
    (by
      intro p hp
      obtain ⟨s, hs, hsp⟩ := List.mem_map.1 hp
      subst hsp
      exact hinc s hs)
    hfull hffit
  refine ⟨⟨_, hspec⟩, ?_, ?_⟩
  · intro s hs m tbr hm
    obtain ⟨c, h1, h2, h3⟩ := parse_inc_log P (fun i => (sk.m_state.areas i).num_chunks)
      (ckpt_inc P s) (inc_recs s) m tbr (hinc s hs).1 (by rw [hm]; exact (hinc s hs).2)
    exact ⟨c, h1, h2, h3⟩
  · intro m tbr hm hinv
    obtain ⟨c, h1, h2, h3⟩ := parse_full_log P (fun i => (sk.m_state.areas i).num_chunks)
      (ckpt_full P s0) (full_recs s0) m tbr hfull (by rw [hm]; exact hffit) hinv
    exact ⟨c, h1, h2, h3⟩

/-- Scenario S5 as a chain: the full checkpoint of S1, whose `total_log_size`
is the 137 bytes of the full log, and two incremental checkpoints; the
restore at the newest incremental log returns, and the loops over the newest
incremental log and over the full log end at 106 and at 137 bytes. -/
theorem chain_parse_witness :
    (∃ A, restore_incremental plat s1_lp_later (ckpt_inc plat s5_lp2)
      ([s5_lp1].map (ckpt_inc plat) ++ ckpt_full plat s1_lp :: []) = Except.ok A) ∧
    (∃ c, parse_log plat (ckpt_inc plat s5_lp2)
        { s1_lp_later.m_state with tomalloc_state_hdr := (ckpt_inc plat s5_lp2).state }
        (fun _ => none) = Except.ok c ∧ c.ptr = 106 ∧ c.rest = []) ∧
    (∃ c, parse_log plat (ckpt_full plat s1_lp)
        { s1_lp_later.m_state with tomalloc_state_hdr := (ckpt_inc plat s5_lp2).state }
        (fun _ => none) = Except.ok c ∧ c.ptr = 137 ∧ c.rest = []) := by
  obtain ⟨h1, h2, h3⟩ := chain_parse plat 1 s1_lp s5_lp2 [s5_lp1] s1_lp_later []
    (by
      intro s hs
      simp only [List.mem_cons, List.mem_singleton, List.not_mem_nil, or_false] at hs
      rcases hs with h | h | h <;> rw [h] <;> exact run_well_formed _ rfl rfl rfl)
    (by
      intro s hs i hi
      have h0 : i = 0 := Nat.lt_one_iff.mp hi
      subst h0
      simp only [List.mem_cons, List.mem_singleton, List.not_mem_nil, or_false] at hs
      rcases hs with h | h <;> rw [h] <;> rfl)
    (run_log_full s1_area 9 (by decide)) (by decide)
    (by
      intro s hs
      simp only [List.mem_cons, List.mem_singleton, List.not_mem_nil, or_false] at hs
      rcases hs with h | h <;> rw [h]
      · exact run_log_incremental s5_area2 11 (by decide) (by decide)
      · exact run_log_incremental s5_area1 10 (by decide) (by decide))
    (by decide)
  exact ⟨h1, h2 s5_lp2 (List.mem_cons_self _ _) _ _ rfl,
    h3 _ _ rfl (fun idx t ht => by cases ht)⟩

end RootSim
